import Mathlib

/-!
# go-performance-tips: the record decoder, Fibonacci and the loops

A shallow embedding of `internal/parse/parse.go`, `internal/unsafe/unsafe.go`,
`internal/fibonacci/fibonacci.go` and `internal/loops/loops.go`.

* A Go `string` and a Go `[]byte` are both a finite sequence of bytes; they are
  embedded as `List Byte`.  A nil slice and an empty slice are the same value
  here: the code only takes their length, slices them and converts them to
  strings, and none of these tells them apart.
* `strconv.Atoi` belongs to the Go standard library, not to the repository.  It
  is transcribed from the library (`strconv/atoi.go`) at the arguments the code
  passes, for a 64-bit `int`.
* `float64` and `strconv.ParseFloat` are parameters of the decoders
  (`Float64Lib`): no property of floating-point arithmetic is used.  The syntax
  of `strconv.ParseFloat` is transcribed from the library (`strconv/atof.go`)
  over a numeric layer that stays a parameter (`Float64Num`, `goFloat64Lib`).
* Indexing a slice out of range is a run-time panic in Go; `Person` therefore
  returns an `Outcome`.
* The cast of `unsafe.ToString` is also given on slice and string headers
  (`ToStringHeader`), read against a memory.  The two byte decoders are given
  on headers as well (`PersonBytesUnsafeMem`, `PersonBytesMem`): sub-slices
  share the data of the buffer, `string(bs)` copies into memory of the heap
  that no object occupies, and `bs[i] = v` is a store.
* Go `int` is 64 bits wide; its arithmetic wraps (`wrapInt64`).
-/

namespace GoPerf

/-! ## Bytes and strings -/

/-- A byte (Go `byte`, `uint8`); arithmetic on `Fin 256` wraps as Go's does. -/
abbrev Byte := Fin 256

/-- A Go rune (`int32`). -/
abbrev Rune := Int

/-- The ASCII space, the literal `" "` / `' '` of parse.go. -/
def SP : Byte := 0x20

/-- The ASCII unit separator, the literal `'\x1f'` of parse.go. -/
def US : Byte := 0x1f

/-- Go `bytes.IndexByte` / `strings.IndexByte`: the index of the first
occurrence of `c` in `s`, or `-1` when there is none. -/
def IndexByte : List Byte → Byte → Int
  | [], _ => -1
  | b :: bs, c =>
    if b = c then 0
    else
      let i := IndexByte bs c
      if i < 0 then -1 else i + 1

/-- Go `strings.Count` for a one-byte substring: the number of occurrences. -/
def Count (s : List Byte) (c : Byte) : Nat := s.count c

/-- The loop of Go `strings.genSplit` (with `sepSave = 0` and a one-byte
separator): `n` counts the iterations that are left (`n - i` in the source). -/
def genSplitLoop : Nat → List Byte → Byte → List (List Byte)
  | 0, s, _ => [s]
  | n + 1, s, sep =>
    let m := IndexByte s sep
    if m < 0 then [s]
    else s.take m.toNat :: genSplitLoop n (s.drop (m.toNat + 1)) sep

/-- Go `strings.Split(s, sep)` for a one-byte separator, i.e.
`genSplit(s, sep, 0, -1)`: `n = Count(s, sep) + 1`, capped at `len(s) + 1`,
and the loop runs while `i < n - 1`. -/
def Split (s : List Byte) (sep : Byte) : List (List Byte) :=
  let n := Count s sep + 1
  let n := if n > s.length + 1 then s.length + 1 else n
  genSplitLoop (n - 1) s sep

/-! ## strconv (Go standard library) -/

/-- The two sentinel errors of strconv: `ErrSyntax` and `ErrRange`. -/
inductive ErrKind where
  | ErrSyntax
  | ErrRange
  deriving DecidableEq, Repr

/-- The function names strconv records in a `NumError`. -/
inductive FuncName where
  | fnAtoi
  | fnParseInt
  | fnParseUint
  | fnParseFloat
  deriving DecidableEq, Repr

/-- Go `strconv.NumError`: the failing function, the input text and the cause. -/
structure NumError where
  Func : FuncName
  Num : List Byte
  Err : ErrKind
  deriving DecidableEq, Repr

/-- Go `error`: `none` is `nil`. -/
abbrev GoError := Option NumError

/-- strconv `syntaxError(fn, str)`. -/
def syntaxError (fn : FuncName) (str : List Byte) : NumError :=
  { Func := fn, Num := str, Err := ErrKind.ErrSyntax }

/-- strconv `rangeError(fn, str)`. -/
def rangeError (fn : FuncName) (str : List Byte) : NumError :=
  { Func := fn, Num := str, Err := ErrKind.ErrRange }

/-- The constant `maxUint64 = 1<<64 - 1`. -/
def maxUint64 : Nat := 2 ^ 64 - 1

/-- strconv `lower(c)`: `c | ('x' - 'X')`. -/
def lower (c : Byte) : Byte := c ||| 0x20

/-- The digit loop of `strconv.ParseUint(s, 10, 0)` on a 64-bit platform:
`cutoff = maxUint64/10 + 1`, `maxVal = 1<<64 - 1`, `uint64` arithmetic wraps
modulo `2^64`.  The result is the value returned and the kind of the error
(`none` for `nil`). -/
def parseUintLoop : List Byte → Nat → Nat × Option ErrKind
  | [], n => (n, none)
  | c :: rest, n =>
    let d? : Option Byte :=
      if (0x30 : Byte) ≤ c ∧ c ≤ 0x39 then some (c - 0x30)
      else if (0x61 : Byte) ≤ lower c ∧ lower c ≤ 0x7a then some (lower c - 0x61 + 10)
      else none
    match d? with
    | none => (0, some ErrKind.ErrSyntax)
    | some d =>
      if d ≥ (10 : Byte) then (0, some ErrKind.ErrSyntax)
      else if n ≥ maxUint64 / 10 + 1 then (maxUint64, some ErrKind.ErrRange)
      else
        let n10 := (n * 10) % 2 ^ 64
        let n1 := (n10 + d.val) % 2 ^ 64
        if n1 < n10 ∨ n1 > maxUint64 then (maxUint64, some ErrKind.ErrRange)
        else parseUintLoop rest n1

/-- Go `strconv.ParseUint(s, 10, 0)` on a 64-bit platform. -/
def ParseUint (s : List Byte) : Nat × GoError :=
  if s = [] then (0, some (syntaxError FuncName.fnParseUint s))
  else
    match parseUintLoop s 0 with
    | (n, none) => (n, none)
    | (n, some k) => (n, some { Func := FuncName.fnParseUint, Num := s, Err := k })

/-- Conversion `int64(un)` of a `uint64`: two's complement reinterpretation. -/
def toInt64 (un : Nat) : Int :=
  if un % 2 ^ 64 < 2 ^ 63 then (un % 2 ^ 64 : Nat) else (un % 2 ^ 64 : Nat) - 2 ^ 64

/-- Negation of an `int64`, wrapping. -/
def negInt64 (n : Int) : Int :=
  if n = -(2 ^ 63) then n else -n

/-- Go `strconv.ParseInt(s, 10, 0)` on a 64-bit platform. -/
def ParseInt (s : List Byte) : Int × GoError :=
  if s = [] then (0, some (syntaxError FuncName.fnParseInt s))
  else
    let s0 := s
    let neg := s.head? = some 0x2d
    let s := if s.head? = some 0x2b then s.tail else if s.head? = some 0x2d then s.tail else s
    let (un, err) := ParseUint s
    if err ≠ none ∧ err.map NumError.Err ≠ some ErrKind.ErrRange then
      (0, err.map fun e => { e with Func := FuncName.fnParseInt, Num := s0 })
    else
      let cutoff : Nat := 2 ^ 63
      if ¬ neg ∧ un ≥ cutoff then ((cutoff - 1 : Nat), some (rangeError FuncName.fnParseInt s0))
      else if neg ∧ un > cutoff then (-(cutoff : Int), some (rangeError FuncName.fnParseInt s0))
      else
        let n := toInt64 un
        (if neg then negInt64 n else n, none)

/-- The digit loop of the fast path of `strconv.Atoi`: `ch -= '0'` wraps in
`byte`, and `ch > 9` is a syntax error (`none`). -/
def atoiLoop : List Byte → Int → Option Int
  | [], n => some n
  | ch :: rest, n =>
    let ch := ch - 0x30
    if ch > (9 : Byte) then none
    else atoiLoop rest (n * 10 + (ch.val : Int))

/-- Go `strconv.Atoi` with `intSize = 64`: the fast path for texts of 1 to 18
bytes, and `ParseInt(s, 10, 0)` otherwise, with the error's function name
replaced by `Atoi`. -/
def Atoi (s : List Byte) : Int × GoError :=
  let sLen := s.length
  if 0 < sLen ∧ sLen < 19 then
    let s0 := s
    let signed := s.head? = some 0x2d ∨ s.head? = some 0x2b
    let s := if signed then s.tail else s
    if signed ∧ s.length < 1 then (0, some (syntaxError FuncName.fnAtoi s0))
    else
      match atoiLoop s 0 with
      | none => (0, some (syntaxError FuncName.fnAtoi s0))
      | some n => (if s0.head? = some 0x2d then -n else n, none)
  else
    let (i64, err) := ParseInt s
    (i64, err.map fun e => { e with Func := FuncName.fnAtoi })

/-- The part of the Go library that is a parameter of the development: the
type `float64`, its zero value, and `strconv.ParseFloat(s, 64)`. -/
structure Float64Lib where
  float64 : Type
  zero : float64
  ParseFloat : List Byte → float64 × GoError

/-- An ASCII decimal digit, `'0'` to `'9'`. -/
def isDigit (c : Byte) : Prop := (0x30 : Byte) ≤ c ∧ c ≤ 0x39

instance (c : Byte) : Decidable (isDigit c) := by unfold isDigit; infer_instance

/-- The number a text of decimal digits denotes, continuing from `n`. -/
def decimalFrom (s : List Byte) (n : Nat) : Nat :=
  s.foldl (fun n c => n * 10 + (c.val - 0x30)) n

/-- The text without its leading sign (`'-'` or `'+'`), if it has one. -/
def dropSign (s : List Byte) : List Byte :=
  if s.head? = some 0x2d ∨ s.head? = some 0x2b then s.tail else s

/-- The grammar of decimal integers: an optional leading `'-'` or `'+'`, then
one or more ASCII decimal digits. -/
def intGrammar (s : List Byte) : Prop :=
  dropSign s ≠ [] ∧ ∀ c ∈ dropSign s, isDigit c

instance (s : List Byte) : Decidable (intGrammar s) := by unfold intGrammar; infer_instance

/-- The integer a text of the grammar denotes. -/
def intValue (s : List Byte) : Int :=
  if s.head? = some 0x2d then -(decimalFrom (dropSign s) 0 : Int) else decimalFrom (dropSign s) 0

/-- The range of a 64-bit `int`. -/
def inIntRange (v : Int) : Prop := -(2 ^ 63) ≤ v ∧ v ≤ 2 ^ 63 - 1

instance (v : Int) : Decidable (inIntRange v) := by unfold inIntRange; infer_instance

/-- An exact decimal: `mant / 10 ^ scale`. -/
structure Decimal where
  mant : Int
  scale : Nat
  deriving DecidableEq, Repr

/-- The value of a text of decimal digits, `none` when a byte is not a digit. -/
def digitsValue : List Byte → Nat → Option Nat
  | [], n => some n
  | c :: rest, n =>
    if (0x30 : Byte) ≤ c ∧ c ≤ 0x39 then digitsValue rest (n * 10 + (c.val - 0x30)) else none

/-- A sample float parser, used to evaluate the decoders on concrete inputs: it
accepts `-? digits (. digits)?` with at least one digit and returns the exact
decimal the text denotes. -/
def sampleParseFloat (s : List Byte) : Decimal × GoError :=
  let neg := s.head? = some 0x2d
  let body := if neg then s.tail else s
  let ip := body.takeWhile (fun c => c ≠ 0x2e)
  let fp := (body.dropWhile (fun c => c ≠ 0x2e)).tail
  match digitsValue (ip ++ fp) 0 with
  | some v =>
    if ip ++ fp = [] then (⟨0, 0⟩, some (syntaxError FuncName.fnParseFloat s))
    else (⟨if neg then -(v : Int) else v, fp.length⟩, none)
  | none => (⟨0, 0⟩, some (syntaxError FuncName.fnParseFloat s))

/-- A sample instance of the library parameters. -/
def sampleLib : Float64Lib :=
  { float64 := Decimal, zero := ⟨0, 0⟩, ParseFloat := sampleParseFloat }

instance : DecidableEq sampleLib.float64 := inferInstanceAs (DecidableEq Decimal)

/-! ## internal/unsafe -/

/-- Go `unsafe.ToString`: the same bytes, seen as a string. -/
def ToString (bytes : List Byte) : List Byte := bytes

/-- Go `unsafe.ToInt`. -/
def ToInt (bytes : List Byte) : Int × Bool :=
  let s := ToString bytes
  let (n, err) := Atoi s
  if err ≠ none then (0, false) else (n, true)

/-- Go `unsafe.ToFloat64`. -/
def ToFloat64 (L : Float64Lib) (bytes : List Byte) : L.float64 × Bool :=
  let s := ToString bytes
  let (f, err) := L.ParseFloat s
  if err ≠ none then (L.zero, false) else (f, true)

/-! ## internal/parse -/

/-- The struct `person` of parse.go. -/
structure person (F : Type) where
  firstName : List Byte
  lastName : List Byte
  age : Int
  height : F
  deriving DecidableEq, Repr

/-- The zero value `person{}`. -/
def person.zeroValue (L : Float64Lib) : person L.float64 :=
  { firstName := [], lastName := [], age := 0, height := L.zero }

/-- The outcome of a Go call that may panic on an index out of range. -/
inductive Outcome (α : Type) where
  | ret (v : α)
  | panicIndex (index length : Nat)
  deriving DecidableEq, Repr

/-- Go `ParseUntil` of parse.go.  The argument `sep` is not used by the body,
which searches for `" "`. -/
def ParseUntil (s : List Byte) (_sep : Rune) : List Byte × List Byte :=
  if s.length = 0 then ([], [])
  else
    let indexOfNext := IndexByte s SP
    if indexOfNext = -1 then (s, [])
    else (s.take indexOfNext.toNat, s.drop (indexOfNext.toNat + 1))

/-- Go `ParseUntilBytes` of parse.go.  The argument `sep` is not used by the
body, which searches for `'\x1f'`. -/
def ParseUntilBytes (bs : List Byte) (_sep : Byte) : List Byte × List Byte :=
  if bs.length = 0 then ([], [])
  else
    let indexOfNext := IndexByte bs US
    if indexOfNext = -1 then (bs, [])
    else (bs.take indexOfNext.toNat, bs.drop (indexOfNext.toNat + 1))

/-- Go `Person` of parse.go; `split[i]` panics when `i` is out of range. -/
def Person (L : Float64Lib) (s : List Byte) : Outcome (person L.float64 × GoError) :=
  let split := Split s SP
  match split[2]? with
  | none => Outcome.panicIndex 2 split.length
  | some s2 =>
    let (age, err) := Atoi s2
    if err ≠ none then Outcome.ret (person.zeroValue L, err)
    else
      match split[3]? with
      | none => Outcome.panicIndex 3 split.length
      | some s3 =>
        let (height, err) := L.ParseFloat s3
        if err ≠ none then Outcome.ret (person.zeroValue L, err)
        else
          match split[0]?, split[1]? with
          | some s0, some s1 =>
            Outcome.ret ({ firstName := s0, lastName := s1, age := age, height := height }, none)
          | none, _ => Outcome.panicIndex 0 split.length
          | _, none => Outcome.panicIndex 1 split.length

/-- Go `PersonEfficient` of parse.go. -/
def PersonEfficient (L : Float64Lib) (s : List Byte) : person L.float64 × GoError :=
  let (first, rest) := ParseUntil s 0x20
  let (last, rest) := ParseUntil rest 0x20
  let (ageStr, rest) := ParseUntil rest 0x20
  let (heightStr, _) := ParseUntil rest 0x20
  let (age, err) := Atoi ageStr
  if err ≠ none then (person.zeroValue L, err)
  else
    let (height, err) := L.ParseFloat heightStr
    if err ≠ none then (person.zeroValue L, err)
    else ({ firstName := first, lastName := last, age := age, height := height }, none)

/-- Go `PersonBytes` of parse.go; `string(bs)` copies the bytes. -/
def PersonBytes (L : Float64Lib) (bs : List Byte) : person L.float64 × GoError :=
  let (first, rest) := ParseUntilBytes bs US
  let (last, rest) := ParseUntilBytes rest US
  let (ageBytes, rest) := ParseUntilBytes rest US
  let (heightBytes, _) := ParseUntilBytes rest US
  let ageStr := ageBytes
  let (age, err) := Atoi ageStr
  if err ≠ none then (person.zeroValue L, err)
  else
    let heightStr := heightBytes
    let (height, err) := L.ParseFloat heightStr
    if err ≠ none then (person.zeroValue L, err)
    else ({ firstName := first, lastName := last, age := age, height := height }, none)

/-- Go `PersonBytesUnsafe` of parse.go. -/
def PersonBytesUnsafe (L : Float64Lib) (bs : List Byte) : person L.float64 × Bool :=
  let (first, rest) := ParseUntilBytes bs US
  let (last, rest) := ParseUntilBytes rest US
  let (ageBytes, rest) := ParseUntilBytes rest US
  let (heightBytes, _) := ParseUntilBytes rest US
  let (age, ok) := ToInt ageBytes
  if ¬ ok then (person.zeroValue L, false)
  else
    let (height, ok) := ToFloat64 L heightBytes
    if ¬ ok then (person.zeroValue L, false)
    else
      ({ firstName := ToString first, lastName := ToString last, age := age, height := height },
        true)

/-- The four fields of a record joined by the delimiter `sep`:
`f + sep + l + sep + a + sep + h`. -/
def line (sep : Byte) (f l a h : List Byte) : List Byte :=
  f ++ sep :: (l ++ sep :: (a ++ sep :: h))

/-- The text without a single leading `'-'`, if it has one. -/
def dropMinus (s : List Byte) : List Byte :=
  if s.head? = some 0x2d then s.tail else s

/-- The body shared by `PersonEfficient` and `PersonBytes`, with the tokenizer
call as a parameter: four tokens, then the two numeric decodes. -/
def decodeWith (L : Float64Lib) (tok : List Byte → List Byte × List Byte) (s : List Byte) :
    person L.float64 × GoError :=
  let (first, rest) := tok s
  let (last, rest) := tok rest
  let (ageStr, rest) := tok rest
  let (heightStr, _) := tok rest
  let (age, err) := Atoi ageStr
  if err ≠ none then (person.zeroValue L, err)
  else
    let (height, err) := L.ParseFloat heightStr
    if err ≠ none then (person.zeroValue L, err)
    else ({ firstName := first, lastName := last, age := age, height := height }, none)

/-! ## Concrete inputs -/

/-- The text `"joe"`. -/
def joe : List Byte := [0x6a, 0x6f, 0x65]

/-- The text `"bloggs"`. -/
def bloggs : List Byte := [0x62, 0x6c, 0x6f, 0x67, 0x67, 0x73]

/-- The text `"25"`. -/
def age25 : List Byte := [0x32, 0x35]

/-- The text `"182.3"`. -/
def height182_3 : List Byte := [0x31, 0x38, 0x32, 0x2e, 0x33]

/-- The text `"abc"`. -/
def abc : List Byte := [0x61, 0x62, 0x63]

/-- The text `"a"`. -/
def nameA : List Byte := [0x61]

/-- The text `"1.0"`. -/
def height1_0 : List Byte := [0x31, 0x2e, 0x30]

/-- The text `"a,b"`. -/
def aCommaB : List Byte := [0x61, 0x2c, 0x62]

/-- The text `"+5"`. -/
def plusFive : List Byte := [0x2b, 0x35]

/-- The text `"9223372036854775807"`, the largest 64-bit int. -/
def maxIntText : List Byte :=
  [0x39, 0x32, 0x32, 0x33, 0x33, 0x37, 0x32, 0x30, 0x33, 0x36, 0x38, 0x35, 0x34, 0x37, 0x37,
   0x35, 0x38, 0x30, 0x37]

/-- The text `"-9223372036854775808"`, the smallest 64-bit int. -/
def minIntText : List Byte :=
  [0x2d, 0x39, 0x32, 0x32, 0x33, 0x33, 0x37, 0x32, 0x30, 0x33, 0x36, 0x38, 0x35, 0x34, 0x37,
   0x37, 0x35, 0x38, 0x30, 0x38]

/-- The text `"9223372036854775808"`, one above the largest 64-bit int. -/
def overflowText : List Byte :=
  [0x39, 0x32, 0x32, 0x33, 0x33, 0x37, 0x32, 0x30, 0x33, 0x36, 0x38, 0x35, 0x34, 0x37, 0x37,
   0x35, 0x38, 0x30, 0x38]

/-! ## internal/fibonacci -/

/-- Go `int` arithmetic on a 64-bit platform: a result wrapped to 64-bit two's
complement. -/
def wrapInt64 (x : Int) : Int := (x + 2 ^ 63) % 2 ^ 64 - 2 ^ 63

/-- Go `fib` of fibonacci.go; the addition wraps (for `n > 1` the
subtractions `n-1` and `n-2` do not). -/
def fib (n : Int) : Int :=
  if n ≤ 1 then n else wrapInt64 (fib (n - 1) + fib (n - 2))
termination_by n.toNat
decreasing_by all_goals (simp_wf; omega)

/-- The loop `for i := 2; i < n; i++ { n2, n1 = n1, n1 + n2 }` of
`fibSequential`, from the state `i`, `n2`, `n1`; it returns the final `n2`,
`n1` (`i++` does not wrap, since `i < n`). -/
def fibSequentialLoop (i n n2 n1 : Int) : Int × Int :=
  if i < n then fibSequentialLoop (i + 1) n n1 (wrapInt64 (n1 + n2)) else (n2, n1)
termination_by (n - i).toNat
decreasing_by all_goals (simp_wf; omega)

/-- Go `fibSequential` of fibonacci.go. -/
def fibSequential (n : Int) : Int :=
  if n ≤ 1 then n
  else
    let (n2, n1) := fibSequentialLoop 2 n 0 1
    wrapInt64 (n2 + n1)

/-! ## internal/loops -/

/-- The struct `bigObj` of loops.go. -/
structure bigObj where
  id : Int
  lotsOfStuff : Fin (10 * 1024) → Byte

/-- The struct `otherObj` of loops.go. -/
structure otherObj where
  id : Int
  deriving DecidableEq, Repr

/-- The loop `for i := 0; i < len(sl); i++` of `forI`, from index `i` and
state `oo`; `sl[i]` is in range by the loop condition. -/
def forILoop (sl : List bigObj) (i : Nat) (oo : otherObj) : otherObj :=
  if h : i < sl.length then
    forILoop sl (i + 1) (if oo.id = 5 then { id := (sl.get ⟨i, h⟩).id } else oo)
  else oo
termination_by sl.length - i

/-- Go `forI` of loops.go; `otherObj{}` has `id` 0. -/
def forI (sl : List bigObj) : otherObj :=
  forILoop sl 0 { id := 0 }

/-- Go `forRange` of loops.go: the range loop visits the elements in order. -/
def forRange (sl : List bigObj) : otherObj :=
  sl.foldl (fun oo elem => if oo.id = 5 then { id := elem.id } else oo) { id := 0 }

/-- The slice of the benchmarks: ids 0 to 5. -/
def benchSlice : List bigObj :=
  [⟨0, fun _ => 0⟩, ⟨1, fun _ => 0⟩, ⟨2, fun _ => 0⟩, ⟨3, fun _ => 0⟩, ⟨4, fun _ => 0⟩,
   ⟨5, fun _ => 0⟩]

/-! ## Slice and string headers -/

/-- The memory: the byte stored at each address. -/
abbrev Memory := Nat → Byte

/-- The header of a Go slice: data pointer, length, capacity, three words in
this order. -/
structure SliceHeader where
  Data : Nat
  Len : Nat
  Cap : Nat
  deriving DecidableEq, Repr

/-- The header of a Go string: data pointer and length, two words in this
order. -/
structure StringHeader where
  Data : Nat
  Len : Nat
  deriving DecidableEq, Repr

/-- The words of a slice header, in memory order. -/
def SliceHeader.words (b : SliceHeader) : List Nat := [b.Data, b.Len, b.Cap]

/-- The string header read from the words stored at an address. -/
def StringHeader.ofWords : List Nat → StringHeader
  | d :: l :: _ => { Data := d, Len := l }
  | _ => { Data := 0, Len := 0 }

/-- Go `unsafe.ToString` on headers: `*(*string)(unsafe.Pointer(&bytes))` reads
a string header at the address where the slice header `bytes` is stored. -/
def ToStringHeader (bytes : SliceHeader) : StringHeader :=
  StringHeader.ofWords bytes.words

/-- The `n` bytes stored from address `p` on. -/
def bytesAt (m : Memory) (p n : Nat) : List Byte :=
  (List.range n).map fun i => m (p + i)

/-- The value of a slice: the bytes `bs[0]`, ..., `bs[len(bs)-1]`; it is also
the value of the copying conversion `string(bs)`. -/
def SliceHeader.bytes (m : Memory) (b : SliceHeader) : List Byte :=
  bytesAt m b.Data b.Len

/-- The value of a string: its bytes. -/
def StringHeader.bytes (m : Memory) (s : StringHeader) : List Byte :=
  bytesAt m s.Data s.Len

/-! ## strconv.ParseFloat (Go standard library): the syntactic layer

`strconv.ParseFloat` is transcribed from the library (`strconv/atof.go`) as far
as its syntax goes: `special`, `readFloat`, `underscoreOK`, `atof64` and the
check of `ParseFloat` that the whole text was consumed.  The numeric layer
(`float64`, `math.Inf`, `math.NaN` and the conversion of an accepted text to
a value and a range error) is a parameter, `Float64Num`. -/

/-- The numeric layer of `strconv.ParseFloat`: the type `float64`, its zero,
`math.Inf(sign)`, `math.NaN()` and the conversion that `atof64` applies once
`readFloat` has accepted a text (`atofHex`, the exact and Eisel-Lemire paths,
the decimal fallback), from the text `s`, the length `n` read, and the
`mantissa`, `exp`, `neg`, `trunc`, `hex` that `readFloat` returned. -/
structure Float64Num where
  float64 : Type
  zero : float64
  Inf : Int → float64
  NaN : float64
  convert : List Byte → Nat → Nat → Int → Bool → Bool → Bool → float64 × GoError

/-- The text `"infinity"`. -/
def infinityText : List Byte := [0x69, 0x6e, 0x66, 0x69, 0x6e, 0x69, 0x74, 0x79]

/-- The text `"nan"`. -/
def nanText : List Byte := [0x6e, 0x61, 0x6e]

/-- strconv `commonPrefixLenIgnoreCase(s, prefix)`: the length of the common
prefix, the case of `s` ignored (`prefix` is lower-case). -/
def commonPrefixLenIgnoreCase : List Byte → List Byte → Nat
  | c :: s, p :: rest =>
    let c := if (0x41 : Byte) ≤ c ∧ c ≤ 0x5a then c + 0x20 else c
    if c ≠ p then 0 else 1 + commonPrefixLenIgnoreCase s rest
  | _, _ => 0

/-- The case `'i', 'I'` of the switch of strconv `special`, which the case
`'+', '-'` falls through to: `s` is the text after the sign. -/
def specialInfinity (N : Float64Num) (sign : Int) (nsign : Nat) (s : List Byte) :
    N.float64 × Nat × Bool :=
  let n := commonPrefixLenIgnoreCase s infinityText
  let n := if 3 < n ∧ n < 8 then 3 else n
  if n = 3 ∨ n = 8 then (N.Inf sign, nsign + n, true) else (N.zero, 0, false)

/-- strconv `special(s)`: the value, the length read and `ok` for the texts
`inf`, `infinity` (possibly signed) and `nan`, any case. -/
def special (N : Float64Num) (s : List Byte) : N.float64 × Nat × Bool :=
  match s with
  | [] => (N.zero, 0, false)
  | c :: rest =>
    if c = 0x2b ∨ c = 0x2d then
      specialInfinity N (if c = 0x2d then -1 else 1) 1 rest
    else if c = 0x69 ∨ c = 0x49 then specialInfinity N 1 0 s
    else if c = 0x6e ∨ c = 0x4e then
      if commonPrefixLenIgnoreCase s nanText = 3 then (N.NaN, 3, true) else (N.zero, 0, false)
    else (N.zero, 0, false)

/-- The loop of strconv `underscoreOK`; `saw` is `'^'`, `'0'`, `'_'` or
`'!'`. -/
def underscoreOKLoop (hex : Bool) : List Byte → Byte → Bool
  | [], saw => saw ≠ 0x5f
  | c :: rest, saw =>
    if ((0x30 : Byte) ≤ c ∧ c ≤ 0x39) ∨
        (hex = true ∧ (0x61 : Byte) ≤ lower c ∧ lower c ≤ 0x66) then
      underscoreOKLoop hex rest 0x30
    else if c = 0x5f then
      if saw ≠ 0x30 then false else underscoreOKLoop hex rest 0x5f
    else if saw = 0x5f then false
    else underscoreOKLoop hex rest 0x21

/-- strconv `underscoreOK(s)`: underscores appear only between digits or
between a base prefix and a digit. -/
def underscoreOK (s : List Byte) : Bool :=
  let s := if s.head? = some 0x2d ∨ s.head? = some 0x2b then s.tail else s
  match s with
  | a :: b :: rest =>
    if a = 0x30 ∧ (lower b = 0x62 ∨ lower b = 0x6f ∨ lower b = 0x78) then
      underscoreOKLoop (decide (lower b = 0x78)) rest 0x30
    else underscoreOKLoop false s 0x5e
  | _ => underscoreOKLoop false s 0x5e

/-- The local variables of strconv `readFloat` that its digit loop updates. -/
structure readFloatState where
  mantissa : Nat
  trunc : Bool
  underscores : Bool
  sawdot : Bool
  sawdigits : Bool
  nd : Int
  ndMant : Int
  dp : Int
  deriving DecidableEq, Repr

/-- One pass through the body of the digit loop of `readFloat` on the byte
`c`: the state after `continue`, or `none` when the loop is left (`break`). -/
def readFloatStep (base : Nat) (maxMantDigits : Int) (c : Byte) (st : readFloatState) :
    Option readFloatState :=
  if c = 0x5f then some { st with underscores := true }
  else if c = 0x2e then
    if st.sawdot = true then none
    else some { st with sawdot := true, dp := st.nd }
  else if (0x30 : Byte) ≤ c ∧ c ≤ 0x39 then
    let st := { st with sawdigits := true }
    if c = 0x30 ∧ st.nd = 0 then some { st with dp := st.dp - 1 }
    else
      let st := { st with nd := st.nd + 1 }
      if st.ndMant < maxMantDigits then
        some { st with
          mantissa := ((st.mantissa * base) % 2 ^ 64 + (c - 0x30).val) % 2 ^ 64,
          ndMant := st.ndMant + 1 }
      else if c ≠ 0x30 then some { st with trunc := true }
      else some st
  else if base = 16 ∧ (0x61 : Byte) ≤ lower c ∧ lower c ≤ 0x66 then
    let st := { st with sawdigits := true, nd := st.nd + 1 }
    if st.ndMant < maxMantDigits then
      some { st with
        mantissa := ((st.mantissa * 16) % 2 ^ 64 + (lower c - 0x61 + 10).val) % 2 ^ 64,
        ndMant := st.ndMant + 1 }
    else some { st with trunc := true }
  else none

/-- The digit loop of `readFloat` (label `loop`): the text that is left when
the loop ends, and the state. -/
def readFloatDigits (base : Nat) (maxMantDigits : Int) :
    List Byte → readFloatState → List Byte × readFloatState
  | [], st => ([], st)
  | c :: rest, st =>
    match readFloatStep base maxMantDigits c st with
    | none => (c :: rest, st)
    | some st => readFloatDigits base maxMantDigits rest st

/-- The loop of `readFloat` over the digits of the exponent: the text that is
left, the exponent `e` and the flag `underscores`. -/
def readFloatExpDigits : List Byte → Int → Bool → List Byte × Int × Bool
  | [], e, u => ([], e, u)
  | c :: rest, e, u =>
    if ((0x30 : Byte) ≤ c ∧ c ≤ 0x39) ∨ c = 0x5f then
      if c = 0x5f then readFloatExpDigits rest e true
      else readFloatExpDigits rest (if e < 10000 then e * 10 + (c.val : Int) - 0x30 else e) u
    else (c :: rest, e, u)

/-- The results of strconv `readFloat`. -/
structure readFloatResult where
  mantissa : Nat
  exp : Int
  neg : Bool
  trunc : Bool
  hex : Bool
  i : Nat
  ok : Bool
  deriving DecidableEq, Repr

/-- The end of `readFloat`, once the exponent is read: `rest` is the text that
is left, so that `i = len(s) - len(rest)`. -/
def readFloatFinish (s rest : List Byte) (neg hex : Bool) (st : readFloatState)
    (ndMant dp : Int) (underscores : Bool) : readFloatResult :=
  let i := s.length - rest.length
  let exp : Int := if st.mantissa ≠ 0 then dp - ndMant else 0
  { mantissa := st.mantissa, exp := exp, neg := neg, trunc := st.trunc, hex := hex, i := i,
    ok := ¬ (underscores = true ∧ underscoreOK (s.take i) = false) }

/-- The part of strconv `readFloat(s)` after the digit loop: `s3` is the text
that the loop left and `st` its state.  An early `return` gives `ok = false`
and the current values of the named results; the index `i` is the length of
`s` minus the length of the text that is left. -/
def readFloatExponent (s s3 : List Byte) (neg hex : Bool) (st : readFloatState) :
    readFloatResult :=
  let base : Nat := if hex = true then 16 else 10
  let expChar : Byte := if hex = true then 0x70 else 0x65
  let fail (rest : List Byte) : readFloatResult :=
    { mantissa := st.mantissa, exp := 0, neg := neg, trunc := st.trunc, hex := hex,
      i := s.length - rest.length, ok := false }
  if st.sawdigits = false then fail s3
  else
    let dp := if st.sawdot = false then st.nd else st.dp
    let dp := if base = 16 then dp * 4 else dp
    let ndMant := if base = 16 then st.ndMant * 4 else st.ndMant
    match s3 with
    | c :: s4 =>
      if lower c = expChar then
        match s4 with
        | [] => fail s4
        | d :: s5 =>
          let esign : Int := if d = 0x2d then -1 else 1
          let s6 := if d = 0x2b ∨ d = 0x2d then s5 else s4
          match s6 with
          | [] => fail s6
          | g :: _ =>
            if g < 0x30 ∨ g > 0x39 then fail s6
            else
              let (s7, e, u) := readFloatExpDigits s6 0 st.underscores
              readFloatFinish s s7 neg hex st ndMant (dp + e * esign) u
      else if base = 16 then fail s3
      else readFloatFinish s s3 neg hex st ndMant dp st.underscores
    | [] =>
      if base = 16 then fail s3
      else readFloatFinish s s3 neg hex st ndMant dp st.underscores

/-- The text of `readFloat` after the optional sign. -/
def readFloatSign (s : List Byte) : List Byte :=
  if s.head? = some 0x2b ∨ s.head? = some 0x2d then s.tail else s

/-- The test of `readFloat` for a base prefix, on the text after the sign:
`i+2 < len(s) && s[i] == '0' && lower(s[i+1]) == 'x'`. -/
def readFloatHex (s1 : List Byte) : Bool :=
  match s1 with
  | a :: b :: _ :: _ => decide (a = 0x30 ∧ lower b = 0x78)
  | _ => false

/-- strconv `readFloat(s)`: the optional sign, the optional base prefix, the
digit loop, then the exponent. -/
def readFloat (s : List Byte) : readFloatResult :=
  match s with
  | [] =>
    { mantissa := 0, exp := 0, neg := false, trunc := false, hex := false, i := 0, ok := false }
  | c0 :: _ =>
    let neg : Bool := decide (c0 = 0x2d)
    let s1 := readFloatSign s
    let hex : Bool := readFloatHex s1
    let base : Nat := if hex = true then 16 else 10
    let maxMantDigits : Int := if hex = true then 16 else 19
    let s2 := if hex = true then s1.drop 2 else s1
    let (s3, st) := readFloatDigits base maxMantDigits s2
      { mantissa := 0, trunc := false, underscores := false, sawdot := false,
        sawdigits := false, nd := 0, ndMant := 0, dp := 0 }
    readFloatExponent s s3 neg hex st

/-- strconv `atof64(s)`: the value, the length read and the error. -/
def atof64 (N : Float64Num) (s : List Byte) : N.float64 × Nat × GoError :=
  let (val, n, ok) := special N s
  if ok = true then (val, n, none)
  else
    let r := readFloat s
    if r.ok = false then (N.zero, r.i, some (syntaxError FuncName.fnParseFloat s))
    else
      let (f, err) := N.convert s r.i r.mantissa r.exp r.neg r.trunc r.hex
      (f, r.i, err)

/-- Go `strconv.ParseFloat(s, 64)`: `parseFloatPrefix(s, 64)` is `atof64(s)`,
and a text that was not read to its end is a syntax error. -/
def ParseFloat (N : Float64Num) (s : List Byte) : N.float64 × GoError :=
  let (f, n, err) := atof64 N s
  if n ≠ s.length ∧ (err = none ∨ err.map NumError.Err ≠ some ErrKind.ErrSyntax) then
    (N.zero, some (syntaxError FuncName.fnParseFloat s))
  else (f, err)

/-- The library parameters of the decoders, with Go's `strconv.ParseFloat`
over the numeric layer `N`. -/
def goFloat64Lib (N : Float64Num) : Float64Lib :=
  { float64 := N.float64, zero := N.zero, ParseFloat := ParseFloat N }

/-- A sample value type for the numeric layer: `mant * 10 ^ exp` (or
`mant * 2 ^ exp` for a hexadecimal text), the infinities and NaN. -/
inductive SampleFloat where
  | num (mant : Int) (exp : Int)
  | inf (sign : Int)
  | nan
  deriving DecidableEq, Repr

/-- A sample numeric layer, used to evaluate `ParseFloat` on concrete inputs:
it keeps the mantissa and the exponent that `readFloat` returned and reports
no range error. -/
def sampleNum : Float64Num :=
  { float64 := SampleFloat
    zero := SampleFloat.num 0 0
    Inf := SampleFloat.inf
    NaN := SampleFloat.nan
    convert := fun _ _ mantissa exp neg _ _ =>
      (SampleFloat.num (if neg = true then -(mantissa : Int) else mantissa) exp, none) }

instance : DecidableEq sampleNum.float64 := inferInstanceAs (DecidableEq SampleFloat)

instance : DecidableEq (goFloat64Lib sampleNum).float64 :=
  inferInstanceAs (DecidableEq SampleFloat)

/-- The text `"."`. -/
def dotText : List Byte := [0x2e]

/-- The text `"1.2.3"`. -/
def oneTwoThree : List Byte := [0x31, 0x2e, 0x32, 0x2e, 0x33]

/-! ## Slices, strings and decoders on headers

The decoders of parse.go once more, on slice and string headers over a memory,
to follow which addresses the returned strings occupy. -/

/-- A store of the byte `v` at address `q`. -/
def storeByte (m : Memory) (q : Nat) (v : Byte) : Memory :=
  fun a => if a = q then v else m a

/-- Go `bs[i] = v`, for `i < len(bs)`: a store at the address of `bs[i]`. -/
def SliceHeader.setIndex (b : SliceHeader) (m : Memory) (i : Nat) (v : Byte) : Memory :=
  storeByte m (b.Data + i) v

/-- Go `bs[:k]` on headers. -/
def SliceHeader.sliceTo (b : SliceHeader) (k : Nat) : SliceHeader :=
  { Data := b.Data, Len := k, Cap := b.Cap }

/-- Go `bs[k:]` on headers. -/
def SliceHeader.sliceFrom (b : SliceHeader) (k : Nat) : SliceHeader :=
  { Data := b.Data + k, Len := b.Len - k, Cap := b.Cap - k }

/-- The nil slice. -/
def nilSlice : SliceHeader := { Data := 0, Len := 0, Cap := 0 }

/-- Go `ParseUntilBytes` of parse.go on headers: the results are sub-slices of
`bs` (or nil), no byte is copied. -/
def ParseUntilBytesMem (m : Memory) (bs : SliceHeader) (_sep : Byte) :
    SliceHeader × SliceHeader :=
  if bs.Len = 0 then (nilSlice, nilSlice)
  else
    let indexOfNext := IndexByte (bs.bytes m) US
    if indexOfNext = -1 then (bs, nilSlice)
    else (bs.sliceTo indexOfNext.toNat, bs.sliceFrom (indexOfNext.toNat + 1))

/-- The struct `person` of parse.go with its strings as headers. -/
structure personMem (F : Type) where
  firstName : StringHeader
  lastName : StringHeader
  age : Int
  height : F
  deriving DecidableEq, Repr

/-- The zero value `person{}` on headers. -/
def personMem.zeroValue (L : Float64Lib) : personMem L.float64 :=
  { firstName := { Data := 0, Len := 0 }, lastName := { Data := 0, Len := 0 }, age := 0,
    height := L.zero }

/-- The value of a person on headers, read from the memory `m`. -/
def personMem.value {F : Type} (p : personMem F) (m : Memory) : person F :=
  { firstName := p.firstName.bytes m, lastName := p.lastName.bytes m, age := p.age,
    height := p.height }

/-- Go `PersonBytesUnsafe` of parse.go on headers: the numbers are decoded from
the bytes that the memory holds at the call, the two names are casts of
sub-slices of `bs`. -/
def PersonBytesUnsafeMem (L : Float64Lib) (m : Memory) (bs : SliceHeader) :
    personMem L.float64 × Bool :=
  let (first, rest) := ParseUntilBytesMem m bs US
  let (last, rest) := ParseUntilBytesMem m rest US
  let (ageBytes, rest) := ParseUntilBytesMem m rest US
  let (heightBytes, _) := ParseUntilBytesMem m rest US
  let (age, ok) := ToInt (ageBytes.bytes m)
  if ¬ ok then (personMem.zeroValue L, false)
  else
    let (height, ok) := ToFloat64 L (heightBytes.bytes m)
    if ¬ ok then (personMem.zeroValue L, false)
    else
      ({ firstName := ToStringHeader first, lastName := ToStringHeader last, age := age,
         height := height }, true)

/-- The heap: the memory, and the address from which on no object is stored
yet. -/
structure Heap where
  mem : Memory
  next : Nat

/-- The memory after the bytes `src` are written from address `dst` on. -/
def copyBytes (m : Memory) (dst : Nat) (src : List Byte) : Memory :=
  fun a => if dst ≤ a ∧ a < dst + src.length then src.getD (a - dst) 0 else m a

/-- The copying conversion `string(bs)` (the runtime's `slicebytetostring`):
the bytes of `bs` are copied to memory that no object occupies, and the string
is that copy. -/
def slicebytetostring (h : Heap) (b : SliceHeader) : Heap × StringHeader :=
  ({ mem := copyBytes h.mem h.next (b.bytes h.mem), next := h.next + b.Len },
    { Data := h.next, Len := b.Len })

/-- A slice literal `[]byte{...}`: a new backing array holding `elems`. -/
def makeSlice (h : Heap) (elems : List Byte) : Heap × SliceHeader :=
  ({ mem := copyBytes h.mem h.next elems, next := h.next + elems.length },
    { Data := h.next, Len := elems.length, Cap := elems.length })

/-- Go `PersonBytes` of parse.go on headers: each `string(...)` is a copy in
new memory. -/
def PersonBytesMem (L : Float64Lib) (h : Heap) (bs : SliceHeader) :
    Heap × personMem L.float64 × GoError :=
  let (first, rest) := ParseUntilBytesMem h.mem bs US
  let (last, rest) := ParseUntilBytesMem h.mem rest US
  let (ageBytes, rest) := ParseUntilBytesMem h.mem rest US
  let (heightBytes, _) := ParseUntilBytesMem h.mem rest US
  let (h1, ageStr) := slicebytetostring h ageBytes
  let (age, err) := Atoi (ageStr.bytes h1.mem)
  if err ≠ none then (h1, personMem.zeroValue L, err)
  else
    let (h2, heightStr) := slicebytetostring h1 heightBytes
    let (height, err) := L.ParseFloat (heightStr.bytes h2.mem)
    if err ≠ none then (h2, personMem.zeroValue L, err)
    else
      let (h3, firstName) := slicebytetostring h2 first
      let (h4, lastName) := slicebytetostring h3 last
      (h4, { firstName := firstName, lastName := lastName, age := age, height := height }, none)

/-- The text `"111"`. -/
def text111 : List Byte := [0x31, 0x31, 0x31]

/-- The text `"011"`. -/
def text011 : List Byte := [0x30, 0x31, 0x31]

/-- Go `example` of unsafe.go: the two lines it prints, the string `s` read
before and after the store `bs[0] = '0'`. -/
def exampleOutput (h : Heap) : List Byte × List Byte :=
  let (h1, bs) := makeSlice h text111
  let s := ToStringHeader bs
  let line1 := s.bytes h1.mem
  let m2 := bs.setIndex h1.mem 0 0x30
  let line2 := s.bytes m2
  (line1, line2)

/-- The record `"joe" 0x1F "bloggs" 0x1F "25" 0x1F "182.3"` of the benchmarks. -/
def benchRecord : List Byte := line US joe bloggs age25 height182_3

/-- A heap that holds the record of the benchmarks from address 16 on. -/
def benchHeap : Heap := (makeSlice { mem := fun _ => 0, next := 16 } benchRecord).1

/-- The slice of the record in `benchHeap`. -/
def benchBuffer : SliceHeader := (makeSlice { mem := fun _ => 0, next := 16 } benchRecord).2

/-- The slice `a` is empty or lies within the elements of the slice `b`. -/
def SliceHeader.inside (a b : SliceHeader) : Prop :=
  a.Len = 0 ∨ (b.Data ≤ a.Data ∧ a.Data + a.Len ≤ b.Data + b.Len)

/-- The part of `PersonBytesMem` after the four calls of the tokenizer. -/
def PersonBytesMemTail (L : Float64Lib) (h : Heap)
    (first last ageBytes heightBytes : SliceHeader) : Heap × personMem L.float64 × GoError :=
  let (h1, ageStr) := slicebytetostring h ageBytes
  let (age, err) := Atoi (ageStr.bytes h1.mem)
  if err ≠ none then (h1, personMem.zeroValue L, err)
  else
    let (h2, heightStr) := slicebytetostring h1 heightBytes
    let (height, err) := L.ParseFloat (heightStr.bytes h2.mem)
    if err ≠ none then (h2, personMem.zeroValue L, err)
    else
      let (h3, firstName) := slicebytetostring h2 first
      let (h4, lastName) := slicebytetostring h3 last
      (h4, { firstName := firstName, lastName := lastName, age := age, height := height }, none)

/-- The person that `PersonBytesUnsafeMem` returns on `benchBuffer`: the names
are the windows of 3 bytes at address 16 and of 6 bytes at address 20. -/
def benchPerson : personMem sampleLib.float64 :=
  { firstName := { Data := 16, Len := 3 }, lastName := { Data := 20, Len := 6 }, age := 25,
    height := Decimal.mk 1823 1 }

/-! ## The tokenizers -/

theorem IndexByte_of_not_mem (s : List Byte) (c : Byte) (h : c ∉ s) : IndexByte s c = -1 := by
  induction s with
  | nil => rfl
  | cons b bs ih =>
    have hb : ¬ b = c := fun e => h (by simp [e])
    have hbs : c ∉ bs := fun e => h (List.mem_cons_of_mem _ e)
    simp [IndexByte, hb, ih hbs]

theorem IndexByte_append (f r : List Byte) (c : Byte) (h : c ∉ f) :
    IndexByte (f ++ c :: r) c = f.length := by
  induction f with
  | nil => simp [IndexByte]
  | cons b bs ih =>
    have hb : ¬ b = c := fun e => h (by simp [e])
    have hbs : c ∉ bs := fun e => h (List.mem_cons_of_mem _ e)
    have h0 : ¬ ((bs.length : Int) < 0) := by omega
    simp [IndexByte, hb, ih hbs, h0]

theorem exists_first_occurrence (s : List Byte) (c : Byte) (h : c ∈ s) :
    ∃ f r, s = f ++ c :: r ∧ c ∉ f := by
  induction s with
  | nil => simp at h
  | cons b bs ih =>
    by_cases hb : b = c
    · exact ⟨[], bs, by simp [hb], by simp⟩
    · have hbs : c ∈ bs := by
        rcases List.mem_cons.1 h with e | e
        · exact absurd e.symm hb
        · exact e
      obtain ⟨f, r, e, hf⟩ := ih hbs
      refine ⟨b :: f, r, by simp [e], ?_⟩
      intro hm
      rcases List.mem_cons.1 hm with e1 | e1
      · exact hb e1.symm
      · exact hf e1

theorem ParseUntilBytes_found (f r : List Byte) (sep : Byte) (h : US ∉ f) :
    ParseUntilBytes (f ++ US :: r) sep = (f, r) := by
  have hne : ¬ ((f.length : Int) = -1) := by omega
  simp [ParseUntilBytes, IndexByte_append f r US h, hne]

theorem ParseUntilBytes_absent (s : List Byte) (sep : Byte) (h : US ∉ s) :
    ParseUntilBytes s sep = (s, []) := by
  cases s with
  | nil => simp [ParseUntilBytes]
  | cons b bs => simp [ParseUntilBytes, IndexByte_of_not_mem _ _ h]

theorem ParseUntil_found (f r : List Byte) (sep : Rune) (h : SP ∉ f) :
    ParseUntil (f ++ SP :: r) sep = (f, r) := by
  have hne : ¬ ((f.length : Int) = -1) := by omega
  simp [ParseUntil, IndexByte_append f r SP h, hne]

theorem ParseUntil_absent (s : List Byte) (sep : Rune) (h : SP ∉ s) :
    ParseUntil s sep = (s, []) := by
  cases s with
  | nil => simp [ParseUntil]
  | cons b bs => simp [ParseUntil, IndexByte_of_not_mem _ _ h]

theorem ParseUntilBytes_round_trip (bs : List Byte) (sep : Byte) (h : US ∈ bs) :
    (ParseUntilBytes bs sep).1 ++ [US] ++ (ParseUntilBytes bs sep).2 = bs := by
  obtain ⟨f, r, e, hf⟩ := exists_first_occurrence bs US h
  subst e
  rw [ParseUntilBytes_found f r sep hf]
  simp

theorem ParseUntil_round_trip (s : List Byte) (sep : Rune) (h : SP ∈ s) :
    (ParseUntil s sep).1 ++ [SP] ++ (ParseUntil s sep).2 = s := by
  obtain ⟨f, r, e, hf⟩ := exists_first_occurrence s SP h
  subst e
  rw [ParseUntil_found f r sep hf]
  simp

theorem genSplitLoop_found (n : Nat) (f r : List Byte) (sep : Byte) (h : sep ∉ f) :
    genSplitLoop (n + 1) (f ++ sep :: r) sep = f :: genSplitLoop n r sep := by
  have h0 : ¬ ((f.length : Int) < 0) := by omega
  simp [genSplitLoop, IndexByte_append f r sep h, h0]

theorem genSplitLoop_absent (n : Nat) (s : List Byte) (sep : Byte) (h : sep ∉ s) :
    genSplitLoop n s sep = [s] := by
  cases n with
  | zero => rfl
  | succ n => simp [genSplitLoop, IndexByte_of_not_mem _ _ h]

theorem Split_eq (s : List Byte) (sep : Byte) :
    Split s sep = genSplitLoop (Count s sep) s sep := by
  have hle : s.count sep ≤ s.length := List.count_le_length sep s
  have hc : ¬ (s.count sep + 1 > s.length + 1) := by omega
  simp [Split, Count, hc]

theorem Split_found (f r : List Byte) (sep : Byte) (h : sep ∉ f) :
    Split (f ++ sep :: r) sep = f :: Split r sep := by
  rw [Split_eq, Split_eq]
  have hc : Count (f ++ sep :: r) sep = Count r sep + 1 := by
    simp [Count, List.count_append, List.count_eq_zero_of_not_mem h]
  rw [hc, genSplitLoop_found _ _ _ _ h]

theorem Split_absent (s : List Byte) (sep : Byte) (h : sep ∉ s) : Split s sep = [s] := by
  rw [Split_eq, genSplitLoop_absent _ _ _ h]

/-! ## strconv.Atoi -/

set_option maxRecDepth 100000 in
theorem sub_zero_gt_nine_iff : ∀ c : Byte, (c - 0x30 > (9 : Byte)) ↔ ¬ isDigit c := by
  unfold isDigit; decide

set_option maxRecDepth 100000 in
theorem digit_val : ∀ c : Byte, isDigit c → (c - 0x30 : Byte).val = c.val - 0x30 := by
  unfold isDigit; decide

set_option maxRecDepth 100000 in
theorem digit_val_le : ∀ c : Byte, isDigit c → c.val - 0x30 ≤ 9 := by
  unfold isDigit; decide

set_option maxRecDepth 100000 in
theorem digit_not_sign : ∀ c : Byte, isDigit c → c ≠ 0x2d ∧ c ≠ 0x2b ∧ c ≠ SP ∧ c ≠ US := by
  unfold isDigit SP US; decide

theorem decimalFrom_cons (c : Byte) (s : List Byte) (n : Nat) :
    decimalFrom (c :: s) n = decimalFrom s (n * 10 + (c.val - 0x30)) := rfl

theorem decimalFrom_ge (s : List Byte) (n : Nat) : n ≤ decimalFrom s n := by
  induction s generalizing n with
  | nil => exact le_refl _
  | cons c s ih =>
    rw [decimalFrom_cons]
    have := ih (n * 10 + (c.val - 0x30))
    omega

theorem decimalFrom_lt (s : List Byte) (n : Nat) (hd : ∀ c ∈ s, isDigit c) :
    decimalFrom s n < (n + 1) * 10 ^ s.length := by
  induction s generalizing n with
  | nil => simp [decimalFrom]
  | cons c s ih =>
    rw [decimalFrom_cons]
    have h9 := digit_val_le c (hd c (by simp))
    have := ih (n * 10 + (c.val - 0x30)) (fun x hx => hd x (List.mem_cons_of_mem _ hx))
    have hle : (n * 10 + (c.val - 0x30) + 1) * 10 ^ s.length ≤ ((n + 1) * 10) * 10 ^ s.length :=
      Nat.mul_le_mul_right _ (by omega)
    calc decimalFrom s (n * 10 + (c.val - 0x30))
        < (n * 10 + (c.val - 0x30) + 1) * 10 ^ s.length := this
      _ ≤ ((n + 1) * 10) * 10 ^ s.length := hle
      _ = (n + 1) * 10 ^ (c :: s).length := by simp [pow_succ]; ring

theorem atoiLoop_digits (s : List Byte) (n : Nat) (hd : ∀ c ∈ s, isDigit c) :
    atoiLoop s (n : Int) = some ((decimalFrom s n : Nat) : Int) := by
  induction s generalizing n with
  | nil => rfl
  | cons c s ih =>
    have hc : isDigit c := hd c (by simp)
    have hgt : ¬ (c - 0x30 > (9 : Byte)) := by
      rw [sub_zero_gt_nine_iff]; exact not_not.2 hc
    have hv := digit_val c hc
    have hcast : (n : Int) * 10 + (((c - 0x30 : Byte).val : Nat) : Int)
        = ((n * 10 + (c.val - 0x30) : Nat) : Int) := by
      rw [hv]; push_cast; rfl
    simp only [atoiLoop, hgt, if_false]
    rw [hcast, ih _ (fun x hx => hd x (List.mem_cons_of_mem _ hx)), decimalFrom_cons]

theorem atoiLoop_nondigit (s : List Byte) (n : Int) (hd : ¬ ∀ c ∈ s, isDigit c) :
    atoiLoop s n = none := by
  induction s generalizing n with
  | nil => simp at hd
  | cons c s ih =>
    by_cases hc : isDigit c
    · have hgt : ¬ (c - 0x30 > (9 : Byte)) := by
        rw [sub_zero_gt_nine_iff]; exact not_not.2 hc
      have hs : ¬ ∀ x ∈ s, isDigit x := by
        intro h
        apply hd
        intro x hx
        rcases List.mem_cons.1 hx with e | e
        · exact e ▸ hc
        · exact h x e
      simp only [atoiLoop, hgt, if_false]
      exact ih _ hs
    · have hgt : c - 0x30 > (9 : Byte) := (sub_zero_gt_nine_iff c).2 hc
      simp only [atoiLoop, hgt, if_true]

set_option maxRecDepth 100000 in
theorem digit_sub_lt_ten : ∀ c : Byte, isDigit c → ¬ (c - 0x30 ≥ (10 : Byte)) := by
  unfold isDigit; decide

set_option maxRecDepth 100000 in
theorem letter_ge_ten : ∀ c : Byte, (0x61 : Byte) ≤ lower c ∧ lower c ≤ 0x7a →
    lower c - 0x61 + 10 ≥ (10 : Byte) := by
  unfold lower; decide

theorem maxUint64_eq : maxUint64 = 18446744073709551615 := by norm_num [maxUint64]

theorem parseUintLoop_digit (c : Byte) (rest : List Byte) (n : Nat) (hc : isDigit c) :
    parseUintLoop (c :: rest) n =
      if n ≥ 1844674407370955162 then (maxUint64, some ErrKind.ErrRange)
      else if (n * 10 % 2 ^ 64 + (c.val - 0x30)) % 2 ^ 64 < n * 10 % 2 ^ 64 ∨
          (n * 10 % 2 ^ 64 + (c.val - 0x30)) % 2 ^ 64 > maxUint64 then
        (maxUint64, some ErrKind.ErrRange)
      else parseUintLoop rest ((n * 10 % 2 ^ 64 + (c.val - 0x30)) % 2 ^ 64) := by
  have hc2 : (0x30 : Byte) ≤ c ∧ c ≤ 0x39 := hc
  have h10 := digit_sub_lt_ten c hc
  have hv := digit_val c hc
  have hcut : maxUint64 / 10 + 1 = 1844674407370955162 := by norm_num [maxUint64]
  simp only [parseUintLoop, hc2, and_self, if_true, h10, if_false, hv, hcut]

theorem parseUintLoop_nondigit (c : Byte) (rest : List Byte) (n : Nat) (hc : ¬ isDigit c) :
    parseUintLoop (c :: rest) n = (0, some ErrKind.ErrSyntax) := by
  have hc2 : ¬ ((0x30 : Byte) ≤ c ∧ c ≤ 0x39) := hc
  by_cases hl : (0x61 : Byte) ≤ lower c ∧ lower c ≤ 0x7a
  · have h10 := letter_ge_ten c hl
    simp only [parseUintLoop, hc2, if_false, hl, and_self, if_true, h10]
  · simp only [parseUintLoop, hc2, if_false, hl]

theorem parseUintLoop_spec (s : List Byte) (n : Nat) (hd : ∀ c ∈ s, isDigit c)
    (hn : n < 2 ^ 64) :
    parseUintLoop s n =
      if decimalFrom s n < 2 ^ 64 then (decimalFrom s n, none)
      else (maxUint64, some ErrKind.ErrRange) := by
  induction s generalizing n with
  | nil =>
    have h : decimalFrom [] n < 2 ^ 64 := hn
    rw [if_pos h]; rfl
  | cons c s ih =>
    have hc : isDigit c := hd c (by simp)
    have h9 := digit_val_le c hc
    have hge := decimalFrom_ge s (n * 10 + (c.val - 0x30))
    rw [parseUintLoop_digit c s n hc, decimalFrom_cons]
    by_cases h1 : n ≥ 1844674407370955162
    · have : ¬ decimalFrom s (n * 10 + (c.val - 0x30)) < 2 ^ 64 := by omega
      rw [if_pos h1, if_neg this]
    · have hm : n * 10 % 2 ^ 64 = n * 10 := Nat.mod_eq_of_lt (by omega)
      rw [if_neg h1, hm]
      by_cases h2 : n * 10 + (c.val - 0x30) < 2 ^ 64
      · have hm2 : (n * 10 + (c.val - 0x30)) % 2 ^ 64 = n * 10 + (c.val - 0x30) :=
          Nat.mod_eq_of_lt h2
        have h3 : ¬ (n * 10 + (c.val - 0x30) < n * 10 ∨ n * 10 + (c.val - 0x30) > maxUint64) := by
          rw [maxUint64_eq]; omega
        rw [hm2, if_neg h3]
        exact ih _ (fun x hx => hd x (List.mem_cons_of_mem _ hx)) h2
      · have h3 : (n * 10 + (c.val - 0x30)) % 2 ^ 64 < n * 10 := by omega
        have : ¬ decimalFrom s (n * 10 + (c.val - 0x30)) < 2 ^ 64 := by omega
        rw [if_pos (Or.inl h3), if_neg this]

theorem parseUintLoop_reject (s : List Byte) (n : Nat) (hd : ¬ ∀ c ∈ s, isDigit c) :
    (parseUintLoop s n).2 ≠ none := by
  induction s generalizing n with
  | nil => simp at hd
  | cons c s ih =>
    by_cases hc : isDigit c
    · have hs : ¬ ∀ x ∈ s, isDigit x := by
        intro h
        apply hd
        intro x hx
        rcases List.mem_cons.1 hx with e | e
        · exact e ▸ hc
        · exact h x e
      rw [parseUintLoop_digit c s n hc]
      split
      · simp
      · split
        · simp
        · exact ih _ hs
    · rw [parseUintLoop_nondigit c s n hc]; simp

theorem parseUintLoop_reject_cases (s : List Byte) (n : Nat) (hd : ¬ ∀ c ∈ s, isDigit c) :
    parseUintLoop s n = (0, some ErrKind.ErrSyntax) ∨
      parseUintLoop s n = (maxUint64, some ErrKind.ErrRange) := by
  induction s generalizing n with
  | nil => simp at hd
  | cons c s ih =>
    by_cases hc : isDigit c
    · have hs : ¬ ∀ x ∈ s, isDigit x := by
        intro h
        apply hd
        intro x hx
        rcases List.mem_cons.1 hx with e | e
        · exact e ▸ hc
        · exact h x e
      rw [parseUintLoop_digit c s n hc]
      split
      · exact Or.inr rfl
      · split
        · exact Or.inr rfl
        · exact ih _ hs
    · rw [parseUintLoop_nondigit c s n hc]; exact Or.inl rfl

theorem ParseUint_digits (s : List Byte) (hne : s ≠ []) (hd : ∀ c ∈ s, isDigit c) :
    ParseUint s =
      if decimalFrom s 0 < 2 ^ 64 then (decimalFrom s 0, none)
      else (maxUint64, some (rangeError FuncName.fnParseUint s)) := by
  unfold ParseUint
  rw [if_neg hne, parseUintLoop_spec s 0 hd (by norm_num)]
  by_cases h : decimalFrom s 0 < 2 ^ 64
  · rw [if_pos h, if_pos h]
  · rw [if_neg h, if_neg h]; rfl

theorem ParseUint_reject_cases (s : List Byte) (h : ¬ (s ≠ [] ∧ ∀ c ∈ s, isDigit c)) :
    ParseUint s = (0, some (syntaxError FuncName.fnParseUint s)) ∨
      ParseUint s = (maxUint64, some (rangeError FuncName.fnParseUint s)) := by
  unfold ParseUint
  by_cases hne : s = []
  · rw [if_pos hne]; exact Or.inl rfl
  · rw [if_neg hne]
    have hd : ¬ ∀ c ∈ s, isDigit c := fun hd => h ⟨hne, hd⟩
    rcases parseUintLoop_reject_cases s 0 hd with e | e
    · rw [e]; exact Or.inl rfl
    · rw [e]; exact Or.inr rfl

theorem parseInt_strip (s : List Byte) :
    (if s.head? = some 0x2b then s.tail else if s.head? = some 0x2d then s.tail else s)
      = dropSign s := by
  unfold dropSign
  by_cases h1 : s.head? = some 0x2b <;> by_cases h2 : s.head? = some 0x2d <;> simp [h1, h2]

theorem ParseInt_eq (s : List Byte) (hne : s ≠ []) :
    ParseInt s =
      if (ParseUint (dropSign s)).2 ≠ none ∧
          (ParseUint (dropSign s)).2.map NumError.Err ≠ some ErrKind.ErrRange then
        (0, (ParseUint (dropSign s)).2.map fun e =>
          { e with Func := FuncName.fnParseInt, Num := s })
      else if ¬ (s.head? = some 0x2d) ∧ (ParseUint (dropSign s)).1 ≥ 2 ^ 63 then
        (((2 ^ 63 - 1 : Nat) : Int), some (rangeError FuncName.fnParseInt s))
      else if s.head? = some 0x2d ∧ (ParseUint (dropSign s)).1 > 2 ^ 63 then
        (-((2 ^ 63 : Nat) : Int), some (rangeError FuncName.fnParseInt s))
      else
        (if s.head? = some 0x2d then negInt64 (toInt64 (ParseUint (dropSign s)).1)
          else toInt64 (ParseUint (dropSign s)).1, none) := by
  unfold ParseInt
  rw [if_neg hne]
  simp only [parseInt_strip]

theorem intGrammar_ne_nil (s : List Byte) (h : intGrammar s) : s ≠ [] := by
  intro e
  subst e
  exact h.1 (by simp [dropSign])

theorem ParseInt_of_range_error (s : List Byte) (hne : s ≠ [])
    (h : ParseUint (dropSign s) = (maxUint64, some (rangeError FuncName.fnParseUint (dropSign s)))) :
    (ParseInt s).2 ≠ none := by
  rw [ParseInt_eq s hne, h]
  have h1 : ¬ ((some (rangeError FuncName.fnParseUint (dropSign s)) : GoError) ≠ none ∧
      (some (rangeError FuncName.fnParseUint (dropSign s)) : GoError).map NumError.Err
        ≠ some ErrKind.ErrRange) := by
    simp [rangeError]
  have hmax : maxUint64 ≥ 2 ^ 63 ∧ maxUint64 > 2 ^ 63 := by
    rw [maxUint64_eq]; norm_num
  simp only []
  rw [if_neg h1]
  by_cases hneg : s.head? = some 0x2d
  · rw [if_neg (fun c => c.1 hneg), if_pos ⟨hneg, hmax.2⟩]; simp
  · rw [if_pos ⟨hneg, hmax.1⟩]; simp

theorem ParseInt_of_syntax_error (s : List Byte) (hne : s ≠ [])
    (h : ParseUint (dropSign s) = (0, some (syntaxError FuncName.fnParseUint (dropSign s)))) :
    (ParseInt s).2 ≠ none := by
  rw [ParseInt_eq s hne, h]
  have h1 : ((some (syntaxError FuncName.fnParseUint (dropSign s)) : GoError) ≠ none ∧
      (some (syntaxError FuncName.fnParseUint (dropSign s)) : GoError).map NumError.Err
        ≠ some ErrKind.ErrRange) := by
    simp [syntaxError]
  simp only []
  rw [if_pos h1]; simp

theorem toInt64_small (v : Nat) (h : v < 2 ^ 63) : toInt64 v = v := by
  unfold toInt64
  have hm : v % 2 ^ 64 = v := Nat.mod_eq_of_lt (by omega)
  rw [hm, if_pos h]

theorem negInt64_toInt64 (v : Nat) (h : v ≤ 2 ^ 63) : negInt64 (toInt64 v) = -(v : Int) := by
  by_cases hv : v < 2 ^ 63
  · rw [toInt64_small v hv]
    unfold negInt64
    have : ¬ ((v : Int) = -(2 ^ 63)) := by omega
    rw [if_neg this]
  · have hv2 : v = 2 ^ 63 := by omega
    subst hv2
    unfold negInt64 toInt64
    norm_num

theorem ParseInt_ok (s : List Byte) (hg : intGrammar s) (hr : inIntRange (intValue s)) :
    ParseInt s = (intValue s, none) := by
  have hne := intGrammar_ne_nil s hg
  have hlt : decimalFrom (dropSign s) 0 < 2 ^ 64 := by
    unfold inIntRange intValue at hr
    split at hr <;> omega
  have hPU := ParseUint_digits (dropSign s) hg.1 hg.2
  rw [if_pos hlt] at hPU
  rw [ParseInt_eq s hne, hPU]
  have h1 : ¬ ((none : GoError) ≠ none ∧
      (none : GoError).map NumError.Err ≠ some ErrKind.ErrRange) := by simp
  simp only []
  rw [if_neg h1]
  unfold inIntRange intValue at hr
  unfold intValue
  by_cases hneg : s.head? = some 0x2d
  · rw [if_pos hneg] at hr
    have hle : decimalFrom (dropSign s) 0 ≤ 2 ^ 63 := by omega
    rw [if_neg (fun c => c.1 hneg), if_neg (fun c => absurd c.2 (by omega)), if_pos hneg,
      if_pos hneg, negInt64_toInt64 _ hle]
  · rw [if_neg hneg] at hr
    have hlt2 : decimalFrom (dropSign s) 0 < 2 ^ 63 := by omega
    rw [if_neg (fun c => absurd c.2 (by omega)), if_neg (fun c => hneg c.1), if_neg hneg,
      if_neg hneg, toInt64_small _ hlt2]

theorem ParseInt_err (s : List Byte) (h : ¬ (intGrammar s ∧ inIntRange (intValue s))) :
    (ParseInt s).2 ≠ none := by
  by_cases hne : s = []
  · subst hne; simp [ParseInt]
  by_cases hg : intGrammar s
  · have hr : ¬ inIntRange (intValue s) := fun hr => h ⟨hg, hr⟩
    have hPU := ParseUint_digits (dropSign s) hg.1 hg.2
    by_cases hlt : decimalFrom (dropSign s) 0 < 2 ^ 64
    · rw [if_pos hlt] at hPU
      rw [ParseInt_eq s hne, hPU]
      have h1 : ¬ ((none : GoError) ≠ none ∧
          (none : GoError).map NumError.Err ≠ some ErrKind.ErrRange) := by simp
      simp only []
      rw [if_neg h1]
      unfold inIntRange intValue at hr
      by_cases hneg : s.head? = some 0x2d
      · rw [if_pos hneg] at hr
        have hgt : decimalFrom (dropSign s) 0 > 2 ^ 63 := by omega
        rw [if_neg (fun c => c.1 hneg), if_pos ⟨hneg, hgt⟩]; simp
      · rw [if_neg hneg] at hr
        have hge : decimalFrom (dropSign s) 0 ≥ 2 ^ 63 := by omega
        rw [if_pos ⟨hneg, hge⟩]; simp
    · rw [if_neg hlt] at hPU
      exact ParseInt_of_range_error s hne hPU
  · have hb : ¬ (dropSign s ≠ [] ∧ ∀ c ∈ dropSign s, isDigit c) := hg
    rcases ParseUint_reject_cases (dropSign s) hb with e | e
    · exact ParseInt_of_syntax_error s hne e
    · exact ParseInt_of_range_error s hne e

theorem Atoi_fast (s : List Byte) (h : 0 < s.length ∧ s.length < 19) :
    Atoi s =
      if (s.head? = some 0x2d ∨ s.head? = some 0x2b) ∧ (dropSign s).length < 1 then
        (0, some (syntaxError FuncName.fnAtoi s))
      else
        match atoiLoop (dropSign s) 0 with
        | none => (0, some (syntaxError FuncName.fnAtoi s))
        | some n => (if s.head? = some 0x2d then -n else n, none) := by
  unfold Atoi dropSign
  simp only [h, and_self, if_true]

theorem Atoi_slow (s : List Byte) (h : ¬ (0 < s.length ∧ s.length < 19)) :
    Atoi s = ((ParseInt s).1, (ParseInt s).2.map fun e => { e with Func := FuncName.fnAtoi }) := by
  unfold Atoi
  simp only [h, if_false]

theorem dropSign_length_le (s : List Byte) : (dropSign s).length ≤ s.length := by
  unfold dropSign
  split
  · simp
  · exact le_refl _

theorem Atoi_ok (s : List Byte) (hg : intGrammar s) (hr : inIntRange (intValue s)) :
    Atoi s = (intValue s, none) := by
  by_cases hfast : 0 < s.length ∧ s.length < 19
  · have hlen : ¬ ((s.head? = some 0x2d ∨ s.head? = some 0x2b) ∧ (dropSign s).length < 1) := by
      intro c
      exact hg.1 (List.length_eq_zero.1 (by omega))
    have hloop := atoiLoop_digits (dropSign s) 0 hg.2
    rw [Nat.cast_zero] at hloop
    rw [Atoi_fast s hfast, if_neg hlen, hloop]
    rfl
  · rw [Atoi_slow s hfast, ParseInt_ok s hg hr]
    rfl

theorem Atoi_err (s : List Byte) (h : ¬ (intGrammar s ∧ inIntRange (intValue s))) :
    (Atoi s).2 ≠ none := by
  by_cases hfast : 0 < s.length ∧ s.length < 19
  · have hg : ¬ intGrammar s := by
      intro hg
      apply h
      refine ⟨hg, ?_⟩
      have hlt := decimalFrom_lt (dropSign s) 0 hg.2
      have hl := dropSign_length_le s
      have hpow : 10 ^ (dropSign s).length ≤ 10 ^ 18 :=
        Nat.pow_le_pow_right (by norm_num) (by omega)
      have hb : decimalFrom (dropSign s) 0 < 10 ^ 18 := by omega
      unfold inIntRange intValue
      split <;> constructor <;> omega
    rw [Atoi_fast s hfast]
    by_cases hlen : (s.head? = some 0x2d ∨ s.head? = some 0x2b) ∧ (dropSign s).length < 1
    · rw [if_pos hlen]; simp
    · rw [if_neg hlen]
      have hd : ¬ ∀ c ∈ dropSign s, isDigit c := by
        intro hd
        apply hg
        refine ⟨?_, hd⟩
        intro e
        by_cases hs : s.head? = some 0x2d ∨ s.head? = some 0x2b
        · exact hlen ⟨hs, by simp [e]⟩
        · have : dropSign s = s := by unfold dropSign; rw [if_neg hs]
          rw [this] at e
          rw [e] at hfast
          simp at hfast
      rw [atoiLoop_nondigit _ _ hd]
      simp
  · rw [Atoi_slow s hfast]
    have := ParseInt_err s h
    cases hp : (ParseInt s).2 with
    | none => exact absurd hp this
    | some e => simp

theorem Atoi_accepts_iff (s : List Byte) :
    (Atoi s).2 = none ↔ intGrammar s ∧ inIntRange (intValue s) := by
  constructor
  · intro h
    by_contra hc
    exact Atoi_err s hc h
  · intro h
    rw [Atoi_ok s h.1 h.2]

theorem Atoi_accepted_bytes (s : List Byte) (h : (Atoi s).2 = none) :
    SP ∉ s ∧ US ∉ s := by
  have hg := ((Atoi_accepts_iff s).1 h).1
  have key : ∀ c ∈ s, c ≠ SP ∧ c ≠ US := by
    intro c hc
    cases s with
    | nil => simp at hc
    | cons b t =>
      by_cases hs : (b :: t).head? = some 0x2d ∨ (b :: t).head? = some 0x2b
      · have hdrop : dropSign (b :: t) = t := by unfold dropSign; rw [if_pos hs]; rfl
        rcases List.mem_cons.1 hc with e | e
        · have hb : b = 0x2d ∨ b = 0x2b := by simpa using hs
          subst e
          rcases hb with e | e <;> subst e <;> decide
        · have := digit_not_sign c (hg.2 c (by rw [hdrop]; exact e))
          exact ⟨this.2.2.1, this.2.2.2⟩
      · have hdrop : dropSign (b :: t) = b :: t := by unfold dropSign; rw [if_neg hs]
        have := digit_not_sign c (hg.2 c (by rw [hdrop]; exact hc))
        exact ⟨this.2.2.1, this.2.2.2⟩
  exact ⟨fun hm => (key SP hm).1 rfl, fun hm => (key US hm).2 rfl⟩

/-! ## The decoders on a four-field line -/

theorem Split_line (f l a h : List Byte) (hf : SP ∉ f) (hl : SP ∉ l) (ha : SP ∉ a) :
    Split (line SP f l a h) SP = f :: l :: a :: Split h SP := by
  unfold line
  rw [Split_found _ _ _ hf, Split_found _ _ _ hl, Split_found _ _ _ ha]

theorem Person_line (L : Float64Lib) (f l a h : List Byte)
    (hf : SP ∉ f) (hl : SP ∉ l) (ha : SP ∉ a) (hh : SP ∉ h) :
    Person L (line SP f l a h) =
      if (Atoi a).2 ≠ none then Outcome.ret (person.zeroValue L, (Atoi a).2)
      else if (L.ParseFloat h).2 ≠ none then Outcome.ret (person.zeroValue L, (L.ParseFloat h).2)
      else Outcome.ret
        ({ firstName := f, lastName := l, age := (Atoi a).1, height := (L.ParseFloat h).1 }, none) := by
  unfold Person
  rw [Split_line f l a h hf hl ha, Split_absent h SP hh]
  rfl

theorem Person_line_age_error (L : Float64Lib) (f l a h : List Byte)
    (hf : SP ∉ f) (hl : SP ∉ l) (ha : SP ∉ a) (he : (Atoi a).2 ≠ none) :
    Person L (line SP f l a h) = Outcome.ret (person.zeroValue L, (Atoi a).2) := by
  unfold Person
  rw [Split_line f l a h hf hl ha]
  simp only [List.getElem?_cons_succ, List.getElem?_cons_zero]
  rw [if_pos he]

theorem PersonEfficient_line (L : Float64Lib) (f l a h : List Byte)
    (hf : SP ∉ f) (hl : SP ∉ l) (ha : SP ∉ a) :
    PersonEfficient L (line SP f l a h) =
      if (Atoi a).2 ≠ none then (person.zeroValue L, (Atoi a).2)
      else if (L.ParseFloat (ParseUntil h 0x20).1).2 ≠ none then
        (person.zeroValue L, (L.ParseFloat (ParseUntil h 0x20).1).2)
      else
        ({ firstName := f, lastName := l, age := (Atoi a).1,
           height := (L.ParseFloat (ParseUntil h 0x20).1).1 }, none) := by
  unfold PersonEfficient line
  rw [ParseUntil_found _ _ _ hf]
  simp only []
  rw [ParseUntil_found _ _ _ hl]
  simp only []
  rw [ParseUntil_found _ _ _ ha]

theorem PersonBytes_line (L : Float64Lib) (f l a h : List Byte)
    (hf : US ∉ f) (hl : US ∉ l) (ha : US ∉ a) :
    PersonBytes L (line US f l a h) =
      if (Atoi a).2 ≠ none then (person.zeroValue L, (Atoi a).2)
      else if (L.ParseFloat (ParseUntilBytes h US).1).2 ≠ none then
        (person.zeroValue L, (L.ParseFloat (ParseUntilBytes h US).1).2)
      else
        ({ firstName := f, lastName := l, age := (Atoi a).1,
           height := (L.ParseFloat (ParseUntilBytes h US).1).1 }, none) := by
  unfold PersonBytes line
  rw [ParseUntilBytes_found _ _ _ hf]
  simp only []
  rw [ParseUntilBytes_found _ _ _ hl]
  simp only []
  rw [ParseUntilBytes_found _ _ _ ha]

theorem PersonBytesUnsafe_line (L : Float64Lib) (f l a h : List Byte)
    (hf : US ∉ f) (hl : US ∉ l) (ha : US ∉ a) :
    PersonBytesUnsafe L (line US f l a h) =
      if (Atoi a).2 ≠ none then (person.zeroValue L, false)
      else if (L.ParseFloat (ParseUntilBytes h US).1).2 ≠ none then
        (person.zeroValue L, false)
      else
        ({ firstName := f, lastName := l, age := (Atoi a).1,
           height := (L.ParseFloat (ParseUntilBytes h US).1).1 }, true) := by
  unfold PersonBytesUnsafe line
  rw [ParseUntilBytes_found _ _ _ hf]
  simp only []
  rw [ParseUntilBytes_found _ _ _ hl]
  simp only []
  rw [ParseUntilBytes_found _ _ _ ha]
  simp only [ToInt, ToFloat64, ToString]
  by_cases h1 : (Atoi a).2 ≠ none
  · simp [h1]
  · by_cases h2 : (L.ParseFloat (ParseUntilBytes h US).1).2 ≠ none
    · simp [h1, h2]
    · simp [h1, h2]

theorem Atoi_error_func (s : List Byte) (e : NumError) (h : (Atoi s).2 = some e) :
    e.Func = FuncName.fnAtoi := by
  by_cases hfast : 0 < s.length ∧ s.length < 19
  · rw [Atoi_fast s hfast] at h
    split at h
    · simp only [Option.some.injEq] at h
      rw [← h]; rfl
    · split at h
      · simp only [Option.some.injEq] at h
        rw [← h]; rfl
      · simp at h
  · rw [Atoi_slow s hfast] at h
    cases hp : (ParseInt s).2 with
    | none => rw [hp] at h; simp at h
    | some e2 =>
      rw [hp] at h
      simp only [Option.map_some', Option.some.injEq] at h
      rw [← h]

/-! ## The claims -/

/-- C1: on a valid record (first and last name without a space or a 0x1F byte,
an age text that `strconv.Atoi` accepts, a height text that
`strconv.ParseFloat` accepts and that holds neither delimiter), `Person` and
`PersonEfficient` on the space-separated line and `PersonBytesUnsafe` on the
0x1F-separated line all succeed and return the same four field values. -/
theorem decode_modes_agree (L : Float64Lib) (f l a h : List Byte)
    (hf : SP ∉ f ∧ US ∉ f) (hl : SP ∉ l ∧ US ∉ l)
    (ha : (Atoi a).2 = none) (hh : (L.ParseFloat h).2 = none) (hhd : SP ∉ h ∧ US ∉ h) :
    Person L (line SP f l a h) =
        Outcome.ret
          ({ firstName := f, lastName := l, age := (Atoi a).1, height := (L.ParseFloat h).1 },
            none) ∧
      PersonEfficient L (line SP f l a h) =
        ({ firstName := f, lastName := l, age := (Atoi a).1, height := (L.ParseFloat h).1 },
          none) ∧
      PersonBytesUnsafe L (line US f l a h) =
        ({ firstName := f, lastName := l, age := (Atoi a).1, height := (L.ParseFloat h).1 },
          true) := by
  have had := Atoi_accepted_bytes a ha
  have ha2 : ¬ (Atoi a).2 ≠ none := not_not.2 ha
  have hh2 : ¬ (L.ParseFloat h).2 ≠ none := not_not.2 hh
  refine ⟨?_, ?_, ?_⟩
  · rw [Person_line L f l a h hf.1 hl.1 had.1 hhd.1, if_neg ha2, if_neg hh2]
  · rw [PersonEfficient_line L f l a h hf.1 hl.1 had.1, ParseUntil_absent h _ hhd.1,
      if_neg ha2, if_neg hh2]
  · rw [PersonBytesUnsafe_line L f l a h hf.2 hl.2 had.2, ParseUntilBytes_absent h _ hhd.2,
      if_neg ha2, if_neg hh2]

/-- Witness of C1: the record joe, bloggs, 25, 182.3 of the benchmarks. -/
theorem decode_modes_agree_witness :
    ((SP ∉ joe ∧ US ∉ joe) ∧ (SP ∉ bloggs ∧ US ∉ bloggs) ∧ (Atoi age25).2 = none ∧
      (sampleLib.ParseFloat height182_3).2 = none ∧ (SP ∉ height182_3 ∧ US ∉ height182_3)) ∧
    (Person sampleLib (line SP joe bloggs age25 height182_3) =
        Outcome.ret
          ({ firstName := joe, lastName := bloggs, age := 25, height := Decimal.mk 1823 1 },
            none) ∧
      PersonEfficient sampleLib (line SP joe bloggs age25 height182_3) =
        ({ firstName := joe, lastName := bloggs, age := 25, height := Decimal.mk 1823 1 },
          none) ∧
      PersonBytesUnsafe sampleLib (line US joe bloggs age25 height182_3) =
        ({ firstName := joe, lastName := bloggs, age := 25, height := Decimal.mk 1823 1 },
          true)) :=
  ⟨by decide,
    decode_modes_agree sampleLib joe bloggs age25 height182_3 (by decide) (by decide)
      (by decide) (by decide) (by decide)⟩

/-- C2: for first and last names without a space, an age text on which
`strconv.Atoi` succeeds with value `n` and a height text (without a space) on
which `strconv.ParseFloat` succeeds with value `x`, `Person` on the
space-separated line returns the record of `f`, `l`, `n`, `x` and a nil
error. -/
theorem Person_valid_line (L : Float64Lib) (f l a h : List Byte) (n : Int) (x : L.float64)
    (hf : SP ∉ f) (hl : SP ∉ l) (ha : Atoi a = (n, none)) (hh : L.ParseFloat h = (x, none))
    (hhd : SP ∉ h) :
    Person L (line SP f l a h) =
      Outcome.ret ({ firstName := f, lastName := l, age := n, height := x }, none) := by
  have had := Atoi_accepted_bytes a (by rw [ha])
  rw [Person_line L f l a h hf hl had.1 hhd, ha, hh]
  simp

/-- Witness of C2: `"joe bloggs 25 182.3"` gives joe, bloggs, 25, 182.3. -/
theorem Person_valid_line_witness :
    (SP ∉ joe ∧ SP ∉ bloggs ∧ Atoi age25 = (25, none) ∧
      sampleLib.ParseFloat height182_3 = (Decimal.mk 1823 1, none) ∧ SP ∉ height182_3) ∧
    Person sampleLib (line SP joe bloggs age25 height182_3) =
      Outcome.ret
        ({ firstName := joe, lastName := bloggs, age := 25, height := Decimal.mk 1823 1 },
          none) :=
  ⟨by decide,
    Person_valid_line sampleLib joe bloggs age25 height182_3 25 (Decimal.mk 1823 1) (by decide)
      (by decide) (by decide) (by decide) (by decide)⟩

/-- C3: `ParseUntilBytes` does not honour the delimiter it is given.  In the
buffer `"a,b"` the delimiter `','` first occurs at position 1, yet the call
returns the whole buffer as the field and an empty remainder, not `"a"` and
`"b"`: the body searches for 0x1F whatever `sep` is. -/
theorem ParseUntilBytes_comma :
    IndexByte aCommaB 0x2c = 1 ∧
      ParseUntilBytes aCommaB 0x2c = (aCommaB, []) ∧
      ParseUntilBytes aCommaB 0x2c ≠ (aCommaB.take 1, aCommaB.drop (1 + 1)) := by
  decide

/-- C4: `ParseUntil` does not honour the delimiter it is given.  In the string
`"a,b"` the delimiter `','` first occurs at byte position 1, yet the call
returns the whole string as the field and `""` as the remainder, not `"a"` and
`"b"`: the body searches for `" "` whatever `sep` is. -/
theorem ParseUntil_comma :
    IndexByte aCommaB 0x2c = 1 ∧
      ParseUntil aCommaB 0x2c = (aCommaB, []) ∧
      ParseUntil aCommaB 0x2c ≠ (aCommaB.take 1, aCommaB.drop (1 + 1)) := by
  decide

/-- C5: the round trip fails for a delimiter other than the built-in one.  The
delimiter `','` occurs in `"a,b"`, but re-joining the field, the delimiter and
the remainder that `ParseUntilBytes` (and likewise `ParseUntil`) returns gives
`"a,b,"`, not `"a,b"`. -/
theorem round_trip_comma :
    (0x2c : Byte) ∈ aCommaB ∧
      (ParseUntilBytes aCommaB 0x2c).1 ++ [0x2c] ++ (ParseUntilBytes aCommaB 0x2c).2
        = aCommaB ++ [0x2c] ∧
      (ParseUntilBytes aCommaB 0x2c).1 ++ [0x2c] ++ (ParseUntilBytes aCommaB 0x2c).2
        ≠ aCommaB ∧
      (ParseUntil aCommaB 0x2c).1 ++ [0x2c] ++ (ParseUntil aCommaB 0x2c).2 ≠ aCommaB := by
  decide

/-- C6: adjacent delimiters yield an empty field.  For an age text that
`strconv.Atoi` accepts and a height text that `strconv.ParseFloat` accepts
(and that holds neither delimiter), `Person` and `PersonEfficient` on
`f + "  " + a + " " + h` with `f` free of spaces, and `PersonBytesUnsafe` on
`f + 0x1F + 0x1F + a + 0x1F + h` with `f` free of 0x1F, succeed with first name
`f`, an empty last name and the parsed age and height. -/
theorem adjacent_delimiters_empty_field (L : Float64Lib) (a h : List Byte)
    (ha : (Atoi a).2 = none) (hh : (L.ParseFloat h).2 = none) (hhd : SP ∉ h ∧ US ∉ h) :
    (∀ f : List Byte, SP ∉ f →
      Person L (f ++ SP :: SP :: (a ++ SP :: h)) =
          Outcome.ret
            ({ firstName := f, lastName := [], age := (Atoi a).1,
               height := (L.ParseFloat h).1 }, none) ∧
        PersonEfficient L (f ++ SP :: SP :: (a ++ SP :: h)) =
          ({ firstName := f, lastName := [], age := (Atoi a).1,
             height := (L.ParseFloat h).1 }, none)) ∧
      (∀ f : List Byte, US ∉ f →
        PersonBytesUnsafe L (f ++ US :: US :: (a ++ US :: h)) =
          ({ firstName := f, lastName := [], age := (Atoi a).1,
             height := (L.ParseFloat h).1 }, true)) := by
  have had := Atoi_accepted_bytes a ha
  have ha2 : ¬ (Atoi a).2 ≠ none := not_not.2 ha
  have hh2 : ¬ (L.ParseFloat h).2 ≠ none := not_not.2 hh
  have hnil : ∀ c : Byte, c ∉ ([] : List Byte) := fun c => List.not_mem_nil c
  refine ⟨fun f hf => ⟨?_, ?_⟩, fun f hf => ?_⟩
  · have e : f ++ SP :: SP :: (a ++ SP :: h) = line SP f [] a h := rfl
    rw [e, Person_line L f [] a h hf (hnil SP) had.1 hhd.1, if_neg ha2, if_neg hh2]
  · have e : f ++ SP :: SP :: (a ++ SP :: h) = line SP f [] a h := rfl
    rw [e, PersonEfficient_line L f [] a h hf (hnil SP) had.1, ParseUntil_absent h _ hhd.1,
      if_neg ha2, if_neg hh2]
  · have e : f ++ US :: US :: (a ++ US :: h) = line US f [] a h := rfl
    rw [e, PersonBytesUnsafe_line L f [] a h hf (hnil US) had.2,
      ParseUntilBytes_absent h _ hhd.2, if_neg ha2, if_neg hh2]

/-- Witness of C6: `"a  25 1.0"` (and its 0x1F form) decodes to first name
`"a"`, last name `""`, age 25, height 1.0 in the three modes. -/
theorem adjacent_delimiters_empty_field_witness :
    ((Atoi age25).2 = none ∧ (sampleLib.ParseFloat height1_0).2 = none ∧
      (SP ∉ height1_0 ∧ US ∉ height1_0) ∧ SP ∉ nameA ∧ US ∉ nameA) ∧
    (Person sampleLib (nameA ++ SP :: SP :: (age25 ++ SP :: height1_0)) =
        Outcome.ret
          ({ firstName := nameA, lastName := [], age := 25, height := Decimal.mk 10 1 },
            none) ∧
      PersonEfficient sampleLib (nameA ++ SP :: SP :: (age25 ++ SP :: height1_0)) =
        ({ firstName := nameA, lastName := [], age := 25, height := Decimal.mk 10 1 },
          none)) ∧
    PersonBytesUnsafe sampleLib (nameA ++ US :: US :: (age25 ++ US :: height1_0)) =
      ({ firstName := nameA, lastName := [], age := 25, height := Decimal.mk 10 1 }, true) :=
  ⟨by decide,
    (adjacent_delimiters_empty_field sampleLib age25 height1_0 (by decide) (by decide)
      (by decide)).1 nameA (by decide),
    (adjacent_delimiters_empty_field sampleLib age25 height1_0 (by decide) (by decide)
      (by decide)).2 nameA (by decide)⟩

/-- C7: fail-fast in schema order.  On a four-field line whose age field `a`
(free of the delimiter, like the two names) is rejected by `strconv.Atoi`
with error `e`, whatever the height field is, `Person`, `PersonEfficient`
and `PersonBytes` return the zero-value person together with `e`, which is an
`Atoi` error and not a float error, and `PersonBytesUnsafe` returns the
zero-value person and false. -/
theorem age_error_fails_fast (L : Float64Lib) (f l a h : List Byte) (e : NumError)
    (he : (Atoi a).2 = some e) :
    e.Func = FuncName.fnAtoi ∧
      (SP ∉ f → SP ∉ l → SP ∉ a →
        Person L (line SP f l a h) = Outcome.ret (person.zeroValue L, some e) ∧
          PersonEfficient L (line SP f l a h) = (person.zeroValue L, some e)) ∧
      (US ∉ f → US ∉ l → US ∉ a →
        PersonBytes L (line US f l a h) = (person.zeroValue L, some e) ∧
          PersonBytesUnsafe L (line US f l a h) = (person.zeroValue L, false)) := by
  have hne : (Atoi a).2 ≠ none := by rw [he]; simp
  refine ⟨Atoi_error_func a e he, fun hf hl ha => ⟨?_, ?_⟩, fun hf hl ha => ⟨?_, ?_⟩⟩
  · rw [Person_line_age_error L f l a h hf hl ha hne, he]
  · rw [PersonEfficient_line L f l a h hf hl ha, if_pos hne, he]
  · rw [PersonBytes_line L f l a h hf hl ha, if_pos hne, he]
  · rw [PersonBytesUnsafe_line L f l a h hf hl ha, if_pos hne]

/-- Witness of C7: `"joe bloggs abc 182.3"` (and its 0x1F form). -/
theorem age_error_fails_fast_witness :
    ((Atoi abc).2 = some (syntaxError FuncName.fnAtoi abc) ∧
      (SP ∉ joe ∧ SP ∉ bloggs ∧ SP ∉ abc) ∧ (US ∉ joe ∧ US ∉ bloggs ∧ US ∉ abc)) ∧
    (Person sampleLib (line SP joe bloggs abc height182_3) =
        Outcome.ret (person.zeroValue sampleLib, some (syntaxError FuncName.fnAtoi abc)) ∧
      PersonEfficient sampleLib (line SP joe bloggs abc height182_3) =
        (person.zeroValue sampleLib, some (syntaxError FuncName.fnAtoi abc))) ∧
    (PersonBytes sampleLib (line US joe bloggs abc height182_3) =
        (person.zeroValue sampleLib, some (syntaxError FuncName.fnAtoi abc)) ∧
      PersonBytesUnsafe sampleLib (line US joe bloggs abc height182_3) =
        (person.zeroValue sampleLib, false)) :=
  ⟨by decide,
    (age_error_fails_fast sampleLib joe bloggs abc height182_3 _ (by decide)).2.1
      (by decide) (by decide) (by decide),
    (age_error_fails_fast sampleLib joe bloggs abc height182_3 _ (by decide)).2.2
      (by decide) (by decide) (by decide)⟩

/-- C8: `Person` faults on the empty input instead of returning a decode
error: `strings.Split("", " ")` has one element, and `split[2]` is an index
out of range. -/
theorem Person_empty_input_panics (L : Float64Lib) :
    Split [] SP = [[]] ∧ Person L [] = Outcome.panicIndex 2 1 :=
  ⟨rfl, rfl⟩

/-! ## Lines with missing fields -/

theorem PersonEfficient_eq_decodeWith (L : Float64Lib) (s : List Byte) :
    PersonEfficient L s = decodeWith L (fun t => ParseUntil t 0x20) s := rfl

theorem PersonBytes_eq_decodeWith (L : Float64Lib) (bs : List Byte) :
    PersonBytes L bs = decodeWith L (fun t => ParseUntilBytes t US) bs := rfl

theorem PersonBytesUnsafe_eq (L : Float64Lib) (bs : List Byte) :
    PersonBytesUnsafe L bs =
      if (PersonBytes L bs).2 ≠ none then (person.zeroValue L, false)
      else ((PersonBytes L bs).1, true) := by
  unfold PersonBytesUnsafe PersonBytes
  simp only [ToInt, ToFloat64, ToString]
  generalize (ParseUntilBytes bs US).1 = first
  generalize (ParseUntilBytes (ParseUntilBytes bs US).2 US).1 = last
  generalize (ParseUntilBytes (ParseUntilBytes (ParseUntilBytes bs US).2 US).2 US).1 = ageBytes
  generalize (ParseUntilBytes (ParseUntilBytes (ParseUntilBytes (ParseUntilBytes bs US).2
    US).2 US).2 US).1 = heightBytes
  by_cases h1 : (Atoi ageBytes).2 ≠ none
  · simp [h1]
  · by_cases h2 : (L.ParseFloat heightBytes).2 ≠ none
    · simp [h1, h2]
    · simp [h1, h2]

theorem Count_found (f r : List Byte) (c : Byte) (h : c ∉ f) :
    Count (f ++ c :: r) c = Count r c + 1 := by
  simp [Count, List.count_append, List.count_eq_zero_of_not_mem h]

theorem not_mem_of_Count_zero (s : List Byte) (c : Byte) (h : Count s c = 0) : c ∉ s :=
  List.count_eq_zero.1 h

theorem Atoi_nil : Atoi [] = (0, some (syntaxError FuncName.fnAtoi [])) := by decide

theorem decodeWith_few (L : Float64Lib) (tok : List Byte → List Byte × List Byte) (c : Byte)
    (h1 : ∀ s, c ∉ s → tok s = (s, []))
    (h2 : ∀ f r, c ∉ f → tok (f ++ c :: r) = (f, r))
    (hempty : (L.ParseFloat []).2 ≠ none) (s : List Byte) (hc : Count s c < 3) :
    (decodeWith L tok s).1 = person.zeroValue L ∧ (decodeWith L tok s).2 ≠ none ∧
      (Count s c < 2 → (decodeWith L tok s).2 = (Atoi []).2) := by
  have hnil : tok [] = ([], []) := h1 [] (List.not_mem_nil c)
  have hA : (Atoi []).2 ≠ none := by rw [Atoi_nil]; simp
  by_cases hm : c ∈ s
  · obtain ⟨f, r1, e1, hf⟩ := exists_first_occurrence s c hm
    subst e1
    rw [Count_found f r1 c hf] at hc
    by_cases hm1 : c ∈ r1
    · obtain ⟨l, r2, e2, hl⟩ := exists_first_occurrence r1 c hm1
      subst e2
      rw [Count_found l r2 c hl] at hc
      have hr2 : c ∉ r2 := not_mem_of_Count_zero r2 c (by omega)
      have hcount : ¬ Count (f ++ c :: (l ++ c :: r2)) c < 2 := by
        rw [Count_found f _ c hf, Count_found l r2 c hl]; omega
      have hd : decodeWith L tok (f ++ c :: (l ++ c :: r2)) =
          if (Atoi r2).2 ≠ none then (person.zeroValue L, (Atoi r2).2)
          else if (L.ParseFloat []).2 ≠ none then (person.zeroValue L, (L.ParseFloat []).2)
          else ({ firstName := f, lastName := l, age := (Atoi r2).1,
                  height := (L.ParseFloat []).1 }, none) := by
        unfold decodeWith
        rw [h2 f _ hf]
        simp only []
        rw [h2 l r2 hl]
        simp only []
        rw [h1 r2 hr2]
        simp only []
        rw [hnil]
      rw [hd]
      by_cases ha : (Atoi r2).2 ≠ none
      · rw [if_pos ha]
        exact ⟨rfl, ha, fun h => absurd h hcount⟩
      · rw [if_neg ha, if_pos hempty]
        exact ⟨rfl, hempty, fun h => absurd h hcount⟩
    · have hd : decodeWith L tok (f ++ c :: r1) = (person.zeroValue L, (Atoi []).2) := by
        unfold decodeWith
        simp only [h2 f _ hf, h1 r1 hm1, hnil, Atoi_nil]
        simp
      rw [hd]
      exact ⟨rfl, hA, fun _ => rfl⟩
  · have hd : decodeWith L tok s = (person.zeroValue L, (Atoi []).2) := by
      unfold decodeWith
      simp only [h1 s hm, hnil, Atoi_nil]
      simp
    rw [hd]
    exact ⟨rfl, hA, fun _ => rfl⟩

theorem genSplitLoop_length (n : Nat) (s : List Byte) (sep : Byte) (h : Count s sep = n) :
    (genSplitLoop n s sep).length = n + 1 := by
  induction n generalizing s with
  | zero => rfl
  | succ n ih =>
    have hm : sep ∈ s := by
      by_contra hc
      have : Count s sep = 0 := List.count_eq_zero_of_not_mem hc
      omega
    obtain ⟨f, r, e, hf⟩ := exists_first_occurrence s sep hm
    subst e
    rw [Count_found f r sep hf] at h
    rw [genSplitLoop_found n f r sep hf, List.length_cons, ih r (by omega)]

theorem Split_length (s : List Byte) (sep : Byte) : (Split s sep).length = Count s sep + 1 := by
  rw [Split_eq, genSplitLoop_length _ s sep rfl]

theorem Person_panics_of_few_spaces (L : Float64Lib) (s : List Byte) (h : Count s SP < 2) :
    Person L s = Outcome.panicIndex 2 (Count s SP + 1) := by
  have hlen := Split_length s SP
  have hnone : (Split s SP)[2]? = none := List.getElem?_eq_none (by omega)
  unfold Person
  simp only [hnone, hlen]

/-- C9: a missing field is reported as a malformed-number error by the
incremental decoders.  Given that `strconv.ParseFloat` rejects the empty
text, on every input with fewer than three delimiters `PersonEfficient` and
`PersonBytes` return the zero-value person and a non-nil error and
`PersonBytesUnsafe` returns the zero-value person and false; with fewer than
two delimiters the error is the one `strconv.Atoi` gives for the empty
string. -/
theorem missing_field_is_error (L : Float64Lib) (hempty : (L.ParseFloat []).2 ≠ none) :
    (∀ s : List Byte, Count s SP < 3 →
      (PersonEfficient L s).1 = person.zeroValue L ∧ (PersonEfficient L s).2 ≠ none ∧
        (Count s SP < 2 → (PersonEfficient L s).2 = (Atoi []).2)) ∧
      (∀ bs : List Byte, Count bs US < 3 →
        (PersonBytes L bs).1 = person.zeroValue L ∧ (PersonBytes L bs).2 ≠ none ∧
          PersonBytesUnsafe L bs = (person.zeroValue L, false) ∧
          (Count bs US < 2 → (PersonBytes L bs).2 = (Atoi []).2)) := by
  constructor
  · intro s hc
    rw [PersonEfficient_eq_decodeWith]
    exact decodeWith_few L _ SP (fun t ht => ParseUntil_absent t _ ht)
      (fun f r hf => ParseUntil_found f r _ hf) hempty s hc
  · intro bs hc
    have key := decodeWith_few L (fun t => ParseUntilBytes t US) US
      (fun t ht => ParseUntilBytes_absent t _ ht)
      (fun f r hf => ParseUntilBytes_found f r _ hf) hempty bs hc
    rw [← PersonBytes_eq_decodeWith] at key
    refine ⟨key.1, key.2.1, ?_, key.2.2⟩
    rw [PersonBytesUnsafe_eq, if_pos key.2.1]

/-- Witness of C9: the empty input, and the two-field line `"joe bloggs"`. -/
theorem missing_field_is_error_witness :
    ((sampleLib.ParseFloat []).2 ≠ none ∧ Count [] SP < 3 ∧ Count (joe ++ US :: bloggs) US < 3) ∧
    ((PersonEfficient sampleLib []).1 = person.zeroValue sampleLib ∧
      (PersonEfficient sampleLib []).2 ≠ none ∧
      (Count [] SP < 2 → (PersonEfficient sampleLib []).2 = (Atoi []).2)) ∧
    ((PersonBytes sampleLib (joe ++ US :: bloggs)).1 = person.zeroValue sampleLib ∧
      (PersonBytes sampleLib (joe ++ US :: bloggs)).2 ≠ none ∧
      PersonBytesUnsafe sampleLib (joe ++ US :: bloggs) = (person.zeroValue sampleLib, false) ∧
      (Count (joe ++ US :: bloggs) US < 2 →
        (PersonBytes sampleLib (joe ++ US :: bloggs)).2 = (Atoi []).2)) :=
  ⟨by decide,
    (missing_field_is_error sampleLib (by decide)).1 [] (by decide),
    (missing_field_is_error sampleLib (by decide)).2 (joe ++ US :: bloggs) (by decide)⟩

/-- The claim C10 fails at `"+5"`: the text holds a byte that is neither an
ASCII digit nor a single leading `'-'`, yet `ToInt` returns 5 and true. -/
theorem ToInt_plusFive :
    (plusFive = [] ∨ ∃ c ∈ dropMinus plusFive, ¬ isDigit c) ∧ ToInt plusFive = (5, true) := by
  decide

/-- C10, amended: integer decode accepts exactly the grammar "optional leading
`'-'` or `'+'`, then one or more ASCII decimal digits", within the range of a
64-bit int.  `ToInt` returns ok = true exactly on the texts of the grammar
whose value is in range; it returns 0 and false when the text is empty or
holds a byte that is not a digit other than a single leading sign; and it
returns the denoted value and true on a text of the grammar whose value is in
range. -/
theorem ToInt_grammar (bs : List Byte) :
    ((ToInt bs).2 = true ↔ intGrammar bs ∧ inIntRange (intValue bs)) ∧
      ((bs = [] ∨ ∃ c ∈ dropSign bs, ¬ isDigit c) → ToInt bs = (0, false)) ∧
      (intGrammar bs → inIntRange (intValue bs) → ToInt bs = (intValue bs, true)) := by
  have hok : intGrammar bs ∧ inIntRange (intValue bs) → ToInt bs = (intValue bs, true) := by
    intro h
    unfold ToInt ToString
    simp only []
    rw [Atoi_ok bs h.1 h.2]
    simp
  have herr : ¬ (intGrammar bs ∧ inIntRange (intValue bs)) → ToInt bs = (0, false) := by
    intro h
    have hne := Atoi_err bs h
    unfold ToInt ToString
    simp only []
    rw [if_pos hne]
  refine ⟨⟨fun h => ?_, fun h => ?_⟩, fun h => ?_, fun hg hr => hok ⟨hg, hr⟩⟩
  · by_contra hc
    rw [herr hc] at h
    exact absurd h (by decide)
  · rw [hok h]
  · apply herr
    rintro ⟨hg, -⟩
    rcases h with e | ⟨c, hc, hd⟩
    · exact intGrammar_ne_nil bs hg e
    · exact hd (hg.2 c hc)

set_option maxRecDepth 100000 in
/-- Witness of C10, amended: `"25"` is accepted with value 25, `"+5"` with
value 5, and `"abc"` is rejected. -/
theorem ToInt_grammar_witness :
    (intGrammar age25 ∧ inIntRange (intValue age25) ∧ ToInt age25 = (intValue age25, true)) ∧
      (intGrammar plusFive ∧ inIntRange (intValue plusFive) ∧
        ToInt plusFive = (intValue plusFive, true)) ∧
      ((abc = [] ∨ ∃ c ∈ dropSign abc, ¬ isDigit c) ∧ ToInt abc = (0, false)) :=
  ⟨⟨by decide, by decide, (ToInt_grammar age25).2.2 (by decide) (by decide)⟩,
    ⟨by decide, by decide, (ToInt_grammar plusFive).2.2 (by decide) (by decide)⟩,
    ⟨by decide, (ToInt_grammar abc).2.1 (by decide)⟩⟩

/-! ## Separator independence, equivalence of the byte decoders, surplus fields -/

theorem PersonBytes_error_zero (L : Float64Lib) (bs : List Byte)
    (h : (PersonBytes L bs).2 ≠ none) : (PersonBytes L bs).1 = person.zeroValue L := by
  revert h
  unfold PersonBytes
  rcases ParseUntilBytes bs US with ⟨first, r1⟩
  dsimp only
  rcases ParseUntilBytes r1 US with ⟨last, r2⟩
  dsimp only
  rcases ParseUntilBytes r2 US with ⟨ageBytes, r3⟩
  dsimp only
  rcases ParseUntilBytes r3 US with ⟨heightBytes, r4⟩
  dsimp only
  rcases Atoi ageBytes with ⟨age, e1⟩
  dsimp only
  by_cases h1 : e1 ≠ none
  · simp [h1]
  · by_cases h2 : (L.ParseFloat heightBytes).2 = none
    · simp [h1, h2]
    · simp [h1, h2]

theorem takeWhile_append_sep (x t : List Byte) (sep : Byte) :
    (x ++ sep :: t).takeWhile (fun c => decide (c ≠ sep)) =
      x.takeWhile (fun c => decide (c ≠ sep)) := by
  induction x with
  | nil => simp [List.takeWhile]
  | cons b x ih => rw [List.cons_append, List.takeWhile_cons, List.takeWhile_cons, ih]

theorem takeWhile_not_mem (x : List Byte) (sep : Byte) (h : sep ∉ x) :
    x.takeWhile (fun c => decide (c ≠ sep)) = x := by
  induction x with
  | nil => rfl
  | cons b x ih =>
    have hb : b ≠ sep := fun e => h (by simp [e])
    have hx : sep ∉ x := fun e => h (List.mem_cons_of_mem _ e)
    rw [List.takeWhile_cons, ih hx, if_pos (decide_eq_true hb)]

theorem takeWhile_found (f r : List Byte) (sep : Byte) (h : sep ∉ f) :
    (f ++ sep :: r).takeWhile (fun c => decide (c ≠ sep)) = f := by
  rw [takeWhile_append_sep, takeWhile_not_mem f sep h]

theorem ParseUntil_fst (x : List Byte) (sep : Rune) :
    (ParseUntil x sep).1 = x.takeWhile (fun c => decide (c ≠ SP)) := by
  by_cases hm : SP ∈ x
  · obtain ⟨f, r, e, hf⟩ := exists_first_occurrence x SP hm
    subst e
    rw [ParseUntil_found f r sep hf, takeWhile_found f r SP hf]
  · rw [ParseUntil_absent x sep hm, takeWhile_not_mem x SP hm]

theorem ParseUntilBytes_fst (x : List Byte) (sep : Byte) :
    (ParseUntilBytes x sep).1 = x.takeWhile (fun c => decide (c ≠ US)) := by
  by_cases hm : US ∈ x
  · obtain ⟨f, r, e, hf⟩ := exists_first_occurrence x US hm
    subst e
    rw [ParseUntilBytes_found f r sep hf, takeWhile_found f r US hf]
  · rw [ParseUntilBytes_absent x sep hm, takeWhile_not_mem x US hm]

theorem Split_head (x : List Byte) (sep : Byte) :
    ∃ rest, Split x sep = x.takeWhile (fun c => decide (c ≠ sep)) :: rest := by
  by_cases hm : sep ∈ x
  · obtain ⟨f, r, e, hf⟩ := exists_first_occurrence x sep hm
    subst e
    exact ⟨Split r sep, by rw [Split_found f r sep hf, takeWhile_found f r sep hf]⟩
  · exact ⟨[], by rw [Split_absent x sep hm, takeWhile_not_mem x sep hm]⟩

theorem Person_line_general (L : Float64Lib) (f l a x : List Byte)
    (hf : SP ∉ f) (hl : SP ∉ l) (ha : SP ∉ a) :
    Person L (line SP f l a x) =
      if (Atoi a).2 ≠ none then Outcome.ret (person.zeroValue L, (Atoi a).2)
      else if (L.ParseFloat (x.takeWhile (fun c => decide (c ≠ SP)))).2 ≠ none then
        Outcome.ret (person.zeroValue L,
          (L.ParseFloat (x.takeWhile (fun c => decide (c ≠ SP)))).2)
      else Outcome.ret
        ({ firstName := f, lastName := l, age := (Atoi a).1,
           height := (L.ParseFloat (x.takeWhile (fun c => decide (c ≠ SP)))).1 }, none) := by
  obtain ⟨rest, hx⟩ := Split_head x SP
  unfold Person
  rw [Split_line f l a x hf hl ha, hx]
  simp only [List.getElem?_cons_succ, List.getElem?_cons_zero]

theorem line_of_three_seps (s : List Byte) (sep : Byte) (h : 3 ≤ Count s sep) :
    ∃ f l a x, s = line sep f l a x ∧ sep ∉ f ∧ sep ∉ l ∧ sep ∉ a := by
  have mem_of_pos : ∀ u : List Byte, 0 < Count u sep → sep ∈ u := by
    intro u hu
    by_contra hc
    have : Count u sep = 0 := List.count_eq_zero_of_not_mem hc
    omega
  obtain ⟨f, r1, e1, hf⟩ := exists_first_occurrence s sep (mem_of_pos s (by omega))
  subst e1
  rw [Count_found f r1 sep hf] at h
  obtain ⟨l, r2, e2, hl⟩ := exists_first_occurrence r1 sep (mem_of_pos r1 (by omega))
  subst e2
  rw [Count_found l r2 sep hl] at h
  obtain ⟨a, x, e3, ha⟩ := exists_first_occurrence r2 sep (mem_of_pos r2 (by omega))
  subst e3
  exact ⟨f, l, a, x, rfl, hf, hl, ha⟩

theorem line_append (sep : Byte) (f l a x u : List Byte) :
    line sep f l a x ++ u = line sep f l a (x ++ u) := by
  simp [line, List.append_assoc]

/-- C15: the result of `ParseUntilBytes` does not depend on its separator
argument: for any two separators the results are equal, and they are the
split of the buffer at its first 0x1F byte (the whole buffer and an empty
remainder when there is no 0x1F, two empty outputs on the empty buffer). -/
theorem ParseUntilBytes_sep_irrelevant (bs : List Byte) (sep1 sep2 : Byte) :
    ParseUntilBytes bs sep1 = ParseUntilBytes bs sep2 ∧
      (∀ f r, bs = f ++ US :: r → US ∉ f → ParseUntilBytes bs sep1 = (f, r)) ∧
      (US ∉ bs → ParseUntilBytes bs sep1 = (bs, [])) ∧
      (bs = [] → ParseUntilBytes bs sep1 = ([], [])) := by
  refine ⟨rfl, fun f r e hf => ?_, fun h => ParseUntilBytes_absent bs sep1 h, fun e => ?_⟩
  · rw [e, ParseUntilBytes_found f r sep1 hf]
  · rw [e]; rfl

/-- Witness of C15: `"joe" 0x1F "bloggs"` with the separators `','` and
`' '`, and a buffer without 0x1F. -/
theorem ParseUntilBytes_sep_irrelevant_witness :
    (US ∉ joe ∧ US ∉ aCommaB) ∧
      ParseUntilBytes (joe ++ US :: bloggs) 0x2c = ParseUntilBytes (joe ++ US :: bloggs) 0x20 ∧
      ParseUntilBytes (joe ++ US :: bloggs) 0x2c = (joe, bloggs) ∧
      ParseUntilBytes aCommaB 0x2c = (aCommaB, []) :=
  ⟨by decide,
    (ParseUntilBytes_sep_irrelevant (joe ++ US :: bloggs) 0x2c 0x20).1,
    (ParseUntilBytes_sep_irrelevant (joe ++ US :: bloggs) 0x2c 0x20).2.1 joe bloggs rfl
      (by decide),
    (ParseUntilBytes_sep_irrelevant aCommaB 0x2c 0x20).2.2.1 (by decide)⟩

/-- C16: the copying and the zero-copy byte decoders are observationally
equivalent on every input: `PersonBytesUnsafe` returns `(p, true)` exactly
when `PersonBytes` returns `(p, nil)`, and it returns the zero-value person
and false exactly when `PersonBytes` returns the zero-value person and a
non-nil error; one of the two always happens. -/
theorem byte_decoders_equivalent (L : Float64Lib) (bs : List Byte) :
    (∀ p, PersonBytesUnsafe L bs = (p, true) ↔ PersonBytes L bs = (p, none)) ∧
      (PersonBytesUnsafe L bs = (person.zeroValue L, false) ↔
        ∃ e, PersonBytes L bs = (person.zeroValue L, some e)) ∧
      ((∃ p, PersonBytesUnsafe L bs = (p, true)) ∨
        PersonBytesUnsafe L bs = (person.zeroValue L, false)) := by
  have heq := PersonBytesUnsafe_eq L bs
  by_cases hne : (PersonBytes L bs).2 ≠ none
  · rw [if_pos hne] at heq
    have hz := PersonBytes_error_zero L bs hne
    obtain ⟨e, he⟩ := Option.ne_none_iff_exists'.1 hne
    have hpb : PersonBytes L bs = (person.zeroValue L, some e) := Prod.ext hz he
    refine ⟨fun p => ⟨fun h => ?_, fun h => ?_⟩, ⟨fun _ => ⟨e, hpb⟩, fun _ => heq⟩, Or.inr heq⟩
    · rw [heq] at h
      exact absurd (congrArg Prod.snd h) (by simp)
    · rw [hpb] at h
      exact absurd (congrArg Prod.snd h) (by simp)
  · rw [if_neg hne] at heq
    have hnone : (PersonBytes L bs).2 = none := not_not.1 hne
    refine ⟨fun p => ⟨fun h => ?_, fun h => ?_⟩, ⟨fun h => ?_, fun h => ?_⟩, Or.inl ⟨_, heq⟩⟩
    · rw [heq] at h
      have hp : (PersonBytes L bs).1 = p := congrArg Prod.fst h
      exact Prod.ext hp hnone
    · rw [heq, h]
    · rw [heq] at h
      exact absurd (congrArg Prod.snd h) (by simp)
    · obtain ⟨e, he⟩ := h
      rw [he] at hnone
      exact absurd hnone (by simp)

/-- C17: fields beyond the fourth are ignored.  For a string `s` with at
least three spaces and any `t`, `Person` and `PersonEfficient` return the same
on `s + " " + t` as on `s`, record and error alike; likewise `PersonBytes` and
`PersonBytesUnsafe` for a buffer with at least three 0x1F bytes. -/
theorem surplus_fields_ignored (L : Float64Lib) :
    (∀ s t : List Byte, 3 ≤ Count s SP →
      Person L (s ++ SP :: t) = Person L s ∧
        PersonEfficient L (s ++ SP :: t) = PersonEfficient L s) ∧
      (∀ bs t : List Byte, 3 ≤ Count bs US →
        PersonBytes L (bs ++ US :: t) = PersonBytes L bs ∧
          PersonBytesUnsafe L (bs ++ US :: t) = PersonBytesUnsafe L bs) := by
  constructor
  · intro s t h
    obtain ⟨f, l, a, x, e, hf, hl, ha⟩ := line_of_three_seps s SP h
    subst e
    rw [line_append]
    constructor
    · rw [Person_line_general L f l a _ hf hl ha, Person_line_general L f l a x hf hl ha,
        takeWhile_append_sep]
    · rw [PersonEfficient_line L f l a _ hf hl ha, PersonEfficient_line L f l a x hf hl ha,
        ParseUntil_fst, ParseUntil_fst, takeWhile_append_sep]
  · intro bs t h
    obtain ⟨f, l, a, x, e, hf, hl, ha⟩ := line_of_three_seps bs US h
    subst e
    rw [line_append]
    have hpb : PersonBytes L (line US f l a (x ++ US :: t)) = PersonBytes L (line US f l a x) := by
      rw [PersonBytes_line L f l a _ hf hl ha, PersonBytes_line L f l a x hf hl ha,
        ParseUntilBytes_fst, ParseUntilBytes_fst, takeWhile_append_sep]
    exact ⟨hpb, by rw [PersonBytesUnsafe_eq, PersonBytesUnsafe_eq, hpb]⟩

/-- Witness of C17: `"joe bloggs 25 182.3"` followed by `" abc"`. -/
theorem surplus_fields_ignored_witness :
    3 ≤ Count (line SP joe bloggs age25 height182_3) SP ∧
      Person sampleLib (line SP joe bloggs age25 height182_3 ++ SP :: abc) =
        Person sampleLib (line SP joe bloggs age25 height182_3) ∧
      PersonEfficient sampleLib (line SP joe bloggs age25 height182_3 ++ SP :: abc) =
        PersonEfficient sampleLib (line SP joe bloggs age25 height182_3) :=
  ⟨by decide,
    (surplus_fields_ignored sampleLib).1 (line SP joe bloggs age25 height182_3) abc
      (by decide)⟩

/-! ## Integer overflow -/

theorem Atoi_out_of_range (bs : List Byte) (hg : intGrammar bs)
    (hr : ¬ inIntRange (intValue bs)) :
    ∃ n, Atoi bs = (n, some (rangeError FuncName.fnAtoi bs)) := by
  have hne := intGrammar_ne_nil bs hg
  have hslow : ¬ (0 < bs.length ∧ bs.length < 19) := by
    intro hfast
    apply hr
    have hlt := decimalFrom_lt (dropSign bs) 0 hg.2
    have hl := dropSign_length_le bs
    have hpow : 10 ^ (dropSign bs).length ≤ 10 ^ 18 :=
      Nat.pow_le_pow_right (by norm_num) (by omega)
    have hb : decimalFrom (dropSign bs) 0 < 10 ^ 18 := by omega
    unfold inIntRange intValue
    split <;> constructor <;> omega
  have hPU := ParseUint_digits (dropSign bs) hg.1 hg.2
  have hmax : maxUint64 ≥ 2 ^ 63 ∧ maxUint64 > 2 ^ 63 := by
    rw [maxUint64_eq]; norm_num
  rw [Atoi_slow bs hslow, ParseInt_eq bs hne]
  unfold inIntRange intValue at hr
  by_cases hlt : decimalFrom (dropSign bs) 0 < 2 ^ 64
  · rw [if_pos hlt] at hPU
    rw [hPU]
    have h1 : ¬ ((none : GoError) ≠ none ∧
        (none : GoError).map NumError.Err ≠ some ErrKind.ErrRange) := by simp
    simp only []
    rw [if_neg h1]
    by_cases hneg : bs.head? = some 0x2d
    · rw [if_pos hneg] at hr
      have hgt : decimalFrom (dropSign bs) 0 > 2 ^ 63 := by omega
      rw [if_neg (fun c => c.1 hneg), if_pos ⟨hneg, hgt⟩]
      exact ⟨_, rfl⟩
    · rw [if_neg hneg] at hr
      have hge : decimalFrom (dropSign bs) 0 ≥ 2 ^ 63 := by omega
      rw [if_pos ⟨hneg, hge⟩]
      exact ⟨_, rfl⟩
  · rw [if_neg hlt] at hPU
    rw [hPU]
    have h1 : ¬ ((some (rangeError FuncName.fnParseUint (dropSign bs)) : GoError) ≠ none ∧
        (some (rangeError FuncName.fnParseUint (dropSign bs)) : GoError).map NumError.Err
          ≠ some ErrKind.ErrRange) := by
      simp [rangeError]
    simp only []
    rw [if_neg h1]
    by_cases hneg : bs.head? = some 0x2d
    · rw [if_neg (fun c => c.1 hneg), if_pos ⟨hneg, hmax.2⟩]
      exact ⟨_, rfl⟩
    · rw [if_pos ⟨hneg, hmax.1⟩]
      exact ⟨_, rfl⟩

set_option maxRecDepth 100000 in
/-- C11: integer overflow is an explicit failure.  On every text of the
integer grammar whose decimal value lies outside the range of a 64-bit int,
`ToInt` returns ok = false and `strconv.Atoi` returns a non-nil error, which
is a range error; the boundary values 9223372036854775807 and
-9223372036854775808 are accepted and returned exactly. -/
theorem integer_overflow_rejected :
    (∀ bs : List Byte, intGrammar bs → ¬ inIntRange (intValue bs) →
      ToInt bs = (0, false) ∧ (Atoi bs).2 ≠ none ∧
        (Atoi bs).2 = some (rangeError FuncName.fnAtoi bs)) ∧
      ToInt maxIntText = (9223372036854775807, true) ∧
      ToInt minIntText = (-9223372036854775808, true) := by
  refine ⟨fun bs hg hr => ?_, by decide, by decide⟩
  obtain ⟨n, hn⟩ := Atoi_out_of_range bs hg hr
  refine ⟨?_, by rw [hn]; simp, by rw [hn]⟩
  unfold ToInt ToString
  simp only []
  rw [hn]
  simp

set_option maxRecDepth 100000 in
/-- Witness of C11: `"9223372036854775808"` is rejected with a range error. -/
theorem integer_overflow_rejected_witness :
    (intGrammar overflowText ∧ ¬ inIntRange (intValue overflowText)) ∧
      ToInt overflowText = (0, false) ∧ (Atoi overflowText).2 ≠ none ∧
      (Atoi overflowText).2 = some (rangeError FuncName.fnAtoi overflowText) :=
  ⟨by decide, integer_overflow_rejected.1 overflowText (by decide) (by decide)⟩

/-! ## Fibonacci -/

theorem wrapInt64_add (a b : Int) :
    wrapInt64 (wrapInt64 a + wrapInt64 b) = wrapInt64 (a + b) := by
  unfold wrapInt64
  omega

theorem wrapInt64_small (x : Int) (h0 : -(2 ^ 63) ≤ x) (h1 : x < 2 ^ 63) : wrapInt64 x = x := by
  unfold wrapInt64
  omega

theorem fib_unfold (n : Int) :
    fib n = if n ≤ 1 then n else wrapInt64 (fib (n - 1) + fib (n - 2)) := by
  rw [fib]

theorem fibSequentialLoop_unfold (i n n2 n1 : Int) :
    fibSequentialLoop i n n2 n1 =
      if i < n then fibSequentialLoop (i + 1) n n1 (wrapInt64 (n1 + n2)) else (n2, n1) := by
  rw [fibSequentialLoop]

theorem fib_nat (k : Nat) : fib (k : Int) = wrapInt64 (Nat.fib k) := by
  induction k using Nat.strong_induction_on with
  | _ k ih =>
    match k, ih with
    | 0, _ => rw [fib_unfold]; simp [wrapInt64]
    | 1, _ => rw [fib_unfold]; simp [wrapInt64]
    | k + 2, ih =>
      have h1 : ¬ (((k + 2 : Nat) : Int) ≤ 1) := by omega
      have e1 : ((k + 2 : Nat) : Int) - 1 = ((k + 1 : Nat) : Int) := by omega
      have e2 : ((k + 2 : Nat) : Int) - 2 = (k : Int) := by omega
      rw [fib_unfold, if_neg h1, e1, e2, ih (k + 1) (by omega), ih k (by omega), wrapInt64_add,
        Nat.fib_add_two]
      congr 1
      push_cast
      ring

theorem fibSequentialLoop_spec (m k : Nat) :
    fibSequentialLoop ((k + 2 : Nat) : Int) ((k + 2 + m : Nat) : Int)
        (wrapInt64 (Nat.fib k)) (wrapInt64 (Nat.fib (k + 1)))
      = (wrapInt64 (Nat.fib (k + m)), wrapInt64 (Nat.fib (k + m + 1))) := by
  induction m generalizing k with
  | zero =>
    have h : ¬ (((k + 2 : Nat) : Int) < ((k + 2 + 0 : Nat) : Int)) := by omega
    rw [fibSequentialLoop_unfold, if_neg h]
    rfl
  | succ m ih =>
    have h : ((k + 2 : Nat) : Int) < ((k + 2 + (m + 1) : Nat) : Int) := by omega
    have e1 : ((k + 2 : Nat) : Int) + 1 = ((k + 1 + 2 : Nat) : Int) := by omega
    have e2 : ((k + 2 + (m + 1) : Nat) : Int) = ((k + 1 + 2 + m : Nat) : Int) := by omega
    have e3 : wrapInt64 (wrapInt64 (Nat.fib (k + 1)) + wrapInt64 (Nat.fib k))
        = wrapInt64 (Nat.fib (k + 1 + 1)) := by
      rw [wrapInt64_add, Nat.fib_add_two]
      congr 1
      push_cast
      ring
    rw [fibSequentialLoop_unfold, if_pos h, e1, e2, e3, ih (k + 1)]
    have e4 : k + 1 + m = k + (m + 1) := by omega
    rw [e4]

theorem fibSequential_nat (k : Nat) (h : 2 ≤ k) :
    fibSequential (k : Int) = wrapInt64 (Nat.fib k) := by
  obtain ⟨m, rfl⟩ : ∃ m, k = m + 2 := ⟨k - 2, by omega⟩
  have h1 : ¬ (((m + 2 : Nat) : Int) ≤ 1) := by omega
  have hloop := fibSequentialLoop_spec m 0
  have e0 : wrapInt64 ((Nat.fib 0 : Nat) : Int) = 0 := by simp [wrapInt64]
  have e1 : wrapInt64 ((Nat.fib (0 + 1) : Nat) : Int) = 1 := by simp [wrapInt64]
  have e2 : (((0 + 2 : Nat) : Nat) : Int) = 2 := by norm_num
  have e3 : ((0 + 2 + m : Nat) : Int) = ((m + 2 : Nat) : Int) := by omega
  rw [e0, e1, e2, e3] at hloop
  unfold fibSequential
  rw [if_neg h1, hloop]
  simp only [Nat.zero_add]
  rw [wrapInt64_add, Nat.fib_add_two]
  congr 1

theorem fib_le_92 (k : Nat) (h : k ≤ 92) : Nat.fib k < 2 ^ 63 := by
  have h1 : Nat.fib k ≤ Nat.fib 92 := Nat.fib_mono h
  have h2 : Nat.fib 92 = 7540113804746346429 := by norm_num
  omega

/-- C18: the recursive and the iterative Fibonacci functions compute the same
value on every integer `n`, with `int` addition wrapping modulo `2^64`: both
return `n` itself when `n <= 1`, and the `n`-th Fibonacci number (wrapped to
the 64-bit range, so exactly that number up to `n = 92`) otherwise. -/
theorem fib_eq_fibSequential (n : Int) :
    fib n = fibSequential n ∧
      (n ≤ 1 → fib n = n ∧ fibSequential n = n) ∧
      (1 < n → fib n = wrapInt64 (Nat.fib n.toNat) ∧
        (n ≤ 92 → fib n = (Nat.fib n.toNat : Int))) := by
  by_cases h : n ≤ 1
  · have hf : fib n = n := by rw [fib_unfold, if_pos h]
    have hs : fibSequential n = n := by unfold fibSequential; rw [if_pos h]
    exact ⟨by rw [hf, hs], fun _ => ⟨hf, hs⟩, fun h1 => absurd h (by omega)⟩
  · obtain ⟨k, rfl⟩ : ∃ k : Nat, n = (k : Int) := ⟨n.toNat, by omega⟩
    have hk : 2 ≤ k := by omega
    have hf := fib_nat k
    have hs := fibSequential_nat k hk
    refine ⟨by rw [hf, hs], fun h1 => absurd h1 h, fun _ => ?_⟩
    rw [Int.toNat_ofNat]
    refine ⟨hf, fun h92 => ?_⟩
    have hlt := fib_le_92 k (by omega)
    rw [hf, wrapInt64_small _ (by omega) (by omega)]

/-- Witness of C18: the inputs of the benchmarks, 0, 1, 10 and 25. -/
theorem fib_eq_fibSequential_witness :
    (fib 0 = 0 ∧ fibSequential 0 = 0) ∧ (fib 1 = 1 ∧ fibSequential 1 = 1) ∧
      (fib 10 = fibSequential 10 ∧ fib 10 = 55) ∧
      (fib 25 = fibSequential 25 ∧ fib 25 = 75025) :=
  ⟨(fib_eq_fibSequential 0).2.1 (by decide),
    (fib_eq_fibSequential 1).2.1 (by decide),
    ⟨(fib_eq_fibSequential 10).1,
      (((fib_eq_fibSequential 10).2.2 (by decide)).2 (by decide)).trans (by decide)⟩,
    ⟨(fib_eq_fibSequential 25).1,
      (((fib_eq_fibSequential 25).2.2 (by decide)).2 (by decide)).trans (by decide)⟩⟩

/-! ## Loops -/

theorem forILoop_zero (sl : List bigObj) (i : Nat) :
    forILoop sl i { id := 0 } = { id := 0 } := by
  generalize h : sl.length - i = m
  induction m generalizing i with
  | zero =>
    have hlt : ¬ i < sl.length := by omega
    rw [forILoop, dif_neg hlt]
  | succ m ih =>
    have hlt : i < sl.length := by omega
    rw [forILoop, dif_pos hlt]
    have h5 : ¬ ((0 : Int) = 5) := by decide
    simp only [h5, if_false]
    exact ih (i + 1) (by omega)

theorem forRange_fold_zero (sl : List bigObj) :
    sl.foldl (fun (oo : otherObj) (elem : bigObj) =>
      if oo.id = 5 then ({ id := elem.id } : otherObj) else oo) { id := 0 } = { id := 0 } := by
  induction sl with
  | nil => rfl
  | cons x xs ih =>
    have h5 : ¬ ((0 : Int) = 5) := by decide
    simp only [List.foldl_cons, h5, if_false]
    exact ih

/-- C19: the index loop and the range loop agree, and their guarded
assignment never runs: for every slice, whatever ids it holds, `forI` and
`forRange` both return `otherObj{id: 0}`; in particular on the slice of the
benchmarks, which holds an element with id 5. -/
theorem forI_eq_forRange (sl : List bigObj) :
    forI sl = forRange sl ∧ forI sl = { id := 0 } ∧ forRange sl = { id := 0 } ∧
      (∃ elem ∈ benchSlice, elem.id = 5) ∧ forI benchSlice = { id := 0 } ∧
      forRange benchSlice = { id := 0 } := by
  have hI : ∀ s, forI s = { id := 0 } := fun s => forILoop_zero s 0
  have hR : ∀ s, forRange s = { id := 0 } := fun s => forRange_fold_zero s
  refine ⟨by rw [hI, hR], hI sl, hR sl, ⟨⟨5, fun _ => 0⟩, by simp [benchSlice], rfl⟩,
    hI benchSlice, hR benchSlice⟩

/-! ## The view cast -/

theorem bytesAt_length (m : Memory) (p n : Nat) : (bytesAt m p n).length = n := by
  simp [bytesAt]

theorem bytesAt_getElem? (m : Memory) (p n i : Nat) (h : i < n) :
    (bytesAt m p n)[i]? = some (m (p + i)) := by
  simp [bytesAt, List.getElem?_map, List.getElem?_range h]

/-- C13: the view cast preserves bounds and content and has no failure path.
For every slice header (a nil slice and arbitrary bytes included) and every
memory, the header that `ToString` produces has the pointer and the length of
the slice; the string it denotes has length `len(bs)`, its `i`-th byte is
`bs[i]`, and it equals the value of `string(bs)`, which is what the
value-level `ToString` of the decoders returns. -/
theorem ToString_preserves (m : Memory) (bs : SliceHeader) :
    ((ToStringHeader bs).Data = bs.Data ∧ (ToStringHeader bs).Len = bs.Len) ∧
      ((ToStringHeader bs).bytes m).length = bs.Len ∧
      (∀ i, i < bs.Len →
        ((ToStringHeader bs).bytes m)[i]? = some (m (bs.Data + i)) ∧
          ((ToStringHeader bs).bytes m)[i]? = (bs.bytes m)[i]?) ∧
      (ToStringHeader bs).bytes m = bs.bytes m ∧
      (ToStringHeader bs).bytes m = ToString (bs.bytes m) ∧
      (ToString (bs.bytes m)).length = bs.Len := by
  have hd : (ToStringHeader bs).Data = bs.Data := rfl
  have hl : (ToStringHeader bs).Len = bs.Len := rfl
  have hb : (ToStringHeader bs).bytes m = bs.bytes m := rfl
  refine ⟨⟨hd, hl⟩, ?_, fun i hi => ⟨?_, ?_⟩, hb, hb, ?_⟩
  · rw [hb]; exact bytesAt_length m _ _
  · rw [hb]; exact bytesAt_getElem? m _ _ i hi
  · rw [hb]
  · exact bytesAt_length m _ _

/-- Witness of C13: the slice `{'1', '1', '1'}` of `example`, stored at
address 100. -/
theorem ToString_preserves_witness :
    (0 : Nat) < 3 ∧
      ((ToStringHeader ⟨100, 3, 3⟩).bytes (fun _ => 0x31))[0]? = some 0x31 ∧
      ((ToStringHeader ⟨100, 3, 3⟩).bytes (fun _ => 0x31))[0]?
        = ((⟨100, 3, 3⟩ : SliceHeader).bytes (fun _ => 0x31))[0]? :=
  ⟨by decide, (ToString_preserves (fun _ => 0x31) ⟨100, 3, 3⟩).2.2.1 0 (by decide)⟩

/-! ## strconv.ParseFloat: what a text that is read to its end looks like

The bytes `'.'`, space and 0x1F are followed through `special` and
`readFloat`: neither reads a space or a 0x1F byte, and `readFloat` reads at
most one `'.'`. -/

theorem tracked_byte_facts (x : Byte) (hx : x = 0x2e ∨ x = SP ∨ x = US) :
    ¬ ((0x41 : Byte) ≤ x ∧ x ≤ 0x5a) ∧ x ∉ infinityText ∧ x ∉ nanText ∧
      x ≠ 0x2b ∧ x ≠ 0x2d ∧ x ≠ 0x5f ∧ x ≠ 0x30 ∧ ¬ ((0x30 : Byte) ≤ x ∧ x ≤ 0x39) ∧
      ¬ ((0x61 : Byte) ≤ lower x ∧ lower x ≤ 0x66) ∧
      lower x ≠ 0x70 ∧ lower x ≠ 0x65 ∧ lower x ≠ 0x78 := by
  rcases hx with e | e | e <;> subst e <;> decide

theorem commonPrefixLenIgnoreCase_cons (c q : Byte) (s p : List Byte) :
    commonPrefixLenIgnoreCase (c :: s) (q :: p) =
      if (if (0x41 : Byte) ≤ c ∧ c ≤ 0x5a then c + 0x20 else c) ≠ q then 0
      else 1 + commonPrefixLenIgnoreCase s p := rfl

theorem commonPrefixLenIgnoreCase_not_mem (x : Byte) (hx : ¬ ((0x41 : Byte) ≤ x ∧ x ≤ 0x5a))
    (s p : List Byte) (hp : x ∉ p) (k : Nat) (hk : k ≤ commonPrefixLenIgnoreCase s p) :
    x ∉ s.take k := by
  induction s generalizing p k with
  | nil => simp
  | cons c s ih =>
    cases p with
    | nil =>
      have : k = 0 := by simpa [commonPrefixLenIgnoreCase] using hk
      subst this
      simp
    | cons q p =>
      cases k with
      | zero => simp
      | succ k =>
        have hq : x ≠ q := fun e => hp (by simp [e])
        have hp2 : x ∉ p := fun e => hp (List.mem_cons_of_mem _ e)
        rw [commonPrefixLenIgnoreCase_cons] at hk
        by_cases hc : (if (0x41 : Byte) ≤ c ∧ c ≤ 0x5a then c + 0x20 else c) = q
        · rw [if_neg (not_not.2 hc)] at hk
          have hcd : c ≠ x := by
            intro e
            subst e
            rw [if_neg hx] at hc
            exact hq hc
          have hk2 : k ≤ commonPrefixLenIgnoreCase s p := by omega
          rw [List.take_succ_cons]
          intro hm
          rcases List.mem_cons.1 hm with e | e
          · exact hcd e.symm
          · exact ih p hp2 k hk2 e
        · rw [if_pos hc] at hk
          omega

theorem specialInfinity_cases (N : Float64Num) (sign : Int) (nsign : Nat) (s : List Byte) :
    specialInfinity N sign nsign s = (N.zero, 0, false) ∨
      ∃ k, k ≤ commonPrefixLenIgnoreCase s infinityText ∧
        specialInfinity N sign nsign s = (N.Inf sign, nsign + k, true) := by
  unfold specialInfinity
  simp only []
  by_cases hn : 3 < commonPrefixLenIgnoreCase s infinityText ∧
      commonPrefixLenIgnoreCase s infinityText < 8
  · rw [if_pos hn]
    exact Or.inr ⟨3, by omega, by simp⟩
  · rw [if_neg hn]
    by_cases h38 : commonPrefixLenIgnoreCase s infinityText = 3 ∨
        commonPrefixLenIgnoreCase s infinityText = 8
    · rw [if_pos h38]
      exact Or.inr ⟨_, le_refl _, rfl⟩
    · rw [if_neg h38]
      exact Or.inl rfl

theorem special_not_mem (N : Float64Num) (x : Byte) (hx : x = 0x2e ∨ x = SP ∨ x = US)
    (s : List Byte) (h : (special N s).2.2 = true) : x ∉ s.take (special N s).2.1 := by
  obtain ⟨hup, hinf, hnan, hplus, hminus, -⟩ := tracked_byte_facts x hx
  cases s with
  | nil => simp
  | cons c rest =>
    by_cases hc : c = 0x2b ∨ c = 0x2d
    · have e : special N (c :: rest) = specialInfinity N (if c = 0x2d then -1 else 1) 1 rest := by
        simp only [special, hc, if_true]
      rw [e] at h ⊢
      rcases specialInfinity_cases N (if c = 0x2d then -1 else 1) 1 rest with e2 | ⟨k, hk, e2⟩
      · rw [e2] at h; simp at h
      · rw [e2]
        simp only []
        rw [Nat.add_comm 1 k, List.take_succ_cons]
        intro hm
        rcases List.mem_cons.1 hm with e3 | e3
        · rcases hc with e4 | e4
          · exact hplus (e3.trans e4)
          · exact hminus (e3.trans e4)
        · exact commonPrefixLenIgnoreCase_not_mem x hup rest infinityText hinf k hk e3
    · by_cases hi : c = 0x69 ∨ c = 0x49
      · have e : special N (c :: rest) = specialInfinity N 1 0 (c :: rest) := by
          simp only [special, hc, hi, if_true, if_false]
        rw [e] at h ⊢
        rcases specialInfinity_cases N 1 0 (c :: rest) with e2 | ⟨k, hk, e2⟩
        · rw [e2] at h; simp at h
        · rw [e2]
          simp only [Nat.zero_add]
          exact commonPrefixLenIgnoreCase_not_mem x hup (c :: rest) infinityText hinf k hk
      · by_cases hn : c = 0x6e ∨ c = 0x4e
        · have e : special N (c :: rest) =
              if commonPrefixLenIgnoreCase (c :: rest) nanText = 3 then (N.NaN, 3, true)
              else (N.zero, 0, false) := by
            simp only [special, hc, hi, hn, if_true, if_false]
          rw [e] at h ⊢
          by_cases h3 : commonPrefixLenIgnoreCase (c :: rest) nanText = 3
          · rw [if_pos h3]
            simp only []
            exact commonPrefixLenIgnoreCase_not_mem x hup (c :: rest) nanText hnan 3
              (by omega)
          · rw [if_neg h3] at h; simp at h
        · have e : special N (c :: rest) = (N.zero, 0, false) := by
            simp only [special, hc, hi, hn, if_false]
          rw [e] at h; simp at h

theorem readFloatStep_sawdot (base : Nat) (maxMantDigits : Int) (c : Byte)
    (st st2 : readFloatState) (h : readFloatStep base maxMantDigits c st = some st2) :
    (c = 0x2e → st.sawdot = false ∧ st2.sawdot = true) ∧
      (c ≠ 0x2e → st2.sawdot = st.sawdot) ∧ c ≠ SP ∧ c ≠ US := by
  unfold readFloatStep at h
  by_cases h1 : c = 0x5f
  · rw [if_pos h1] at h
    simp only [Option.some.injEq] at h
    subst h
    subst h1
    exact ⟨fun e => absurd e (by decide), fun _ => rfl, by decide, by decide⟩
  · rw [if_neg h1] at h
    by_cases h2 : c = 0x2e
    · rw [if_pos h2] at h
      by_cases h3 : st.sawdot = true
      · rw [if_pos h3] at h
        exact absurd h (by simp)
      · rw [if_neg h3] at h
        simp only [Option.some.injEq] at h
        subst h
        subst h2
        exact ⟨fun _ => ⟨by simpa using h3, rfl⟩, fun e => absurd rfl e, by decide, by decide⟩
    · rw [if_neg h2] at h
      by_cases h3 : (0x30 : Byte) ≤ c ∧ c ≤ 0x39
      · have hsp : c ≠ SP ∧ c ≠ US := by
          constructor <;> intro e <;> subst e <;> exact absurd h3 (by decide)
        refine ⟨fun e => absurd e h2, fun _ => ?_, hsp.1, hsp.2⟩
        rw [if_pos h3] at h
        simp only [] at h
        split at h
        · simp only [Option.some.injEq] at h
          subst h; rfl
        · split at h
          · simp only [Option.some.injEq] at h
            subst h; rfl
          · split at h
            · simp only [Option.some.injEq] at h
              subst h; rfl
            · simp only [Option.some.injEq] at h
              subst h; rfl
      · rw [if_neg h3] at h
        by_cases h4 : base = 16 ∧ (0x61 : Byte) ≤ lower c ∧ lower c ≤ 0x66
        · have hsp : c ≠ SP ∧ c ≠ US := by
            constructor <;> intro e <;> subst e <;> exact absurd h4.2 (by decide)
          refine ⟨fun e => absurd e h2, fun _ => ?_, hsp.1, hsp.2⟩
          rw [if_pos h4] at h
          simp only [] at h
          split at h
          · simp only [Option.some.injEq] at h
            subst h; rfl
          · simp only [Option.some.injEq] at h
            subst h; rfl
        · rw [if_neg h4] at h
          exact absurd h (by simp)

theorem readFloatDigits_dots (base : Nat) (maxMantDigits : Int) (rest : List Byte)
    (st : readFloatState) :
    rest.count 0x2e ≤
      (readFloatDigits base maxMantDigits rest st).1.count 0x2e +
        (if st.sawdot = true then 0 else 1) := by
  induction rest generalizing st with
  | nil => simp [readFloatDigits]
  | cons c rest ih =>
    cases hstep : readFloatStep base maxMantDigits c st with
    | none =>
      have e : readFloatDigits base maxMantDigits (c :: rest) st = (c :: rest, st) := by
        simp only [readFloatDigits, hstep]
      rw [e]
      exact Nat.le_add_right _ _
    | some st2 =>
      have e : readFloatDigits base maxMantDigits (c :: rest) st
          = readFloatDigits base maxMantDigits rest st2 := by
        simp only [readFloatDigits, hstep]
      rw [e]
      have hs := readFloatStep_sawdot base maxMantDigits c st st2 hstep
      have hih := ih st2
      by_cases hc : c = 0x2e
      · obtain ⟨h1, h2⟩ := hs.1 hc
        rw [h2] at hih
        rw [h1, hc, List.count_cons_self]
        simp only [if_true] at hih
        simp only [Bool.false_eq_true, if_false]
        omega
      · have h2 := hs.2.1 hc
        rw [h2] at hih
        rw [List.count_cons_of_ne (fun e => hc e.symm)]
        exact hih

theorem readFloatDigits_count (x : Byte) (hx : x = SP ∨ x = US) (base : Nat)
    (maxMantDigits : Int) (rest : List Byte) (st : readFloatState) :
    (readFloatDigits base maxMantDigits rest st).1.count x = rest.count x := by
  induction rest generalizing st with
  | nil => simp [readFloatDigits]
  | cons c rest ih =>
    cases hstep : readFloatStep base maxMantDigits c st with
    | none =>
      have e : readFloatDigits base maxMantDigits (c :: rest) st = (c :: rest, st) := by
        simp only [readFloatDigits, hstep]
      rw [e]
    | some st2 =>
      have e : readFloatDigits base maxMantDigits (c :: rest) st
          = readFloatDigits base maxMantDigits rest st2 := by
        simp only [readFloatDigits, hstep]
      have hs := readFloatStep_sawdot base maxMantDigits c st st2 hstep
      have hc : c ≠ x := by
        rcases hx with e2 | e2 <;> rw [e2]
        · exact hs.2.2.1
        · exact hs.2.2.2
      rw [e, ih st2, List.count_cons_of_ne (fun e2 => hc e2.symm)]

theorem readFloatExpDigits_count (x : Byte) (hx : x = 0x2e ∨ x = SP ∨ x = US)
    (rest : List Byte) (e : Int) (u : Bool) :
    (readFloatExpDigits rest e u).1.count x = rest.count x := by
  obtain ⟨-, -, -, -, -, hu, -, hdig, -⟩ := tracked_byte_facts x hx
  induction rest generalizing e u with
  | nil => rfl
  | cons c rest ih =>
    unfold readFloatExpDigits
    by_cases h1 : ((0x30 : Byte) ≤ c ∧ c ≤ 0x39) ∨ c = 0x5f
    · have hc : c ≠ x := by
        intro e2
        subst e2
        rcases h1 with h1 | h1
        · exact hdig h1
        · exact hu h1
      rw [if_pos h1, List.count_cons_of_ne (fun e2 => hc e2.symm)]
      split
      · exact ih _ _
      · exact ih _ _
    · rw [if_neg h1]

theorem lower_ne_tracked (c x : Byte) (hx : x = 0x2e ∨ x = SP ∨ x = US)
    (h : lower c = 0x70 ∨ lower c = 0x65 ∨ lower c = 0x78) : c ≠ x := by
  obtain ⟨-, -, -, -, -, -, -, -, -, hp, he, hxx⟩ := tracked_byte_facts x hx
  intro e
  subst e
  rcases h with h | h | h
  · exact hp h
  · exact he h
  · exact hxx h

theorem readFloatExponent_spec (s s3 : List Byte) (neg hex : Bool) (st : readFloatState)
    (h : (readFloatExponent s s3 neg hex st).ok = true) :
    ∃ rest : List Byte, (readFloatExponent s s3 neg hex st).i = s.length - rest.length ∧
      ∀ x : Byte, x = 0x2e ∨ x = SP ∨ x = US → rest.count x = s3.count x := by
  unfold readFloatExponent at h ⊢
  simp only [] at h ⊢
  by_cases hd : st.sawdigits = false
  · rw [if_pos hd] at h
    exact absurd h (by simp)
  · rw [if_neg hd] at h ⊢
    cases s3 with
    | nil =>
      simp only [] at h ⊢
      split at h
      · exact absurd h (by simp)
      · rename_i hb
        rw [if_neg hb]
        exact ⟨[], rfl, fun _ _ => rfl⟩
    | cons c s4 =>
      simp only [] at h ⊢
      by_cases he : lower c = (if hex = true then 0x70 else 0x65)
      · have hc : ∀ x : Byte, x = 0x2e ∨ x = SP ∨ x = US → c ≠ x := by
          intro x hx
          apply lower_ne_tracked c x hx
          rw [he]
          split
          · exact Or.inl rfl
          · exact Or.inr (Or.inl rfl)
        rw [if_pos he] at h ⊢
        cases s4 with
        | nil => exact absurd h (by simp)
        | cons d s5 =>
          simp only [] at h ⊢
          by_cases hsign : d = 0x2b ∨ d = 0x2d
          · have hdd : ∀ x : Byte, x = 0x2e ∨ x = SP ∨ x = US → d ≠ x := by
              intro x hx e
              obtain ⟨-, -, -, hplus, hminus, -⟩ := tracked_byte_facts x hx
              rcases hsign with e2 | e2
              · exact hplus (e.symm.trans e2)
              · exact hminus (e.symm.trans e2)
            simp only [hsign, if_true] at h ⊢
            cases s5 with
            | nil => exact absurd h (by simp)
            | cons g s6 =>
              simp only [] at h ⊢
              by_cases hg : g < 0x30 ∨ g > 0x39
              · rw [if_pos hg] at h
                exact absurd h (by simp)
              · rw [if_neg hg] at h ⊢
                refine ⟨(readFloatExpDigits (g :: s6) 0 st.underscores).1, rfl, fun x hx => ?_⟩
                rw [readFloatExpDigits_count x hx,
                  List.count_cons_of_ne (fun e => hc x hx e.symm),
                  List.count_cons_of_ne (fun e => hdd x hx e.symm)]
          · simp only [hsign, if_false] at h ⊢
            by_cases hg : d < 0x30 ∨ d > 0x39
            · rw [if_pos hg] at h
              exact absurd h (by simp)
            · rw [if_neg hg] at h ⊢
              refine ⟨(readFloatExpDigits (d :: s5) 0 st.underscores).1, rfl, fun x hx => ?_⟩
              rw [readFloatExpDigits_count x hx,
                List.count_cons_of_ne (fun e => hc x hx e.symm)]
      · rw [if_neg he] at h ⊢
        split at h
        · exact absurd h (by simp)
        · rename_i hb
          rw [if_neg hb]
          exact ⟨c :: s4, rfl, fun _ _ => rfl⟩

theorem readFloatSign_count (x : Byte) (hx : x = 0x2e ∨ x = SP ∨ x = US) (s : List Byte) :
    (readFloatSign s).count x = s.count x := by
  obtain ⟨-, -, -, hplus, hminus, -⟩ := tracked_byte_facts x hx
  unfold readFloatSign
  cases s with
  | nil => simp
  | cons c t =>
    by_cases hc : (c :: t).head? = some 0x2b ∨ (c :: t).head? = some 0x2d
    · rw [if_pos hc]
      have hcd : c ≠ x := by
        have : c = 0x2b ∨ c = 0x2d := by simpa using hc
        intro e
        rcases this with e2 | e2
        · exact hplus (e.symm.trans e2)
        · exact hminus (e.symm.trans e2)
      rw [List.tail_cons, List.count_cons_of_ne (fun e => hcd e.symm)]
    · rw [if_neg hc]

theorem readFloatHex_count (x : Byte) (hx : x = 0x2e ∨ x = SP ∨ x = US) (s1 : List Byte)
    (h : readFloatHex s1 = true) : (s1.drop 2).count x = s1.count x := by
  obtain ⟨-, -, -, -, -, -, hzero, -⟩ := tracked_byte_facts x hx
  match s1, h with
  | a :: b :: c :: t, h =>
    have h2 : a = 0x30 ∧ lower b = 0x78 := by simpa [readFloatHex] using h
    have ha : a ≠ x := fun e => hzero (e.symm.trans h2.1)
    have hb : b ≠ x := lower_ne_tracked b x hx (Or.inr (Or.inr h2.2))
    rw [List.count_cons_of_ne (fun e => ha e.symm), List.count_cons_of_ne (fun e => hb e.symm)]
    rfl
  | [], h => exact absurd h (by simp [readFloatHex])
  | [_], h => exact absurd h (by simp [readFloatHex])
  | [_, _], h => exact absurd h (by simp [readFloatHex])

theorem readFloat_spec (s : List Byte) (h : (readFloat s).ok = true) :
    ∃ rest : List Byte, (readFloat s).i = s.length - rest.length ∧
      s.count 0x2e ≤ rest.count 0x2e + 1 ∧
      ∀ x : Byte, x = SP ∨ x = US → rest.count x = s.count x := by
  cases s with
  | nil => exact absurd h (by simp [readFloat])
  | cons c0 t =>
    unfold readFloat at h ⊢
    simp only [] at h ⊢
    obtain ⟨rest, hi, hcount⟩ := readFloatExponent_spec _ _ _ _ _ h
    have hs2 : ∀ x : Byte, x = 0x2e ∨ x = SP ∨ x = US →
        (if readFloatHex (readFloatSign (c0 :: t)) = true then
          (readFloatSign (c0 :: t)).drop 2 else readFloatSign (c0 :: t)).count x
        = (c0 :: t).count x := by
      intro x hx
      by_cases hxx : readFloatHex (readFloatSign (c0 :: t)) = true
      · rw [if_pos hxx, readFloatHex_count x hx _ hxx, readFloatSign_count x hx]
      · rw [if_neg hxx, readFloatSign_count x hx]
    refine ⟨rest, hi, ?_, fun x hx => ?_⟩
    · rw [hcount 0x2e (Or.inl rfl)]
      have hdig := readFloatDigits_dots
        (if readFloatHex (readFloatSign (c0 :: t)) = true then 16 else 10)
        (if readFloatHex (readFloatSign (c0 :: t)) = true then 16 else 19)
        (if readFloatHex (readFloatSign (c0 :: t)) = true then (readFloatSign (c0 :: t)).drop 2
          else readFloatSign (c0 :: t))
        { mantissa := 0, trunc := false, underscores := false, sawdot := false,
          sawdigits := false, nd := 0, ndMant := 0, dp := 0 }
      simp only [Bool.false_eq_true, if_false] at hdig
      rw [hs2 0x2e (Or.inl rfl)] at hdig
      exact hdig
    · rw [hcount x (Or.inr hx), readFloatDigits_count x hx, hs2 x (Or.inr hx)]

theorem atof64_accept (N : Float64Num) (s : List Byte) (herr : (atof64 N s).2.2 = none)
    (hn : (atof64 N s).2.1 = s.length) : s.count 0x2e ≤ 1 ∧ SP ∉ s ∧ US ∉ s := by
  unfold atof64 at herr hn
  simp only [] at herr hn
  by_cases hsp : (special N s).2.2 = true
  · rw [if_pos hsp] at hn
    simp only [] at hn
    have hd : ∀ x : Byte, x = 0x2e ∨ x = SP ∨ x = US → x ∉ s := by
      intro x hx
      have := special_not_mem N x hx s hsp
      rw [hn, List.take_length] at this
      exact this
    refine ⟨?_, hd SP (Or.inr (Or.inl rfl)), hd US (Or.inr (Or.inr rfl))⟩
    rw [List.count_eq_zero_of_not_mem (hd 0x2e (Or.inl rfl))]
    exact Nat.zero_le _
  · rw [if_neg hsp] at herr hn
    by_cases hok : (readFloat s).ok = false
    · rw [if_pos hok] at herr
      exact absurd herr (by simp)
    · rw [if_neg hok] at hn
      simp only [] at hn
      have hok2 : (readFloat s).ok = true := by simpa using hok
      obtain ⟨rest, hi, hcount, hdelim⟩ := readFloat_spec s hok2
      have hne : s ≠ [] := by
        intro e
        subst e
        exact absurd hok2 (by simp [readFloat])
      have hlen : 0 < s.length := List.length_pos.2 hne
      have hrest : rest = [] := List.length_eq_zero.1 (by omega)
      rw [hrest] at hcount hdelim
      refine ⟨by simpa using hcount, ?_, ?_⟩
      · exact List.count_eq_zero.1 (hdelim SP (Or.inl rfl)).symm
      · exact List.count_eq_zero.1 (hdelim US (Or.inr rfl)).symm

theorem ParseFloat_accept (N : Float64Num) (s : List Byte) (h : (ParseFloat N s).2 = none) :
    (atof64 N s).2.2 = none ∧ (atof64 N s).2.1 = s.length := by
  unfold ParseFloat at h
  simp only [] at h
  split at h
  · exact absurd h (by simp)
  · rename_i hc
    simp only [] at h
    refine ⟨h, ?_⟩
    by_contra hne
    exact hc ⟨hne, Or.inl h⟩

theorem ParseFloat_accept_dots (N : Float64Num) (s : List Byte)
    (h : (ParseFloat N s).2 = none) : s.count 0x2e ≤ 1 := by
  obtain ⟨h1, h2⟩ := ParseFloat_accept N s h
  exact (atof64_accept N s h1 h2).1

theorem ParseFloat_accepted_bytes (N : Float64Num) (s : List Byte)
    (h : (ParseFloat N s).2 = none) : SP ∉ s ∧ US ∉ s := by
  obtain ⟨h1, h2⟩ := ParseFloat_accept N s h
  exact (atof64_accept N s h1 h2).2

theorem ParseFloat_nil (N : Float64Num) :
    ParseFloat N [] = (N.zero, some (syntaxError FuncName.fnParseFloat [])) := rfl

theorem ParseFloat_dot (N : Float64Num) :
    ParseFloat N dotText = (N.zero, some (syntaxError FuncName.fnParseFloat dotText)) := rfl

theorem ParseFloat_rejects (N : Float64Num) (h : List Byte)
    (hbad : h = [] ∨ h = dotText ∨ 2 ≤ h.count 0x2e) : (ParseFloat N h).2 ≠ none := by
  rcases hbad with e | e | hc
  · rw [e, ParseFloat_nil]; simp
  · rw [e, ParseFloat_dot]; simp
  · intro hacc
    have := ParseFloat_accept_dots N h hacc
    omega

theorem height_error_fails (L : Float64Lib) (f l a h : List Byte)
    (hh : (L.ParseFloat h).2 ≠ none) :
    (SP ∉ f → SP ∉ l → SP ∉ a → SP ∉ h →
      (∃ e, Person L (line SP f l a h) = Outcome.ret (person.zeroValue L, some e)) ∧
        (PersonEfficient L (line SP f l a h)).1 = person.zeroValue L ∧
        (PersonEfficient L (line SP f l a h)).2 ≠ none) ∧
      (US ∉ f → US ∉ l → US ∉ a → US ∉ h →
        (PersonBytes L (line US f l a h)).1 = person.zeroValue L ∧
          (PersonBytes L (line US f l a h)).2 ≠ none ∧
          PersonBytesUnsafe L (line US f l a h) = (person.zeroValue L, false)) := by
  constructor
  · intro hf hl ha hhd
    rw [Person_line L f l a h hf hl ha hhd, PersonEfficient_line L f l a h hf hl ha,
      ParseUntil_absent h _ hhd]
    by_cases h1 : (Atoi a).2 ≠ none
    · rw [if_pos h1, if_pos h1]
      obtain ⟨e, he⟩ := Option.ne_none_iff_exists'.1 h1
      exact ⟨⟨e, by rw [he]⟩, rfl, h1⟩
    · rw [if_neg h1, if_neg h1, if_pos hh, if_pos hh]
      obtain ⟨e, he⟩ := Option.ne_none_iff_exists'.1 hh
      exact ⟨⟨e, by rw [he]⟩, rfl, hh⟩
  · intro hf hl ha hhd
    rw [PersonBytes_line L f l a h hf hl ha, PersonBytesUnsafe_line L f l a h hf hl ha,
      ParseUntilBytes_absent h _ hhd]
    by_cases h1 : (Atoi a).2 ≠ none
    · rw [if_pos h1, if_pos h1]
      exact ⟨rfl, h1, rfl⟩
    · rw [if_neg h1, if_neg h1, if_pos hh, if_pos hh]
      exact ⟨rfl, hh, rfl⟩

/-! ## The decoders over Go's strconv.ParseFloat

For Go's `ParseFloat` the facts that the decoder theorems take as hypotheses
(an accepted text holds no delimiter, the empty text is rejected) are proved
above, so the statements hold without them. -/

theorem go_decode_modes_agree (N : Float64Num) (f l a h : List Byte)
    (hf : SP ∉ f ∧ US ∉ f) (hl : SP ∉ l ∧ US ∉ l)
    (ha : (Atoi a).2 = none) (hh : (ParseFloat N h).2 = none) :
    Person (goFloat64Lib N) (line SP f l a h) =
        Outcome.ret
          ({ firstName := f, lastName := l, age := (Atoi a).1, height := (ParseFloat N h).1 },
            none) ∧
      PersonEfficient (goFloat64Lib N) (line SP f l a h) =
        ({ firstName := f, lastName := l, age := (Atoi a).1, height := (ParseFloat N h).1 },
          none) ∧
      PersonBytesUnsafe (goFloat64Lib N) (line US f l a h) =
        ({ firstName := f, lastName := l, age := (Atoi a).1, height := (ParseFloat N h).1 },
          true) := by
  have had := Atoi_accepted_bytes a ha
  have hhd := ParseFloat_accepted_bytes N h hh
  have ha2 : ¬ (Atoi a).2 ≠ none := not_not.2 ha
  have hh2 : ¬ ((goFloat64Lib N).ParseFloat h).2 ≠ none := not_not.2 hh
  refine ⟨?_, ?_, ?_⟩
  · rw [Person_line (goFloat64Lib N) f l a h hf.1 hl.1 had.1 hhd.1, if_neg ha2, if_neg hh2]
    rfl
  · rw [PersonEfficient_line (goFloat64Lib N) f l a h hf.1 hl.1 had.1,
      ParseUntil_absent h _ hhd.1, if_neg ha2, if_neg hh2]
    rfl
  · rw [PersonBytesUnsafe_line (goFloat64Lib N) f l a h hf.2 hl.2 had.2,
      ParseUntilBytes_absent h _ hhd.2, if_neg ha2, if_neg hh2]
    rfl

theorem go_missing_field_is_error (N : Float64Num) :
    (∀ s : List Byte, Count s SP < 3 →
      (PersonEfficient (goFloat64Lib N) s).1 = person.zeroValue (goFloat64Lib N) ∧
        (PersonEfficient (goFloat64Lib N) s).2 ≠ none) ∧
      (∀ bs : List Byte, Count bs US < 3 →
        (PersonBytes (goFloat64Lib N) bs).1 = person.zeroValue (goFloat64Lib N) ∧
          (PersonBytes (goFloat64Lib N) bs).2 ≠ none ∧
          PersonBytesUnsafe (goFloat64Lib N) bs = (person.zeroValue (goFloat64Lib N), false)) := by
  have hempty : ((goFloat64Lib N).ParseFloat []).2 ≠ none :=
    ParseFloat_rejects N [] (Or.inl rfl)
  constructor
  · intro s hc
    rw [PersonEfficient_eq_decodeWith]
    have key := decodeWith_few (goFloat64Lib N) (fun t => ParseUntil t 0x20) SP
      (fun t ht => ParseUntil_absent t _ ht)
      (fun f r hf => ParseUntil_found f r _ hf) hempty s hc
    exact ⟨key.1, key.2.1⟩
  · intro bs hc
    have key := decodeWith_few (goFloat64Lib N) (fun t => ParseUntilBytes t US) US
      (fun t ht => ParseUntilBytes_absent t _ ht)
      (fun f r hf => ParseUntilBytes_found f r _ hf) hempty bs hc
    rw [← PersonBytes_eq_decodeWith] at key
    refine ⟨key.1, key.2.1, ?_⟩
    rw [PersonBytesUnsafe_eq, if_pos key.2.1]

/-- C12: float decode rejects malformed decimals.  With Go's
`strconv.ParseFloat` (whatever its numeric layer), `ToFloat64` returns
ok = false on the empty input, on `"."` and on every input with more than one
`'.'`; consequently, on a record whose height field is one of these (and whose
fields are free of the delimiter), `Person`, `PersonEfficient` and
`PersonBytes` return the zero-value person and a non-nil error, and
`PersonBytesUnsafe` returns the zero-value person and false. -/
theorem float_rejects_malformed (N : Float64Num) (h : List Byte)
    (hbad : h = [] ∨ h = dotText ∨ 2 ≤ h.count 0x2e) :
    ToFloat64 (goFloat64Lib N) h = ((goFloat64Lib N).zero, false) ∧
      (∀ f l a : List Byte, SP ∉ f → SP ∉ l → SP ∉ a → SP ∉ h →
        (∃ e, Person (goFloat64Lib N) (line SP f l a h) =
            Outcome.ret (person.zeroValue (goFloat64Lib N), some e)) ∧
          (PersonEfficient (goFloat64Lib N) (line SP f l a h)).1 =
            person.zeroValue (goFloat64Lib N) ∧
          (PersonEfficient (goFloat64Lib N) (line SP f l a h)).2 ≠ none) ∧
      (∀ f l a : List Byte, US ∉ f → US ∉ l → US ∉ a → US ∉ h →
        (PersonBytes (goFloat64Lib N) (line US f l a h)).1 =
            person.zeroValue (goFloat64Lib N) ∧
          (PersonBytes (goFloat64Lib N) (line US f l a h)).2 ≠ none ∧
          PersonBytesUnsafe (goFloat64Lib N) (line US f l a h) =
            (person.zeroValue (goFloat64Lib N), false)) := by
  have hrej : ((goFloat64Lib N).ParseFloat h).2 ≠ none := ParseFloat_rejects N h hbad
  refine ⟨?_, fun f l a => (height_error_fails (goFloat64Lib N) f l a h hrej).1,
    fun f l a => (height_error_fails (goFloat64Lib N) f l a h hrej).2⟩
  unfold ToFloat64 ToString
  simp only []
  rw [if_pos hrej]

/-- Witness of C12: the height text `"1.2.3"` in the record
`"joe bloggs 25 1.2.3"` and in its 0x1F form. -/
theorem float_rejects_malformed_witness :
    ((oneTwoThree = [] ∨ oneTwoThree = dotText ∨ 2 ≤ oneTwoThree.count 0x2e) ∧
      (SP ∉ joe ∧ SP ∉ bloggs ∧ SP ∉ age25 ∧ SP ∉ oneTwoThree) ∧
      (US ∉ joe ∧ US ∉ bloggs ∧ US ∉ age25 ∧ US ∉ oneTwoThree)) ∧
    ToFloat64 (goFloat64Lib sampleNum) oneTwoThree = ((goFloat64Lib sampleNum).zero, false) ∧
    ((PersonEfficient (goFloat64Lib sampleNum) (line SP joe bloggs age25 oneTwoThree)).1 =
        person.zeroValue (goFloat64Lib sampleNum) ∧
      (PersonEfficient (goFloat64Lib sampleNum) (line SP joe bloggs age25 oneTwoThree)).2
        ≠ none) ∧
    PersonBytesUnsafe (goFloat64Lib sampleNum) (line US joe bloggs age25 oneTwoThree) =
      (person.zeroValue (goFloat64Lib sampleNum), false) :=
  ⟨by decide,
    (float_rejects_malformed sampleNum oneTwoThree (by decide)).1,
    ((float_rejects_malformed sampleNum oneTwoThree (by decide)).2.1 joe bloggs age25
      (by decide) (by decide) (by decide) (by decide)).2,
    ((float_rejects_malformed sampleNum oneTwoThree (by decide)).2.2 joe bloggs age25
      (by decide) (by decide) (by decide) (by decide)).2.2⟩

/-! ## Memory: reads, stores and copies -/

theorem bytesAt_getElem?_eq (m : Memory) (p n i : Nat) :
    (bytesAt m p n)[i]? = if i < n then some (m (p + i)) else none := by
  by_cases h : i < n
  · rw [if_pos h, bytesAt_getElem? m p n i h]
  · rw [if_neg h]
    exact List.getElem?_eq_none (by rw [bytesAt_length]; omega)

theorem bytesAt_congr (m1 m2 : Memory) (p n : Nat)
    (h : ∀ a, p ≤ a → a < p + n → m1 a = m2 a) : bytesAt m1 p n = bytesAt m2 p n := by
  apply List.ext_getElem?
  intro i
  rw [bytesAt_getElem?_eq, bytesAt_getElem?_eq]
  by_cases hi : i < n
  · rw [if_pos hi, if_pos hi, h (p + i) (by omega) (by omega)]
  · rw [if_neg hi, if_neg hi]

theorem bytesAt_zero (m : Memory) (p : Nat) : bytesAt m p 0 = [] := rfl

theorem bytesAt_take (m : Memory) (p n k : Nat) (h : k ≤ n) :
    (bytesAt m p n).take k = bytesAt m p k := by
  apply List.ext_getElem?
  intro i
  rw [List.getElem?_take, bytesAt_getElem?_eq, bytesAt_getElem?_eq]
  by_cases hi : i < k
  · have hin : i < n := by omega
    rw [if_pos hi, if_pos hin, if_pos hi]
  · rw [if_neg hi, if_neg hi]

theorem bytesAt_drop (m : Memory) (p n k : Nat) :
    (bytesAt m p n).drop k = bytesAt m (p + k) (n - k) := by
  apply List.ext_getElem?
  intro i
  rw [List.getElem?_drop, bytesAt_getElem?_eq, bytesAt_getElem?_eq]
  by_cases hi : i < n - k
  · have hin : k + i < n := by omega
    rw [if_pos hi, if_pos hin, Nat.add_assoc]
  · have hin : ¬ k + i < n := by omega
    rw [if_neg hi, if_neg hin]

theorem bytesAt_storeByte_outside (m : Memory) (q : Nat) (v : Byte) (p n : Nat)
    (h : q < p ∨ p + n ≤ q) : bytesAt (storeByte m q v) p n = bytesAt m p n := by
  apply bytesAt_congr
  intro a h1 h2
  have : a ≠ q := by omega
  simp [storeByte, this]

theorem bytesAt_storeByte_inside (m : Memory) (v : Byte) (p n j : Nat) (h : j < n) :
    (bytesAt (storeByte m (p + j) v) p n)[j]? = some v := by
  rw [bytesAt_getElem?_eq, if_pos h]
  simp [storeByte]

theorem bytesAt_storeByte_ne (m : Memory) (v : Byte) (p n j : Nat) (h : j < n)
    (hv : v ≠ m (p + j)) : bytesAt (storeByte m (p + j) v) p n ≠ bytesAt m p n := by
  intro e
  have h1 := bytesAt_storeByte_inside m v p n j h
  rw [e, bytesAt_getElem? m p n j h] at h1
  exact hv (Option.some.inj h1).symm

theorem bytesAt_copyBytes_self (m : Memory) (dst : Nat) (src : List Byte) :
    bytesAt (copyBytes m dst src) dst src.length = src := by
  apply List.ext_getElem?
  intro i
  rw [bytesAt_getElem?_eq]
  by_cases hi : i < src.length
  · have hin : dst ≤ dst + i ∧ dst + i < dst + src.length := by omega
    rw [if_pos hi]
    simp only [copyBytes, hin, and_self, if_true, Nat.add_sub_cancel_left]
    rw [List.getD_eq_getElem?_getD, List.getElem?_eq_getElem hi]
    rfl
  · rw [if_neg hi]
    exact (List.getElem?_eq_none (by omega)).symm

theorem bytesAt_copyBytes_outside (m : Memory) (dst : Nat) (src : List Byte) (p n : Nat)
    (h : p + n ≤ dst ∨ dst + src.length ≤ p) :
    bytesAt (copyBytes m dst src) p n = bytesAt m p n := by
  apply bytesAt_congr
  intro a h1 h2
  have : ¬ (dst ≤ a ∧ a < dst + src.length) := by omega
  simp only [copyBytes, this, if_false]

theorem IndexByte_bound (s : List Byte) (c : Byte) (h : IndexByte s c ≠ -1) :
    0 ≤ IndexByte s c ∧ (IndexByte s c).toNat < s.length := by
  induction s with
  | nil => exact absurd rfl h
  | cons b bs ih =>
    unfold IndexByte at h ⊢
    by_cases hb : b = c
    · simp [hb]
    · rw [if_neg hb] at h ⊢
      simp only [] at h ⊢
      by_cases hneg : IndexByte bs c < 0
      · rw [if_pos hneg] at h
        exact absurd rfl h
      · rw [if_neg hneg]
        have hne : IndexByte bs c ≠ -1 := by omega
        have := ih hne
        rw [List.length_cons]
        omega

/-! ## The tokenizer on headers -/

theorem nilSlice_bytes (m : Memory) : nilSlice.bytes m = [] := rfl

theorem ParseUntilBytesMem_nil (m : Memory) (sep : Byte) :
    ParseUntilBytesMem m nilSlice sep = (nilSlice, nilSlice) := rfl

theorem ParseUntilBytesMem_empty (m : Memory) (x : SliceHeader) (sep : Byte) (h : x.Len = 0) :
    ParseUntilBytesMem m x sep = (nilSlice, nilSlice) := by
  unfold ParseUntilBytesMem
  rw [if_pos h]

theorem ParseUntilBytesMem_cases (m : Memory) (x : SliceHeader) (sep : Byte) :
    (ParseUntilBytesMem m x sep).2 = nilSlice ∧
        ((ParseUntilBytesMem m x sep).1 = nilSlice ∨ (ParseUntilBytesMem m x sep).1 = x) ∨
      ∃ k, k < x.Len ∧ ParseUntilBytesMem m x sep = (x.sliceTo k, x.sliceFrom (k + 1)) := by
  unfold ParseUntilBytesMem
  by_cases h0 : x.Len = 0
  · rw [if_pos h0]
    exact Or.inl ⟨rfl, Or.inl rfl⟩
  · rw [if_neg h0]
    simp only []
    by_cases h1 : IndexByte (x.bytes m) US = -1
    · rw [if_pos h1]
      exact Or.inl ⟨rfl, Or.inr rfl⟩
    · rw [if_neg h1]
      have hb := IndexByte_bound (x.bytes m) US h1
      have hl : (x.bytes m).length = x.Len := bytesAt_length m _ _
      exact Or.inr ⟨_, by omega, rfl⟩

theorem ParseUntilBytesMem_value (m : Memory) (x : SliceHeader) (sep : Byte) :
    ParseUntilBytes (x.bytes m) sep =
      ((ParseUntilBytesMem m x sep).1.bytes m, (ParseUntilBytesMem m x sep).2.bytes m) := by
  have hl : (x.bytes m).length = x.Len := bytesAt_length m _ _
  unfold ParseUntilBytesMem ParseUntilBytes
  by_cases h0 : x.Len = 0
  · rw [if_pos h0, if_pos (by rw [hl]; exact h0)]
    rfl
  · rw [if_neg h0, if_neg (by rw [hl]; exact h0)]
    simp only []
    by_cases h1 : IndexByte (x.bytes m) US = -1
    · rw [if_pos h1, if_pos h1]
      rfl
    · rw [if_neg h1, if_neg h1]
      have hb := IndexByte_bound (x.bytes m) US h1
      have e1 : (x.bytes m).take (IndexByte (x.bytes m) US).toNat
          = (x.sliceTo (IndexByte (x.bytes m) US).toNat).bytes m :=
        bytesAt_take m x.Data x.Len _ (by omega)
      have e2 : (x.bytes m).drop ((IndexByte (x.bytes m) US).toNat + 1)
          = (x.sliceFrom ((IndexByte (x.bytes m) US).toNat + 1)).bytes m :=
        bytesAt_drop m x.Data x.Len _
      rw [e1, e2]

theorem ParseUntilBytesMem_inside (m : Memory) (x bs : SliceHeader) (sep : Byte)
    (hx : x.inside bs) :
    (ParseUntilBytesMem m x sep).1.inside bs ∧ (ParseUntilBytesMem m x sep).2.inside bs := by
  rcases ParseUntilBytesMem_cases m x sep with ⟨h2, h1 | h1⟩ | ⟨k, hk, e⟩
  · rw [h1, h2]
    exact ⟨Or.inl rfl, Or.inl rfl⟩
  · rw [h1, h2]
    exact ⟨hx, Or.inl rfl⟩
  · rw [e]
    rcases hx with h0 | ⟨ha, hb⟩
    · omega
    · constructor
      · right
        show bs.Data ≤ x.Data ∧ x.Data + k ≤ bs.Data + bs.Len
        omega
      · right
        show bs.Data ≤ x.Data + (k + 1) ∧ x.Data + (k + 1) + (x.Len - (k + 1)) ≤ bs.Data + bs.Len
        omega

theorem inside_refl (bs : SliceHeader) : bs.inside bs :=
  Or.inr ⟨le_refl _, le_refl _⟩

theorem ParseUntilBytesMem_snd_len (m : Memory) (x : SliceHeader) (sep : Byte)
    (h : (ParseUntilBytesMem m x sep).2.Len ≠ 0) :
    ∃ k, k < x.Len ∧ ParseUntilBytesMem m x sep = (x.sliceTo k, x.sliceFrom (k + 1)) := by
  rcases ParseUntilBytesMem_cases m x sep with ⟨h2, -⟩ | hk
  · rw [h2] at h
    exact absurd rfl h
  · exact hk

theorem ParseUntilBytesMem_fst_bytes (m : Memory) (x : SliceHeader) (sep : Byte)
    (h : (ParseUntilBytesMem m x sep).1.bytes m ≠ []) : x.Len ≠ 0 := by
  intro h0
  rw [ParseUntilBytesMem_empty m x sep h0] at h
  exact h rfl

/-! ## The zero-copy decoder on headers -/

theorem PersonBytesUnsafeMem_eq (L : Float64Lib) (m : Memory) (bs : SliceHeader) :
    PersonBytesUnsafeMem L m bs =
      if ¬ (ToInt ((ParseUntilBytesMem m (ParseUntilBytesMem m
          (ParseUntilBytesMem m bs US).2 US).2 US).1.bytes m)).2 = true then
        (personMem.zeroValue L, false)
      else if ¬ (ToFloat64 L ((ParseUntilBytesMem m (ParseUntilBytesMem m (ParseUntilBytesMem m
          (ParseUntilBytesMem m bs US).2 US).2 US).2 US).1.bytes m)).2 = true then
        (personMem.zeroValue L, false)
      else
        ({ firstName := ToStringHeader (ParseUntilBytesMem m bs US).1,
           lastName := ToStringHeader (ParseUntilBytesMem m (ParseUntilBytesMem m bs US).2 US).1,
           age := (ToInt ((ParseUntilBytesMem m (ParseUntilBytesMem m
             (ParseUntilBytesMem m bs US).2 US).2 US).1.bytes m)).1,
           height := (ToFloat64 L ((ParseUntilBytesMem m (ParseUntilBytesMem m
             (ParseUntilBytesMem m (ParseUntilBytesMem m bs US).2 US).2 US).2 US).1.bytes m)).1 },
          true) := by
  unfold PersonBytesUnsafeMem
  rcases ParseUntilBytesMem m bs US with ⟨t1, r1⟩
  dsimp only

theorem PersonBytesUnsafe_eq_tokens (L : Float64Lib) (bs : List Byte) :
    PersonBytesUnsafe L bs =
      if ¬ (ToInt (ParseUntilBytes (ParseUntilBytes (ParseUntilBytes bs US).2 US).2 US).1).2
          = true then
        (person.zeroValue L, false)
      else if ¬ (ToFloat64 L (ParseUntilBytes (ParseUntilBytes (ParseUntilBytes
          (ParseUntilBytes bs US).2 US).2 US).2 US).1).2 = true then
        (person.zeroValue L, false)
      else
        ({ firstName := ToString (ParseUntilBytes bs US).1,
           lastName := ToString (ParseUntilBytes (ParseUntilBytes bs US).2 US).1,
           age := (ToInt (ParseUntilBytes (ParseUntilBytes (ParseUntilBytes bs US).2 US).2
             US).1).1,
           height := (ToFloat64 L (ParseUntilBytes (ParseUntilBytes (ParseUntilBytes
             (ParseUntilBytes bs US).2 US).2 US).2 US).1).1 },
          true) := by
  unfold PersonBytesUnsafe
  rcases ParseUntilBytes bs US with ⟨t1, r1⟩
  dsimp only

theorem ParseUntilBytesMem_fst_value (m : Memory) (x : SliceHeader) (sep : Byte) :
    (ParseUntilBytes (x.bytes m) sep).1 = (ParseUntilBytesMem m x sep).1.bytes m := by
  rw [ParseUntilBytesMem_value]

theorem ParseUntilBytesMem_snd_value (m : Memory) (x : SliceHeader) (sep : Byte) :
    (ParseUntilBytes (x.bytes m) sep).2 = (ParseUntilBytesMem m x sep).2.bytes m := by
  rw [ParseUntilBytesMem_value]

theorem PersonBytesUnsafeMem_value (L : Float64Lib) (m : Memory) (bs : SliceHeader) :
    ((PersonBytesUnsafeMem L m bs).1.value m, (PersonBytesUnsafeMem L m bs).2) =
      PersonBytesUnsafe L (bs.bytes m) := by
  rw [PersonBytesUnsafeMem_eq, PersonBytesUnsafe_eq_tokens]
  simp only [ParseUntilBytesMem_fst_value, ParseUntilBytesMem_snd_value]
  split
  · rfl
  · split
    · rfl
    · rfl

theorem ToInt_nil : ToInt [] = (0, false) := by decide

theorem PersonBytesUnsafeMem_success (L : Float64Lib) (m : Memory) (bs : SliceHeader)
    (p : personMem L.float64) (h : PersonBytesUnsafeMem L m bs = (p, true)) :
    ∃ k k2, k < bs.Len ∧ k2 < bs.Len - (k + 1) ∧
      p.firstName = { Data := bs.Data, Len := k } ∧
      p.lastName = { Data := bs.Data + (k + 1), Len := k2 } := by
  rw [PersonBytesUnsafeMem_eq] at h
  split at h
  · exact absurd (congrArg Prod.snd h) (by simp)
  · rename_i hage
    split at h
    · exact absurd (congrArg Prod.snd h) (by simp)
    · have hp := (congrArg Prod.fst h).symm
      simp only [] at hp
      have hne : (ParseUntilBytesMem m (ParseUntilBytesMem m
          (ParseUntilBytesMem m bs US).2 US).2 US).1.bytes m ≠ [] := by
        intro e
        rw [e, ToInt_nil] at hage
        exact hage (by simp)
      have hl2 := ParseUntilBytesMem_fst_bytes m _ US hne
      obtain ⟨k2, hk2, e2⟩ := ParseUntilBytesMem_snd_len m _ US hl2
      have hl1 : (ParseUntilBytesMem m bs US).2.Len ≠ 0 := by omega
      obtain ⟨k, hk, e1⟩ := ParseUntilBytesMem_snd_len m bs US hl1
      rw [e1] at e2 hk2
      refine ⟨k, k2, hk, hk2, ?_, ?_⟩
      · rw [hp, e1]; rfl
      · rw [hp, e1]
        simp only []
        rw [e2]
        rfl

/-! ## The copying decoder on headers -/

theorem PersonBytesMem_eq_tail (L : Float64Lib) (h : Heap) (bs : SliceHeader) :
    PersonBytesMem L h bs =
      PersonBytesMemTail L h (ParseUntilBytesMem h.mem bs US).1
        (ParseUntilBytesMem h.mem (ParseUntilBytesMem h.mem bs US).2 US).1
        (ParseUntilBytesMem h.mem (ParseUntilBytesMem h.mem
          (ParseUntilBytesMem h.mem bs US).2 US).2 US).1
        (ParseUntilBytesMem h.mem (ParseUntilBytesMem h.mem (ParseUntilBytesMem h.mem
          (ParseUntilBytesMem h.mem bs US).2 US).2 US).2 US).1 := by
  unfold PersonBytesMem PersonBytesMemTail
  rcases ParseUntilBytesMem h.mem bs US with ⟨t1, r1⟩
  dsimp only

theorem PersonBytes_eq_tokens (L : Float64Lib) (bs : List Byte) :
    PersonBytes L bs =
      if (Atoi (ParseUntilBytes (ParseUntilBytes (ParseUntilBytes bs US).2 US).2 US).1).2
          ≠ none then
        (person.zeroValue L,
          (Atoi (ParseUntilBytes (ParseUntilBytes (ParseUntilBytes bs US).2 US).2 US).1).2)
      else if (L.ParseFloat (ParseUntilBytes (ParseUntilBytes (ParseUntilBytes
          (ParseUntilBytes bs US).2 US).2 US).2 US).1).2 ≠ none then
        (person.zeroValue L, (L.ParseFloat (ParseUntilBytes (ParseUntilBytes (ParseUntilBytes
          (ParseUntilBytes bs US).2 US).2 US).2 US).1).2)
      else
        ({ firstName := (ParseUntilBytes bs US).1,
           lastName := (ParseUntilBytes (ParseUntilBytes bs US).2 US).1,
           age := (Atoi (ParseUntilBytes (ParseUntilBytes (ParseUntilBytes bs US).2 US).2
             US).1).1,
           height := (L.ParseFloat (ParseUntilBytes (ParseUntilBytes (ParseUntilBytes
             (ParseUntilBytes bs US).2 US).2 US).2 US).1).1 },
          none) := by
  unfold PersonBytes
  rcases ParseUntilBytes bs US with ⟨t1, r1⟩
  dsimp only

theorem slicebytetostring_value (h : Heap) (b : SliceHeader) :
    (slicebytetostring h b).2.bytes (slicebytetostring h b).1.mem = b.bytes h.mem := by
  have hl : (b.bytes h.mem).length = b.Len := bytesAt_length _ _ _
  have := bytesAt_copyBytes_self h.mem h.next (b.bytes h.mem)
  rw [hl] at this
  exact this

theorem slicebytetostring_next (h : Heap) (b : SliceHeader) :
    (slicebytetostring h b).1.next = h.next + b.Len := rfl

theorem slicebytetostring_header (h : Heap) (b : SliceHeader) :
    (slicebytetostring h b).2 = { Data := h.next, Len := b.Len } := rfl

theorem slicebytetostring_preserves (h : Heap) (b : SliceHeader) (p n : Nat)
    (hp : p + n ≤ h.next) :
    bytesAt (slicebytetostring h b).1.mem p n = bytesAt h.mem p n :=
  bytesAt_copyBytes_outside h.mem h.next (b.bytes h.mem) p n (Or.inl hp)

theorem slicebytetostring_inside (h : Heap) (b t bs : SliceHeader) (ht : t.inside bs)
    (hb : bs.Data + bs.Len ≤ h.next) :
    t.bytes (slicebytetostring h b).1.mem = t.bytes h.mem := by
  rcases ht with h0 | ⟨h1, h2⟩
  · show bytesAt _ t.Data t.Len = bytesAt _ t.Data t.Len
    rw [h0]
    rfl
  · exact slicebytetostring_preserves h b t.Data t.Len (by omega)

theorem PersonBytesMemTail_eq (L : Float64Lib) (h : Heap) (t1 t2 t3 t4 : SliceHeader) :
    PersonBytesMemTail L h t1 t2 t3 t4 =
      if (Atoi ((slicebytetostring h t3).2.bytes (slicebytetostring h t3).1.mem)).2 ≠ none then
        ((slicebytetostring h t3).1, personMem.zeroValue L,
          (Atoi ((slicebytetostring h t3).2.bytes (slicebytetostring h t3).1.mem)).2)
      else if (L.ParseFloat ((slicebytetostring (slicebytetostring h t3).1 t4).2.bytes
          (slicebytetostring (slicebytetostring h t3).1 t4).1.mem)).2 ≠ none then
        ((slicebytetostring (slicebytetostring h t3).1 t4).1, personMem.zeroValue L,
          (L.ParseFloat ((slicebytetostring (slicebytetostring h t3).1 t4).2.bytes
            (slicebytetostring (slicebytetostring h t3).1 t4).1.mem)).2)
      else
        ((slicebytetostring (slicebytetostring (slicebytetostring
            (slicebytetostring h t3).1 t4).1 t1).1 t2).1,
          { firstName := (slicebytetostring (slicebytetostring (slicebytetostring h t3).1 t4).1
              t1).2,
            lastName := (slicebytetostring (slicebytetostring (slicebytetostring
              (slicebytetostring h t3).1 t4).1 t1).1 t2).2,
            age := (Atoi ((slicebytetostring h t3).2.bytes (slicebytetostring h t3).1.mem)).1,
            height := (L.ParseFloat ((slicebytetostring (slicebytetostring h t3).1 t4).2.bytes
              (slicebytetostring (slicebytetostring h t3).1 t4).1.mem)).1 },
          none) := by
  unfold PersonBytesMemTail
  rfl

theorem personMem_zeroValue_value (L : Float64Lib) (m : Memory) :
    (personMem.zeroValue L).value m = person.zeroValue L := rfl

theorem PersonBytesMemTail_value (L : Float64Lib) (h : Heap) (bs t1 t2 t3 t4 : SliceHeader)
    (h1 : t1.inside bs) (h2 : t2.inside bs) (h4 : t4.inside bs)
    (hb : bs.Data + bs.Len ≤ h.next) :
    ((PersonBytesMemTail L h t1 t2 t3 t4).2.1.value (PersonBytesMemTail L h t1 t2 t3 t4).1.mem,
        (PersonBytesMemTail L h t1 t2 t3 t4).2.2) =
      if (Atoi (t3.bytes h.mem)).2 ≠ none then (person.zeroValue L, (Atoi (t3.bytes h.mem)).2)
      else if (L.ParseFloat (t4.bytes h.mem)).2 ≠ none then
        (person.zeroValue L, (L.ParseFloat (t4.bytes h.mem)).2)
      else
        ({ firstName := t1.bytes h.mem, lastName := t2.bytes h.mem,
           age := (Atoi (t3.bytes h.mem)).1, height := (L.ParseFloat (t4.bytes h.mem)).1 },
          none) := by
  have hn1 : bs.Data + bs.Len ≤ (slicebytetostring h t3).1.next := by
    rw [slicebytetostring_next]; omega
  have hn2 : bs.Data + bs.Len ≤ (slicebytetostring (slicebytetostring h t3).1 t4).1.next := by
    rw [slicebytetostring_next]; omega
  have hn3 : bs.Data + bs.Len ≤ (slicebytetostring (slicebytetostring
      (slicebytetostring h t3).1 t4).1 t1).1.next := by
    rw [slicebytetostring_next]; omega
  have eage : (slicebytetostring h t3).2.bytes (slicebytetostring h t3).1.mem = t3.bytes h.mem :=
    slicebytetostring_value h t3
  have eheight : (slicebytetostring (slicebytetostring h t3).1 t4).2.bytes
      (slicebytetostring (slicebytetostring h t3).1 t4).1.mem = t4.bytes h.mem := by
    rw [slicebytetostring_value, slicebytetostring_inside h t3 t4 bs h4 hb]
  have efirst : (slicebytetostring (slicebytetostring (slicebytetostring h t3).1 t4).1 t1).2.bytes
      (slicebytetostring (slicebytetostring (slicebytetostring
        (slicebytetostring h t3).1 t4).1 t1).1 t2).1.mem = t1.bytes h.mem := by
    have hpres := slicebytetostring_preserves
      (slicebytetostring (slicebytetostring (slicebytetostring h t3).1 t4).1 t1).1 t2
      (slicebytetostring (slicebytetostring (slicebytetostring h t3).1 t4).1 t1).2.Data
      (slicebytetostring (slicebytetostring (slicebytetostring h t3).1 t4).1 t1).2.Len
      (le_of_eq rfl)
    have hval := slicebytetostring_value
      (slicebytetostring (slicebytetostring h t3).1 t4).1 t1
    rw [slicebytetostring_inside _ t4 t1 bs h1 hn1, slicebytetostring_inside h t3 t1 bs h1 hb]
      at hval
    exact hpres.trans hval
  have elast : (slicebytetostring (slicebytetostring (slicebytetostring
      (slicebytetostring h t3).1 t4).1 t1).1 t2).2.bytes
      (slicebytetostring (slicebytetostring (slicebytetostring
        (slicebytetostring h t3).1 t4).1 t1).1 t2).1.mem = t2.bytes h.mem := by
    rw [slicebytetostring_value, slicebytetostring_inside _ t1 t2 bs h2 hn2,
      slicebytetostring_inside _ t4 t2 bs h2 hn1, slicebytetostring_inside h t3 t2 bs h2 hb]
  rw [PersonBytesMemTail_eq, eage, eheight]
  by_cases ha : (Atoi (t3.bytes h.mem)).2 ≠ none
  · rw [if_pos ha, if_pos ha]
    rfl
  · rw [if_neg ha, if_neg ha]
    by_cases hh : (L.ParseFloat (t4.bytes h.mem)).2 ≠ none
    · rw [if_pos hh, if_pos hh]
      rfl
    · rw [if_neg hh, if_neg hh]
      simp only [personMem.value, efirst, elast]

theorem PersonBytesMemTail_fresh (L : Float64Lib) (h : Heap) (t1 t2 t3 t4 : SliceHeader) :
    ((PersonBytesMemTail L h t1 t2 t3 t4).2.1.firstName.Len = 0 ∨
        h.next ≤ (PersonBytesMemTail L h t1 t2 t3 t4).2.1.firstName.Data) ∧
      ((PersonBytesMemTail L h t1 t2 t3 t4).2.1.lastName.Len = 0 ∨
        h.next ≤ (PersonBytesMemTail L h t1 t2 t3 t4).2.1.lastName.Data) := by
  rw [PersonBytesMemTail_eq]
  split
  · exact ⟨Or.inl rfl, Or.inl rfl⟩
  · split
    · exact ⟨Or.inl rfl, Or.inl rfl⟩
    · constructor
      · right
        show h.next ≤ h.next + t3.Len + t4.Len
        omega
      · right
        show h.next ≤ h.next + t3.Len + t4.Len + t1.Len
        omega

theorem PersonBytesMem_value (L : Float64Lib) (h : Heap) (bs : SliceHeader)
    (hb : bs.Data + bs.Len ≤ h.next) :
    ((PersonBytesMem L h bs).2.1.value (PersonBytesMem L h bs).1.mem,
        (PersonBytesMem L h bs).2.2) = PersonBytes L (bs.bytes h.mem) := by
  have i1 := ParseUntilBytesMem_inside h.mem bs bs US (inside_refl bs)
  have i2 := ParseUntilBytesMem_inside h.mem _ bs US i1.2
  have i3 := ParseUntilBytesMem_inside h.mem _ bs US i2.2
  have i4 := ParseUntilBytesMem_inside h.mem _ bs US i3.2
  rw [PersonBytesMem_eq_tail, PersonBytesMemTail_value L h bs _ _ _ _ i1.1 i2.1 i4.1 hb,
    PersonBytes_eq_tokens]
  simp only [ParseUntilBytesMem_fst_value, ParseUntilBytesMem_snd_value]

theorem PersonBytesMem_fresh (L : Float64Lib) (h : Heap) (bs : SliceHeader) :
    ((PersonBytesMem L h bs).2.1.firstName.Len = 0 ∨
        h.next ≤ (PersonBytesMem L h bs).2.1.firstName.Data) ∧
      ((PersonBytesMem L h bs).2.1.lastName.Len = 0 ∨
        h.next ≤ (PersonBytesMem L h bs).2.1.lastName.Data) := by
  rw [PersonBytesMem_eq_tail]
  exact PersonBytesMemTail_fresh L h _ _ _ _

theorem StringHeader_bytes_store_fresh (s : StringHeader) (m : Memory) (q : Nat) (v : Byte)
    (h : s.Len = 0 ∨ q < s.Data) : s.bytes (storeByte m q v) = s.bytes m := by
  rcases h with h0 | h1
  · show bytesAt _ s.Data s.Len = bytesAt _ s.Data s.Len
    rw [h0]
    rfl
  · exact bytesAt_storeByte_outside m q v s.Data s.Len (Or.inl h1)

theorem exampleOutput_eq (h : Heap) : exampleOutput h = (text111, text011) := by
  have e1 : bytesAt (copyBytes h.mem h.next text111) h.next 3 = text111 :=
    bytesAt_copyBytes_self h.mem h.next text111
  have e2 : bytesAt (storeByte (copyBytes h.mem h.next text111) (h.next + 0) 0x30) h.next 3
      = text011 := by
    apply List.ext_getElem?
    intro i
    rw [bytesAt_getElem?_eq]
    match i with
    | 0 => simp [storeByte, text011]
    | 1 => simp [storeByte, copyBytes, text011, text111]
    | 2 => simp [storeByte, copyBytes, text011, text111]
    | i + 3 => simp [text011]
  show (bytesAt (copyBytes h.mem h.next text111) h.next 3,
    bytesAt (storeByte (copyBytes h.mem h.next text111) (h.next + 0) 0x30) h.next 3) = _
  rw [e1, e2]

/-- C14: zero-copy aliasing.  For every memory and every buffer on which
`PersonBytesUnsafe` succeeds, the returned first and last name are windows
into the buffer (the first name starts at the buffer's data pointer, the last
name lies within its elements), they denote the values of the value-level
decoder, and a later store `bs[i] = v` at an index of a window is read back
through the name returned before, which changes the text when `v` differs
from the byte stored there; `example` of unsafe.go prints `111` and then
`011`.  `PersonBytes` on a buffer allocated in the heap returns names that
denote the values of the value-level decoder and that no later store to an
element of the buffer changes. -/
theorem zero_copy_aliasing (L : Float64Lib) (h : Heap) (bs : SliceHeader) :
    (∀ p : personMem L.float64, PersonBytesUnsafeMem L h.mem bs = (p, true) →
      (p.value h.mem, true) = PersonBytesUnsafe L (bs.bytes h.mem) ∧
        (p.firstName.Data = bs.Data ∧ p.firstName.Len < bs.Len) ∧
        (bs.Data < p.lastName.Data ∧
          p.lastName.Data + p.lastName.Len < bs.Data + bs.Len) ∧
        (∀ (i : Nat) (v : Byte), i < p.firstName.Len →
          i < bs.Len ∧
            (p.firstName.bytes (bs.setIndex h.mem i v))[i]? = some v ∧
            (v ≠ h.mem (bs.Data + i) →
              p.firstName.bytes (bs.setIndex h.mem i v) ≠ p.firstName.bytes h.mem)) ∧
        (∀ (j : Nat) (v : Byte), j < p.lastName.Len →
          p.lastName.Data - bs.Data + j < bs.Len ∧
            (p.lastName.bytes
              (bs.setIndex h.mem (p.lastName.Data - bs.Data + j) v))[j]? = some v ∧
            (v ≠ h.mem (p.lastName.Data + j) →
              p.lastName.bytes (bs.setIndex h.mem (p.lastName.Data - bs.Data + j) v)
                ≠ p.lastName.bytes h.mem))) ∧
      (bs.Data + bs.Len ≤ h.next →
        ((PersonBytesMem L h bs).2.1.value (PersonBytesMem L h bs).1.mem,
            (PersonBytesMem L h bs).2.2) = PersonBytes L (bs.bytes h.mem) ∧
          ∀ (i : Nat) (v : Byte), i < bs.Len →
            (PersonBytesMem L h bs).2.1.firstName.bytes
                (bs.setIndex (PersonBytesMem L h bs).1.mem i v)
              = (PersonBytesMem L h bs).2.1.firstName.bytes (PersonBytesMem L h bs).1.mem ∧
            (PersonBytesMem L h bs).2.1.lastName.bytes
                (bs.setIndex (PersonBytesMem L h bs).1.mem i v)
              = (PersonBytesMem L h bs).2.1.lastName.bytes (PersonBytesMem L h bs).1.mem) ∧
      exampleOutput h = (text111, text011) := by
  refine ⟨fun p hp => ?_, fun hb => ⟨PersonBytesMem_value L h bs hb, fun i v hi => ?_⟩,
    exampleOutput_eq h⟩
  · obtain ⟨k, k2, hk, hk2, hf, hl⟩ := PersonBytesUnsafeMem_success L h.mem bs p hp
    have hval := PersonBytesUnsafeMem_value L h.mem bs
    rw [hp] at hval
    refine ⟨hval, ?_, ?_, fun i v hi => ?_, fun j v hj => ?_⟩
    · rw [hf]
      exact ⟨rfl, hk⟩
    · rw [hl]
      show bs.Data < bs.Data + (k + 1) ∧ bs.Data + (k + 1) + k2 < bs.Data + bs.Len
      omega
    · rw [hf] at hi ⊢
      have hi2 : i < k := hi
      exact ⟨by omega, bytesAt_storeByte_inside h.mem v bs.Data k i hi2,
        fun hv => bytesAt_storeByte_ne h.mem v bs.Data k i hi2 hv⟩
    · rw [hl] at hj ⊢
      have hj2 : j < k2 := hj
      have e : bs.Data + (bs.Data + (k + 1) - bs.Data + j) = bs.Data + (k + 1) + j := by omega
      refine ⟨?_, ?_, ?_⟩
      · show bs.Data + (k + 1) - bs.Data + j < bs.Len
        omega
      · show (bytesAt (storeByte h.mem (bs.Data + (bs.Data + (k + 1) - bs.Data + j)) v)
          (bs.Data + (k + 1)) k2)[j]? = some v
        rw [e]
        exact bytesAt_storeByte_inside h.mem v (bs.Data + (k + 1)) k2 j hj2
      · intro hv
        show bytesAt (storeByte h.mem (bs.Data + (bs.Data + (k + 1) - bs.Data + j)) v)
          (bs.Data + (k + 1)) k2 ≠ bytesAt h.mem (bs.Data + (k + 1)) k2
        rw [e]
        exact bytesAt_storeByte_ne h.mem v (bs.Data + (k + 1)) k2 j hj2 hv
  · have hfresh := PersonBytesMem_fresh L h bs
    constructor
    · apply StringHeader_bytes_store_fresh
      rcases hfresh.1 with h0 | h1
      · exact Or.inl h0
      · exact Or.inr (by omega)
    · apply StringHeader_bytes_store_fresh
      rcases hfresh.2 with h0 | h1
      · exact Or.inl h0
      · exact Or.inr (by omega)

/-- Witness of C14: the record of the benchmarks stored at address 16.  The
zero-copy names are the windows at 16 and 20; after `bs[0] = 'J'` the first
name returned before reads `J` at index 0, and after `bs[4] = 'B'` the last
name reads `B` at index 0; the names that `PersonBytes` returns are unchanged
by `bs[0] = 'J'`. -/
theorem zero_copy_aliasing_witness :
    (PersonBytesUnsafeMem sampleLib benchHeap.mem benchBuffer = (benchPerson, true) ∧
      (0 : Nat) < benchPerson.firstName.Len ∧ (0 : Nat) < benchPerson.lastName.Len ∧
      benchBuffer.Data + benchBuffer.Len ≤ benchHeap.next ∧ (0 : Nat) < benchBuffer.Len) ∧
    (benchPerson.firstName.bytes (benchBuffer.setIndex benchHeap.mem 0 0x4a))[0]? = some 0x4a ∧
    (benchPerson.lastName.bytes (benchBuffer.setIndex benchHeap.mem
      (benchPerson.lastName.Data - benchBuffer.Data + 0) 0x42))[0]? = some 0x42 ∧
    (PersonBytesMem sampleLib benchHeap benchBuffer).2.1.firstName.bytes
        (benchBuffer.setIndex (PersonBytesMem sampleLib benchHeap benchBuffer).1.mem 0 0x4a)
      = (PersonBytesMem sampleLib benchHeap benchBuffer).2.1.firstName.bytes
        (PersonBytesMem sampleLib benchHeap benchBuffer).1.mem :=
  ⟨⟨by decide, by decide, by decide, by decide, by decide⟩,
    (((zero_copy_aliasing sampleLib benchHeap benchBuffer).1 benchPerson
      (by decide)).2.2.2.1 0 0x4a (by decide)).2.1,
    (((zero_copy_aliasing sampleLib benchHeap benchBuffer).1 benchPerson
      (by decide)).2.2.2.2 0 0x42 (by decide)).2.1,
    (((zero_copy_aliasing sampleLib benchHeap benchBuffer).2.1 (by decide)).2 0 0x4a
      (by decide)).1⟩

end GoPerf
